import Mathlib

/-!
# easyeye: generalized Hough transform for eyelid detection

A shallow embedding of `easyeye_eyelid_detection.cc` (namespace
`cvmore::objdetect`): the shapes, the masks, the `HoughTransform` engine and
the parameter range builders, followed by theorems about them.

Conventions of the embedding.

* `double` and `float` arithmetic is embedded at two levels. In the engine, in
  the parabolas and in `RotatedShape.Calculate` the values are exact numbers:
  the shapes are written over an arbitrary field `K`, the engine over `ℚ`.
  Where the rounding of `double` arithmetic decides a statement, in
  `RotatedShape.CalculateRounded` and in `ParamRange.Incremental`, every
  arithmetic operation passes its exact result through a rounding function
  `fl`; `roundDouble` is the rounding of IEEE 754 binary64 (to nearest, ties to
  even) on an unbounded exponent range, and `fl = id` is exact arithmetic.
  Infinities and NaN are outside the model; a division by zero, whose quotient
  is not finite, is reported as a `Fault`.
* `std::vector<T>` is `List T`. A read outside a vector or an array, and the use
  of an uninitialised variable, are undefined behaviour in C++; the embedding
  reports them as a `Fault` through `Except`.
* `int` and `size_t` values are `Int` and `Nat`; the only conversion to `int`
  in the file is guarded by `IsInsideIntLimits`, and the `int` arithmetic of
  `ParamRange::Steps` reports a result outside the `int` range as a `Fault`.
* `std::sin` and `std::cos` are parameters of `RotatedShape.Calculate` and of
  `RotatedShape.CalculateRounded`.
* The `debug_` flag only writes to `cerr` and is left out.
-/

namespace EasyEye

/-- Undefined behaviour reached by the C++ code, and loop fuel. -/
inductive Fault where
  /-- A read or write outside the bounds of a vector or of an array. -/
  | outOfRange
  /-- A call through the local mask pointer while it is uninitialised. -/
  | uninitialisedMask
  /-- The arg-max search ran on an array without cells. -/
  | noMaximum
  /-- A floating-point division by zero: the quotient is not a finite number. -/
  | notFinite
  /-- A signed integer operation whose result does not fit in `int`. -/
  | overflow
  /-- The bounded unrolling of a `while` loop was too short. -/
  | outOfFuel
  deriving DecidableEq, Repr

/-- Unchecked `operator[]` of `std::vector`: `v[i]`. -/
def vectorAt {α : Type} (v : List α) (i : Nat) : Except Fault α :=
  match v[i]? with
  | some a => .ok a
  | none => .error .outOfRange

/-- The class `cv::Point2d`. -/
structure Point2d (K : Type) where
  x : K
  y : K

/-! ## Rounding to `double` -/

/-- The number `⌊log₂ n⌋` for `n ≥ 1`, by repeated halving; `fuel ≥ n` rounds
are more than enough. -/
def log2Loop : Nat → Nat → Nat
  | 0, _ => 0
  | fuel + 1, n => if n < 2 then 0 else log2Loop fuel (n / 2) + 1

/-- The integer nearest to `q`; a value halfway between two integers goes to
the even one. -/
def roundEven (q : ℚ) : Int :=
  let f := ⌊q⌋
  let r := q - f
  if r < 1 / 2 then f else if 1 / 2 < r then f + 1 else if f % 2 = 0 then f else f + 1

/-- The `double` nearest to `x`: IEEE 754 binary64 rounding to nearest, ties to
even. With `e = ⌊log₂ |x|⌋` the doubles around `x` are the multiples of
`2 ^ (e - 52)`, which leaves 53 significant bits. The exponent range is not
bounded: overflow to infinity and subnormal numbers are not modelled. An
arithmetic operation on doubles returns `roundDouble` of its exact result. -/
def roundDouble (x : ℚ) : ℚ :=
  if x = 0 then 0
  else
    let k : Int := (log2Loop x.num.natAbs x.num.natAbs : Int) - (log2Loop x.den x.den : Int)
    let e : Int := if (2 : ℚ) ^ k ≤ |x| then k else k - 1
    let ulp : ℚ := (2 : ℚ) ^ (e - 52)
    (roundEven (x / ulp) : ℚ) * ulp

/-! ## Shapes -/

/-- The interface `ShapeInterface`. `Calculate(t, params, output)` writes
`output` (passed here as the incoming value) and returns the in-range flag. -/
structure ShapeInterface (K : Type) where
  Calculate : K → List K → Point2d K → Except Fault (Bool × Point2d K)
  ComputeFixedPoint : List K → Except Fault (Point2d K)

section Shapes

variable {K : Type} [Field K]

/-- Modelled from the spec: the enumerators `kIndexA`, `kIndexB`, `kIndexC` of
`StandardFormParabola` are declared in a header that is not part of the
sources; the spec gives `params = [a, b, c]`. -/
def StandardFormParabola.kIndexA : Nat := 0

/-- Modelled from the spec: see `StandardFormParabola.kIndexA`. -/
def StandardFormParabola.kIndexB : Nat := 1

/-- Modelled from the spec: see `StandardFormParabola.kIndexA`. -/
def StandardFormParabola.kIndexC : Nat := 2

/-- Modelled from the spec: the enumerators `kIndexA`, `kIndexH`, `kIndexK` of
`VertexFormParabola` are declared in a header that is not part of the sources;
the spec gives `params = [a, h, k]`. -/
def VertexFormParabola.kIndexA : Nat := 0

/-- Modelled from the spec: see `VertexFormParabola.kIndexA`. -/
def VertexFormParabola.kIndexH : Nat := 1

/-- Modelled from the spec: see `VertexFormParabola.kIndexA`. -/
def VertexFormParabola.kIndexK : Nat := 2

/-- `StandardFormParabola::Calculate`. -/
def StandardFormParabola.Calculate (t : K) (params : List K) (_output : Point2d K) :
    Except Fault (Bool × Point2d K) :=
  match vectorAt params 0, vectorAt params 1, vectorAt params 2 with
  | .ok a, .ok b, .ok c => .ok (true, { x := t, y := a * t * t + b * t + c })
  | _, _, _ => .error .outOfRange

/-- `StandardFormParabola::ComputeFixedPoint`. -/
def StandardFormParabola.ComputeFixedPoint [DecidableEq K] (params : List K) :
    Except Fault (Point2d K) :=
  match vectorAt params StandardFormParabola.kIndexB,
        vectorAt params StandardFormParabola.kIndexA with
  | .ok b, .ok a =>
    if 2 * a = 0 then .error .notFinite
    else
      let vx : K := -b / (2 * a)
      match StandardFormParabola.Calculate vx params { x := vx, y := 0 } with
      | .ok (_, v) => .ok v
      | .error e => .error e
  | _, _ => .error .outOfRange

/-- `VertexFormParabola::Calculate`. -/
def VertexFormParabola.Calculate (t : K) (params : List K) (_p : Point2d K) :
    Except Fault (Bool × Point2d K) :=
  match vectorAt params VertexFormParabola.kIndexA,
        vectorAt params VertexFormParabola.kIndexH,
        vectorAt params VertexFormParabola.kIndexK with
  | .ok a, .ok h, .ok k => .ok (true, { x := t, y := a * (t - h) * (t - h) + k })
  | _, _, _ => .error .outOfRange

/-- `VertexFormParabola::ComputeFixedPoint`. -/
def VertexFormParabola.ComputeFixedPoint (params : List K) : Except Fault (Point2d K) :=
  match vectorAt params VertexFormParabola.kIndexH,
        vectorAt params VertexFormParabola.kIndexK with
  | .ok h, .ok k => .ok { x := h, y := k }
  | _, _ => .error .outOfRange

/-- A `StandardFormParabola` object seen through `ShapeInterface`. -/
def StandardFormParabola.shape [DecidableEq K] : ShapeInterface K where
  Calculate := StandardFormParabola.Calculate
  ComputeFixedPoint := StandardFormParabola.ComputeFixedPoint

/-- A `VertexFormParabola` object seen through `ShapeInterface`. -/
def VertexFormParabola.shape : ShapeInterface K where
  Calculate := VertexFormParabola.Calculate
  ComputeFixedPoint := VertexFormParabola.ComputeFixedPoint

/-- The members of `RotatedShape`, set by its constructor. -/
structure RotatedShape (K : Type) where
  unrotated_ : ShapeInterface K
  theta_index_ : Int

/-- `RotatedShape::ComputeFixedPoint`. -/
def RotatedShape.ComputeFixedPoint (self : RotatedShape K) (params : List K) :
    Except Fault (Point2d K) :=
  self.unrotated_.ComputeFixedPoint params

/-- `RotatedShape::Calculate` in exact arithmetic; `sin` and `cos` stand for
`std::sin` and `std::cos`. -/
def RotatedShape.Calculate (sin cos : K → K) (self : RotatedShape K) (t : K)
    (params : List K) (output : Point2d K) : Except Fault (Bool × Point2d K) :=
  match self.unrotated_.Calculate t params output with
  | .error e => .error e
  | .ok (in_range, output) =>
    match self.unrotated_.ComputeFixedPoint params with
    | .error e => .error e
    | .ok translation =>
      if self.theta_index_ < 0 then .error .outOfRange
      else
        match vectorAt params self.theta_index_.toNat with
        | .error e => .error e
        | .ok theta =>
          let x := output.x - translation.x
          let y := output.y - translation.y
          let sin_theta := sin theta
          let cos_theta := cos theta
          .ok (in_range,
            { x := x * cos_theta - y * sin_theta + translation.x,
              y := x * sin_theta + y * cos_theta + translation.y })

/-- `RotatedShape::Calculate` in `double` arithmetic: the same statements as
in `RotatedShape.Calculate`, with the result of every subtraction,
multiplication and addition rounded by `fl`, each operation separately. `sin`
and `cos` stand for `std::sin` and `std::cos`, which return doubles. -/
def RotatedShape.CalculateRounded (fl : K → K) (sin cos : K → K) (self : RotatedShape K)
    (t : K) (params : List K) (output : Point2d K) : Except Fault (Bool × Point2d K) :=
  match self.unrotated_.Calculate t params output with
  | .error e => .error e
  | .ok (in_range, output) =>
    match self.unrotated_.ComputeFixedPoint params with
    | .error e => .error e
    | .ok translation =>
      if self.theta_index_ < 0 then .error .outOfRange
      else
        match vectorAt params self.theta_index_.toNat with
        | .error e => .error e
        | .ok theta =>
          let x := fl (output.x - translation.x)
          let y := fl (output.y - translation.y)
          let sin_theta := sin theta
          let cos_theta := cos theta
          .ok (in_range,
            { x := fl (fl (fl (x * cos_theta) - fl (y * sin_theta)) + translation.x),
              y := fl (fl (fl (x * sin_theta) + fl (y * cos_theta)) + translation.y) })

/-- A `RotatedShape` object seen through `ShapeInterface`. -/
def RotatedShape.shape (sin cos : K → K) (self : RotatedShape K) : ShapeInterface K where
  Calculate := RotatedShape.Calculate sin cos self
  ComputeFixedPoint := RotatedShape.ComputeFixedPoint self

end Shapes

/-! ## Masks and images -/

/-- The interface `MaskInterface`. -/
structure MaskInterface where
  CanVote : Int → Int → Bool

/-- The members of `DefaultMask`, set by its constructor
`DefaultMask(num_rows_, num_cols_)`. -/
structure DefaultMask where
  num_rows : Int
  num_cols : Int

/-- `DefaultMask::CanVote`. -/
def DefaultMask.CanVote (self : DefaultMask) (x y : Int) : Bool :=
  decide (x ≥ 0) && decide (x < self.num_cols) && decide (y ≥ 0) && decide (y < self.num_rows)

/-- A `DefaultMask` object seen through `MaskInterface`. -/
def DefaultMask.mask (self : DefaultMask) : MaskInterface where
  CanVote := self.CanVote

/-- What the engine reads of the input image `cv::Mat`: `rows`, `cols`, and
`Interpolate x y` for `cvmore::Pixels::Interpolate(image, x, y)`, a routine of
`easyeye_imaging` that is not part of the sources and is taken as given. -/
structure Image where
  rows : Int
  cols : Int
  Interpolate : ℚ → ℚ → ℚ

/-- Modelled from the spec: `cvmore::Pixels::Interpolate` is not part of the
sources; the spec describes the sampling as bilinear interpolation at a
fractional coordinate. Bilinear interpolation at `(x, y)` combines the pixels at
the grid points around `(x, y)`: the columns `⌊x⌋` and `⌈x⌉` and the rows `⌊y⌋`
and `⌈y⌉`, which is one column when `x` is an integer and one row when `y` is.
The pixels are listed as (column, row). -/
def bilinearFootprint (x y : ℚ) : List (Int × Int) :=
  [(⌊x⌋, ⌊y⌋), (⌈x⌉, ⌊y⌋), (⌊x⌋, ⌈y⌉), (⌈x⌉, ⌈y⌉)]

/-! ## The dense N-dimensional array `cv::Mat` of the accumulators -/

/-- A dense array of `float` cells as the OpenCV documentation describes it:
the extent of each dimension and the cells in row-major order, addressed by one
index per dimension. How the library stores arrays of fewer than two dimensions
is not modelled. -/
structure Mat where
  size : List Nat
  data : List ℚ

/-- The default-constructed `cv::Mat`: no dimensions, no cells. -/
def Mat.empty : Mat := { size := [], data := [] }

/-- Number of cells allocated by `create`: the product of the extents; a call
with zero dimensions allocates nothing. -/
def Mat.total (sizes : List Nat) : Nat :=
  if sizes = [] then 0 else sizes.prod

/-- The calls `m.create(ndims, sizes, CV_32F); m = cv::Scalar(0.0f)`. -/
def Mat.create (sizes : List Nat) : Mat :=
  { size := sizes, data := List.replicate (Mat.total sizes) 0 }

/-- An index vector addresses a cell: one index per dimension, each below the
extent of its dimension. -/
def inBounds : List Nat → List Nat → Bool
  | [], [] => true
  | s :: sizes, i :: idx => decide (i < s) && inBounds sizes idx
  | _, _ => false

/-- Row-major offset of the cell at an index vector: the sum of
`idx[k] * step[k]`, where `step[k]` is the product of the later extents. -/
def rank : List Nat → List Nat → Nat
  | _ :: sizes, i :: idx => i * sizes.prod + rank sizes idx
  | _, _ => 0

/-- The index vector of the cell at a row-major offset. -/
def ofs2idx : List Nat → Nat → List Nat
  | [], _ => []
  | s :: sizes, ofs => (ofs / sizes.prod) % s :: ofs2idx sizes (ofs % sizes.prod)

/-- Read of `m.at<float>(idx)`. -/
def Mat.at (m : Mat) (idx : List Nat) : Except Fault ℚ :=
  if inBounds m.size idx then vectorAt m.data (rank m.size idx) else .error .outOfRange

/-- The assignment `m.at<float>(idx) = v`. -/
def Mat.set (m : Mat) (idx : List Nat) (v : ℚ) : Except Fault Mat :=
  if inBounds m.size idx && decide (rank m.size idx < m.data.length) then
    .ok { m with data := m.data.set (rank m.size idx) v }
  else .error .outOfRange

/-- The largest cell of a row-major cell list and its offset; among equal
cells the scan of `cv::minMaxIdx` keeps the first. -/
def maxLoc : List ℚ → Option (ℚ × Nat)
  | [] => none
  | x :: xs =>
    match maxLoc xs with
    | none => some (x, 0)
    | some (m, i) => if x < m then some (m, i + 1) else some (x, 0)

/-- The call `cv::minMaxIdx(m, NULL, &max_accumulated, NULL, max_index)`: the
maximum and its location. On an array without cells the library leaves no
location of a cell in `max_index`. -/
def minMaxIdx (m : Mat) : Except Fault (ℚ × List Nat) :=
  match maxLoc m.data with
  | none => .error .noMaximum
  | some (max_accumulated, ofs) => .ok (max_accumulated, ofs2idx m.size ofs)

/-! ## The engine `HoughTransform` -/

/-- The members of `HoughTransform`. `num_params` is kept equal to
`param_ranges_.size()` by the constructor and `AddParamRange`, its only
writers, and is the derived `HoughTransform.num_params` below. -/
structure HoughTransform where
  param_ranges_ : List (List ℚ)
  mask_ : Option MaskInterface
  accumulator : Mat
  normalized_accumulator : Mat
  candidate_magnitudes : Mat
  max_candidates_ : Nat
  normalized_ : Bool

namespace HoughTransform

/-- The constructor `HoughTransform::HoughTransform()`. -/
def new : HoughTransform :=
  { param_ranges_ := [], mask_ := none, accumulator := Mat.empty,
    normalized_accumulator := Mat.empty, candidate_magnitudes := Mat.empty,
    max_candidates_ := 1, normalized_ := false }

/-- The member `num_params`. -/
def num_params (self : HoughTransform) : Nat := self.param_ranges_.length

/-- `HoughTransform::AddParamRange`. -/
def AddParamRange (self : HoughTransform) (param_range : List ℚ) : HoughTransform :=
  { self with param_ranges_ := self.param_ranges_ ++ [param_range] }

/-- `HoughTransform::set_mask`. -/
def set_mask (self : HoughTransform) (mask : MaskInterface) : HoughTransform :=
  { self with mask_ := some mask }

/-- `HoughTransform::set_max_candidates`. -/
def set_max_candidates (self : HoughTransform) (max_candidates : Nat) : HoughTransform :=
  { self with max_candidates_ := max_candidates }

/-- `HoughTransform::max_candidates`. -/
def max_candidates (self : HoughTransform) : Nat := self.max_candidates_

/-- `HoughTransform::max_int`, the largest `int`. -/
def max_int : Int := 2147483647

/-- `HoughTransform::min_int`, the smallest `int`. -/
def min_int : Int := -2147483648

/-- `HoughTransform::IsInsideIntLimits`. -/
def IsInsideIntLimits (value : ℚ) : Bool :=
  decide (value ≥ (min_int : ℚ)) && decide (value ≤ (max_int : ℚ))

/-- The conversion `(int) round(v)`: `round` of `<cmath>` takes halfway cases
away from zero. -/
def roundInt (v : ℚ) : Int :=
  if 0 ≤ v then ⌊v + 1 / 2⌋ else ⌈v - 1 / 2⌉

/-- `HoughTransform::GetPixelValue`. -/
def GetPixelValue (image : Image) (x y : ℚ) : ℚ := image.Interpolate x y

/-- Modelled from the spec: `Vectors::Cardinality` of `easyeye_utils` is not
part of the sources; the spec defines the cardinality of the parameter space as
the product of the axis lengths. -/
def Cardinality (param_ranges : List (List ℚ)) : Nat :=
  (param_ranges.map List.length).prod

/-- The loop of `AdvanceParameterIndices` over the axes `i = n-1, ..., 0`, run
while `bump` holds: the later axes are advanced first, the head axis only if
they all rolled over. Returns `bump` and the updated indices. -/
def bumpIndices : List Nat → List Nat → Bool × List Nat
  | s :: sizes, i :: idx =>
    let r := bumpIndices sizes idx
    if r.1 then
      if i + 1 ≥ s then (true, 0 :: r.2) else (false, (i + 1) :: r.2)
    else (false, i :: r.2)
  | _, idx => (true, idx)

/-- `HoughTransform::AdvanceParameterIndices`: the returned flag and the
updated `param_indices`. -/
def AdvanceParameterIndices (self : HoughTransform) (param_indices : List Nat) :
    Bool × List Nat :=
  let r := bumpIndices (self.param_ranges_.map List.length) param_indices
  (!r.1, r.2)

/-- The values `param_ranges[i][indices[i]]` for every axis `i`. -/
def axisValues : List (List ℚ) → List Nat → Except Fault (List ℚ)
  | [], _ => .ok []
  | _ :: _, [] => .error .outOfRange
  | r :: ranges, i :: idx =>
    match vectorAt r i, axisValues ranges idx with
    | .ok v, .ok vs => .ok (v :: vs)
    | _, _ => .error .outOfRange

/-- `HoughTransform::SetParameterValues`: the new contents of `param_values`. -/
def SetParameterValues (self : HoughTransform) (param_indices : List Nat) :
    Except Fault (List ℚ) :=
  axisValues self.param_ranges_ param_indices

/-- The state of the loops of `Accumulate`: the engine with its three arrays,
the local point `p`, and, as a record for the statements below, the points at
which `GetPixelValue` has sampled the image so far. -/
structure AccumulateState where
  self : HoughTransform
  p : Point2d ℚ
  sampled : List (Point2d ℚ)

/-- The update of the vote-count and running-mean arrays made under
`if (normalized_)` after a vote. -/
def normalizeVote (self : HoughTransform) (param_indices : List Nat) (new_accum : ℚ) :
    Except Fault HoughTransform :=
  match self.candidate_magnitudes.at param_indices with
  | .error e => .error e
  | .ok magnitude =>
    let current_magnitude : Nat := Int.toNat ⌊magnitude⌋
    let new_magnitude : Nat := current_magnitude + 1
    match self.candidate_magnitudes.set param_indices (new_magnitude : ℚ) with
    | .error e => .error e
    | .ok magnitudes =>
      match self.normalized_accumulator.set param_indices (new_accum / (new_magnitude : ℚ)) with
      | .error e => .error e
      | .ok normalized =>
        .ok { self with candidate_magnitudes := magnitudes, normalized_accumulator := normalized }

/-- One round of the loop over `t_range` in `Accumulate`, for the sample `t`.
`mask` is the local pointer of that name: `none` while it is uninitialised. -/
def vote (image : Image) (shape : ShapeInterface ℚ) (mask : Option MaskInterface)
    (param_indices : List Nat) (param_values : List ℚ) (st : AccumulateState) (t : ℚ) :
    Except Fault AccumulateState :=
  match shape.Calculate t param_values st.p with
  | .error e => .error e
  | .ok (in_range, p) =>
    if in_range && IsInsideIntLimits p.y && IsInsideIntLimits p.x then
      let rx := roundInt p.x
      let ry := roundInt p.y
      match mask with
      | none => .error .uninitialisedMask
      | some mask =>
        if mask.CanVote rx ry then
          let pixel_value := GetPixelValue image p.x p.y
          match st.self.accumulator.at param_indices with
          | .error e => .error e
          | .ok current_accum =>
            let new_accum := current_accum + pixel_value
            match st.self.accumulator.set param_indices new_accum with
            | .error e => .error e
            | .ok accumulator =>
              let self1 := { st.self with accumulator := accumulator }
              if st.self.normalized_ then
                match normalizeVote self1 param_indices new_accum with
                | .error e => .error e
                | .ok self2 => .ok { self := self2, p := p, sampled := st.sampled ++ [p] }
              else .ok { self := self1, p := p, sampled := st.sampled ++ [p] }
        else .ok { st with p := p }
    else .ok { st with p := p }

/-- The loop `for (size_t i = 0; i < t_range.size(); i++)` of `Accumulate`. -/
def votes (image : Image) (shape : ShapeInterface ℚ) (mask : Option MaskInterface)
    (param_indices : List Nat) (param_values : List ℚ) :
    List ℚ → AccumulateState → Except Fault AccumulateState
  | [], st => .ok st
  | t :: t_range, st =>
    match vote image shape mask param_indices param_values st t with
    | .error e => .error e
    | .ok st1 => votes image shape mask param_indices param_values t_range st1

/-- The loop `while (can_continue)` of `Accumulate`, unrolled at most `fuel`
times. -/
def accumulateLoop (image : Image) (shape : ShapeInterface ℚ) (mask : Option MaskInterface)
    (t_range : List ℚ) :
    Nat → Bool → List Nat → AccumulateState → Except Fault AccumulateState
  | _, false, _, st => .ok st
  | 0, true, _, _ => .error .outOfFuel
  | fuel + 1, true, param_indices, st =>
    match st.self.SetParameterValues param_indices with
    | .error e => .error e
    | .ok param_values =>
      match votes image shape mask param_indices param_values t_range st with
      | .error e => .error e
      | .ok st1 =>
        let r := st1.self.AdvanceParameterIndices param_indices
        accumulateLoop image shape mask t_range fuel r.1 r.2 st1

/-- The body of `HoughTransform::Accumulate` with its `while` loop unrolled at
most `fuel` times. The local `mask` is assigned only when `mask_ == NULL`. -/
def accumulateFuel (fuel : Nat) (self : HoughTransform) (image : Image)
    (shape : ShapeInterface ℚ) (t_range : List ℚ) : Except Fault AccumulateState :=
  let sizes := self.param_ranges_.map List.length
  let accumulator := Mat.create sizes
  let self1 : HoughTransform :=
    if self.normalized_ then
      { self with accumulator := accumulator, normalized_accumulator := accumulator,
                  candidate_magnitudes := accumulator }
    else { self with accumulator := accumulator }
  let param_indices := List.replicate self.num_params 0
  let default_mask : DefaultMask := { num_rows := image.rows, num_cols := image.cols }
  let mask : Option MaskInterface :=
    match self.mask_ with
    | none => some default_mask.mask
    | some _ => none
  let cardinality := Cardinality self.param_ranges_
  let can_continue := decide (cardinality > 0)
  accumulateLoop image shape mask t_range fuel can_continue param_indices
    { self := self1, p := { x := 0, y := 0 }, sampled := [] }

/-- `HoughTransform::Accumulate` together with the record of sampled points;
the loop is given as many rounds as the parameter space has combinations. -/
def accumulateRun (self : HoughTransform) (image : Image) (shape : ShapeInterface ℚ)
    (t_range : List ℚ) : Except Fault AccumulateState :=
  accumulateFuel (Cardinality self.param_ranges_) self image shape t_range

/-- `HoughTransform::Accumulate`: the engine after the call. -/
def Accumulate (self : HoughTransform) (image : Image) (shape : ShapeInterface ℚ)
    (t_range : List ℚ) : Except Fault HoughTransform :=
  match accumulateRun self image shape t_range with
  | .error e => .error e
  | .ok st => .ok st.self

/-- One round of the loop of `GatherCandidates`: the location found by
`cv::minMaxIdx`, the maximum found there, and the candidate pushed. -/
structure Pick where
  max_index : List Nat
  max_accumulated : ℚ
  best_param_values : List ℚ

/-- The loop of `GatherCandidates` run for `n` rounds on the working copy. The
buffer `max_index` has `ndims` entries; the library writes one per dimension of
the copy. -/
def gatherPicks (param_ranges : List (List ℚ)) : Nat → Mat → Except Fault (List Pick)
  | 0, _ => .ok []
  | n + 1, accumulator_copy =>
    match minMaxIdx accumulator_copy with
    | .error e => .error e
    | .ok (max_accumulated, max_index) =>
      if max_index.length ≠ param_ranges.length then .error .outOfRange
      else
        match axisValues param_ranges max_index with
        | .error e => .error e
        | .ok best_param_values =>
          match accumulator_copy.set max_index 0 with
          | .error e => .error e
          | .ok copy1 =>
            match gatherPicks param_ranges n copy1 with
            | .error e => .error e
            | .ok picks =>
              .ok ({ max_index := max_index, max_accumulated := max_accumulated,
                     best_param_values := best_param_values } :: picks)

/-- `HoughTransform::GatherCandidates`: the engine and the list `candidates`
after the call. Every round of `while (candidates.size() < max_candidates())`
pushes one candidate, so the loop makes `max_candidates() - candidates.size()`
rounds. -/
def GatherCandidates (self : HoughTransform) (candidates : List (List ℚ)) :
    Except Fault (HoughTransform × List (List ℚ)) :=
  let accumulator_copy := self.accumulator
  match gatherPicks self.param_ranges_ (self.max_candidates - candidates.length)
      accumulator_copy with
  | .error e => .error e
  | .ok picks => .ok (self, candidates ++ picks.map Pick.best_param_values)

/-- `HoughTransform::Compute(image, shape, t_range, candidates)`. -/
def Compute (self : HoughTransform) (image : Image) (shape : ShapeInterface ℚ)
    (t_range : List ℚ) (candidates : List (List ℚ)) :
    Except Fault (HoughTransform × List (List ℚ)) :=
  match self.Accumulate image shape t_range with
  | .error e => .error e
  | .ok self1 => self1.GatherCandidates candidates

/-- `HoughTransform::Compute(image, shape, t_range)`, the form that returns
`candidates[0]`. -/
def ComputeBest (self : HoughTransform) (image : Image) (shape : ShapeInterface ℚ)
    (t_range : List ℚ) : Except Fault (HoughTransform × List ℚ) :=
  match self.Compute image shape t_range [] with
  | .error e => .error e
  | .ok (self1, candidates) =>
    match vectorAt candidates 0 with
    | .error e => .error e
    | .ok best => .ok (self1, best)

end HoughTransform

/-! ## The parameter range builders `ParamRange` -/

namespace ParamRange

/-- The loop `for (double x = min; x <= max; x += step) vals.push_back(x)` of
`Incremental`, unrolled at most `fuel` times, from the current `x` and `vals`.
The `double` addition `x += step` stores the sum rounded by `fl`. -/
def incrementalLoop (fl : ℚ → ℚ) (max step : ℚ) : Nat → ℚ → List ℚ → Except Fault (List ℚ)
  | 0, x, vals => if x ≤ max then .error .outOfFuel else .ok vals
  | fuel + 1, x, vals =>
    if x ≤ max then incrementalLoop fl max step fuel (fl (x + step)) (vals ++ [x])
    else .ok vals

/-- `ParamRange::Incremental`, its loop unrolled at most `fuel` times; `fl` is
the rounding of the `double` addition. -/
def Incremental (fl : ℚ → ℚ) (fuel : Nat) (min max step : ℚ) : Except Fault (List ℚ) :=
  incrementalLoop fl max step fuel min []

/-- `ParamRange::Scaled`: the loop pushes `values[i] * scalar` for every `i`. -/
def Scaled (values : List Int) (scalar : ℚ) : List ℚ :=
  values.map (fun (v : Int) => (v : ℚ) * scalar)

/-- The value fits in `int`. -/
def fitsInt (z : Int) : Bool :=
  decide (HoughTransform.min_int ≤ z) && decide (z ≤ HoughTransform.max_int)

/-- The loop `for (int i = 0; i < num_values; i++) values.push_back(min + step * i)`
of `Steps` with `n` rounds left, from the current `i` and `values`. -/
def stepsLoop (min step : Int) : Nat → Int → List Int → Except Fault (List Int)
  | 0, _, values => .ok values
  | n + 1, i, values =>
    if fitsInt (step * i) && fitsInt (min + step * i) then
      stepsLoop min step n (i + 1) (values ++ [min + step * i])
    else .error .overflow

/-- `ParamRange::Steps`. -/
def Steps (min step num_values : Int) : Except Fault (List Int) :=
  stepsLoop min step num_values.toNat 0 []

/-- `ParamRange::ScaledIncremental`. -/
def ScaledIncremental (min step num_values : Int) (scalar : ℚ) : Except Fault (List ℚ) :=
  match Steps min step num_values with
  | .error e => .error e
  | .ok values => .ok (Scaled values scalar)

/-- `ParamRange::MakeRangeFromImage`. -/
def MakeRangeFromImage (image : Image) : List ℚ :=
  (List.range image.cols.toNat).map (fun (x : Nat) => (x : ℚ))

end ParamRange

open HoughTransform

/-! ## Auxiliary notions for the statements and proofs -/

/-- The arg-max suppression of `GatherCandidates` on the row-major cell list:
the offset and the value of the cell picked in each of `n` rounds. -/
def flatPicks : Nat → List ℚ → List (Nat × ℚ)
  | 0, _ => []
  | n + 1, cells =>
    match maxLoc cells with
    | none => []
    | some (v, ofs) => (ofs, v) :: flatPicks n (cells.set ofs 0)

/-- The values of the axes at an index vector, for index vectors in bounds. -/
def valuesAt : List (List ℚ) → List Nat → List ℚ
  | r :: ranges, i :: idx => r.getD i 0 :: valuesAt ranges idx
  | _, _ => []

/-- The pick made at a row-major offset of an array of the given extents. -/
def pickAt (param_ranges : List (List ℚ)) (sizes : List Nat) (c : Nat × ℚ) : Pick :=
  { max_index := ofs2idx sizes c.1, max_accumulated := c.2,
    best_param_values := valuesAt param_ranges (ofs2idx sizes c.1) }

/-- The second engine has the axes, the mask and the settings of the first,
and its three arrays have the extents and the number of cells of the first. -/
def SameShape (e e1 : HoughTransform) : Prop :=
  e1.param_ranges_ = e.param_ranges_ ∧ e1.mask_ = e.mask_ ∧
  e1.max_candidates_ = e.max_candidates_ ∧ e1.normalized_ = e.normalized_ ∧
  e1.accumulator.size = e.accumulator.size ∧
  e1.accumulator.data.length = e.accumulator.data.length ∧
  e1.candidate_magnitudes.size = e.candidate_magnitudes.size ∧
  e1.candidate_magnitudes.data.length = e.candidate_magnitudes.data.length ∧
  e1.normalized_accumulator.size = e.normalized_accumulator.size ∧
  e1.normalized_accumulator.data.length = e.normalized_accumulator.data.length

/-- The index vectors at which the loop
`while (can_continue) { ...; can_continue = AdvanceParameterIndices(param_indices); }`
of `Accumulate` runs its body, the loop unrolled at most `fuel` times. -/
def HoughTransform.visitedIndices (self : HoughTransform) :
    Nat → Bool → List Nat → Except Fault (List (List Nat))
  | _, false, _ => .ok []
  | 0, true, _ => .error .outOfFuel
  | fuel + 1, true, param_indices =>
    let r := self.AdvanceParameterIndices param_indices
    match visitedIndices self fuel r.1 r.2 with
    | .error e => .error e
    | .ok rest => .ok (param_indices :: rest)

/-- The local pointer `mask` of `Accumulate`: the default mask of the image
when no mask was supplied, and left uninitialised otherwise. -/
def HoughTransform.activeMask (self : HoughTransform) (image : Image) : Option MaskInterface :=
  match self.mask_ with
  | none => some ({ num_rows := image.rows, num_cols := image.cols } : DefaultMask).mask
  | some _ => none

/-- The vote of the sample `t` for the parameter values `params`: the image
value at the point of the shape when the point is in range, inside the `int`
limits and accepted by the mask after rounding; no vote otherwise. -/
def voteOf (image : Image) (shape : ShapeInterface ℚ) (mask : Option MaskInterface)
    (params : List ℚ) (t : ℚ) : Option ℚ :=
  match shape.Calculate t params { x := 0, y := 0 } with
  | .error _ => none
  | .ok (in_range, p) =>
    if in_range && IsInsideIntLimits p.y && IsInsideIntLimits p.x then
      match mask with
      | none => none
      | some m =>
        if m.CanVote (roundInt p.x) (roundInt p.y) then some (GetPixelValue image p.x p.y)
        else none
    else none

/-- The sum of the votes of the samples of `t_range` for `params`. -/
def voteSum (image : Image) (shape : ShapeInterface ℚ) (mask : Option MaskInterface)
    (params : List ℚ) (t_range : List ℚ) : ℚ :=
  (t_range.filterMap (voteOf image shape mask params)).sum

/-- The cell list with `d` added to the cell at offset `r`. -/
def addAt (data : List ℚ) (r : Nat) (d : ℚ) : List ℚ :=
  data.set r (data.getD r 0 + d)

/-- The accumulator has the given extents with one cell per index vector, and
in normalization mode so have the vote-count and running-mean arrays. -/
def Ready (sizes : List Nat) (e : HoughTransform) : Prop :=
  e.accumulator.size = sizes ∧ e.accumulator.data.length = sizes.prod ∧
  (e.normalized_ = true →
    e.candidate_magnitudes.size = sizes ∧ e.candidate_magnitudes.data.length = sizes.prod ∧
    e.normalized_accumulator.size = sizes ∧ e.normalized_accumulator.data.length = sizes.prod)

/-! ## Concrete inputs used in the examples below -/

/-- A 4 x 4 image whose interpolated value at `(x, y)` is `x + 10 * y`. -/
def rampImage : Image := { rows := 4, cols := 4, Interpolate := fun x y => x + 10 * y }

/-- An engine with the axes `a ∈ {0}`, `b ∈ {0, 1}`, `c ∈ {0, 1}` of a
standard-form parabola, no mask and `max_candidates = 1`. -/
def parabolaEngine : HoughTransform :=
  ((HoughTransform.new.AddParamRange [0]).AddParamRange [0, 1]).AddParamRange [0, 1]

/-- The accumulator of `parabolaEngine` on `rampImage` for `t_range = [0, 1, 2]`. -/
def parabolaVotes : Mat := { size := [1, 2, 2], data := [3, 33, 33, 63] }

/-- A mask that accepts every pixel. -/
def openMask : MaskInterface := { CanVote := fun _ _ => true }

/-- An engine whose only axis has no value. -/
def emptyAxisEngine : HoughTransform := HoughTransform.new.AddParamRange []

/-- An engine with the axis `{0, 1}` whose accumulator holds two negative
scores, asked for two candidates. -/
def negativeEngine : HoughTransform :=
  { (HoughTransform.new.AddParamRange [0, 1]).set_max_candidates 2 with
    accumulator := { size := [2], data := [-1, -2] } }

/-- An engine whose only axis lists the value `1` twice, with two distinct
positive scores, asked for two candidates. -/
def repeatedValueEngine : HoughTransform :=
  { (HoughTransform.new.AddParamRange [1, 1]).set_max_candidates 2 with
    accumulator := { size := [2], data := [5, 3] } }

/-- The axes `a ∈ {-1, 0, 1}`, `b ∈ {0}`, `c ∈ {5, 10}` with six distinct
positive scores, asked for six candidates. -/
def sixCellEngine : HoughTransform :=
  { (((HoughTransform.new.AddParamRange [-1, 0, 1]).AddParamRange [0]).AddParamRange
      [5, 10]).set_max_candidates 6 with
    accumulator := { size := [3, 1, 2], data := [3, 1, 4, 6, 5, 2] } }

/-- An engine with the axis `{0, 1, 2}` whose accumulator holds the scores
`0, 5, 2`, asked for four candidates. -/
def sparseEngine : HoughTransform :=
  { (HoughTransform.new.AddParamRange [0, 1, 2]).set_max_candidates 4 with
    accumulator := { size := [3], data := [0, 5, 2] } }

/-- An engine whose only parameter combination is the line `y = 17/5`, with no
mask. -/
def borderEngine : HoughTransform :=
  ((HoughTransform.new.AddParamRange [0]).AddParamRange [0]).AddParamRange [17 / 5]

/-- The double nearest to `π`, the value of `M_PI`: `3.141592653589793`. -/
def piDouble : ℚ := 884279719003555 / 2 ^ 48

/-- The double that `std::sin` returns at `piDouble`:
`1.2246467991473532e-16`. `std::cos` returns `-1` there. -/
def sinPiDouble : ℚ := 4967757600021511 / 2 ^ 105

/-! ## Index vectors and row-major offsets -/

theorem inBounds_cons (s : Nat) (sizes : List Nat) (i : Nat) (idx : List Nat) :
    inBounds (s :: sizes) (i :: idx) = true ↔ i < s ∧ inBounds sizes idx = true := by
  simp [inBounds]

theorem inBounds_length : ∀ (sizes idx : List Nat), inBounds sizes idx = true →
    idx.length = sizes.length
  | [], [], _ => rfl
  | [], _ :: _, h => by simp [inBounds] at h
  | _ :: _, [], h => by simp [inBounds] at h
  | s :: sizes, i :: idx, h => by
    have := inBounds_length sizes idx ((inBounds_cons s sizes i idx).mp h).2
    simp [this]

theorem rank_lt : ∀ (sizes idx : List Nat), inBounds sizes idx = true →
    rank sizes idx < sizes.prod
  | [], [], _ => by simp [rank]
  | [], _ :: _, h => by simp [inBounds] at h
  | _ :: _, [], h => by simp [inBounds] at h
  | s :: sizes, i :: idx, h => by
    obtain ⟨hi, hrest⟩ := (inBounds_cons s sizes i idx).mp h
    have ih := rank_lt sizes idx hrest
    simp only [rank, List.prod_cons]
    calc i * sizes.prod + rank sizes idx < i * sizes.prod + sizes.prod := by omega
      _ = (i + 1) * sizes.prod := by ring
      _ ≤ s * sizes.prod := Nat.mul_le_mul_right _ hi

theorem ofs2idx_length : ∀ (sizes : List Nat) (ofs : Nat),
    (ofs2idx sizes ofs).length = sizes.length
  | [], _ => rfl
  | s :: sizes, ofs => by simp [ofs2idx, ofs2idx_length sizes]

theorem ofs2idx_inBounds : ∀ (sizes : List Nat) (ofs : Nat), ofs < sizes.prod →
    inBounds sizes (ofs2idx sizes ofs) = true
  | [], _, _ => rfl
  | s :: sizes, ofs, h => by
    simp only [List.prod_cons] at h
    have hs : 0 < s := by
      rcases Nat.eq_zero_or_pos s with h0 | h0
      · subst h0; simp at h
      · exact h0
    have hp : 0 < sizes.prod := by
      rcases Nat.eq_zero_or_pos sizes.prod with h0 | h0
      · rw [h0] at h; simp at h
      · exact h0
    simp only [ofs2idx, inBounds_cons]
    exact ⟨Nat.mod_lt _ hs, ofs2idx_inBounds sizes _ (Nat.mod_lt _ hp)⟩

theorem rank_ofs2idx : ∀ (sizes : List Nat) (ofs : Nat), ofs < sizes.prod →
    rank sizes (ofs2idx sizes ofs) = ofs
  | [], ofs, h => by simp at h; simp [rank, ofs2idx, h]
  | s :: sizes, ofs, h => by
    simp only [List.prod_cons] at h
    have hp : 0 < sizes.prod := by
      rcases Nat.eq_zero_or_pos sizes.prod with h0 | h0
      · rw [h0] at h; simp at h
      · exact h0
    have hq : ofs / sizes.prod < s := by
      rw [Nat.div_lt_iff_lt_mul hp]; exact h
    simp only [ofs2idx, rank, Nat.mod_eq_of_lt hq,
      rank_ofs2idx sizes _ (Nat.mod_lt _ hp)]
    exact Nat.div_add_mod' ofs sizes.prod

theorem ofs2idx_rank : ∀ (sizes idx : List Nat), inBounds sizes idx = true →
    ofs2idx sizes (rank sizes idx) = idx
  | [], [], _ => rfl
  | [], _ :: _, h => by simp [inBounds] at h
  | _ :: _, [], h => by simp [inBounds] at h
  | s :: sizes, i :: idx, h => by
    obtain ⟨hi, hrest⟩ := (inBounds_cons s sizes i idx).mp h
    have hr := rank_lt sizes idx hrest
    have hp : 0 < sizes.prod := Nat.lt_of_le_of_lt (Nat.zero_le _) hr
    have h1 : (i * sizes.prod + rank sizes idx) / sizes.prod = i := by
      rw [Nat.add_comm, Nat.add_mul_div_right _ _ hp, Nat.div_eq_of_lt hr, Nat.zero_add]
    have h2 : (i * sizes.prod + rank sizes idx) % sizes.prod = rank sizes idx := by
      rw [Nat.add_comm, Nat.add_mul_mod_self_right, Nat.mod_eq_of_lt hr]
    simp only [rank, ofs2idx, h1, h2, Nat.mod_eq_of_lt hi, ofs2idx_rank sizes idx hrest]

theorem maxLoc_eq_none (xs : List ℚ) : maxLoc xs = none ↔ xs = [] := by
  cases xs with
  | nil => simp [maxLoc]
  | cons x xs =>
    simp only [maxLoc]
    cases maxLoc xs with
    | none => simp
    | some r => 
      obtain ⟨m, i⟩ := r
      by_cases h : x < m <;> simp [h]

theorem maxLoc_spec : ∀ (xs : List ℚ) (m : ℚ) (i : Nat), maxLoc xs = some (m, i) →
    xs[i]? = some m ∧ ∀ x ∈ xs, x ≤ m
  | [], _, _, h => by simp [maxLoc] at h
  | x :: xs, m, i, h => by
    simp only [maxLoc] at h
    cases hr : maxLoc xs with
    | none =>
      rw [hr] at h
      simp only [Option.some.injEq, Prod.mk.injEq] at h
      obtain ⟨rfl, rfl⟩ := h
      have : xs = [] := (maxLoc_eq_none xs).mp hr
      subst this
      simp
    | some r =>
      obtain ⟨m1, i1⟩ := r
      rw [hr] at h
      obtain ⟨h1, h2⟩ := maxLoc_spec xs m1 i1 hr
      by_cases hlt : x < m1
      · simp only [hlt, if_true, Option.some.injEq, Prod.mk.injEq] at h
        obtain ⟨rfl, rfl⟩ := h
        refine ⟨by simpa using h1, ?_⟩
        intro y hy
        rcases List.mem_cons.mp hy with rfl | hy
        · exact le_of_lt hlt
        · exact h2 y hy
      · simp only [hlt, if_false, Option.some.injEq, Prod.mk.injEq] at h
        obtain ⟨rfl, rfl⟩ := h
        refine ⟨by simp, ?_⟩
        intro y hy
        rcases List.mem_cons.mp hy with rfl | hy
        · exact le_refl _
        · exact le_trans (h2 y hy) (not_lt.mp hlt)

theorem axisValues_eq : ∀ (ranges : List (List ℚ)) (idx : List Nat),
    inBounds (ranges.map List.length) idx = true →
    axisValues ranges idx = .ok (valuesAt ranges idx)
  | [], [], _ => rfl
  | [], _ :: _, h => by simp [inBounds] at h
  | _ :: _, [], h => by simp [inBounds] at h
  | r :: ranges, i :: idx, h => by
    simp only [List.map_cons, inBounds_cons] at h
    obtain ⟨hi, hrest⟩ := h
    simp only [axisValues, valuesAt, axisValues_eq ranges idx hrest, vectorAt,
      List.getElem?_eq_getElem hi, List.getD_eq_getElem?_getD, Option.getD_some]

theorem valuesAt_injective : ∀ (ranges : List (List ℚ)) (idx idx1 : List Nat),
    (∀ r ∈ ranges, r.Nodup) →
    inBounds (ranges.map List.length) idx = true →
    inBounds (ranges.map List.length) idx1 = true →
    valuesAt ranges idx = valuesAt ranges idx1 → idx = idx1
  | [], [], [], _, _, _, _ => rfl
  | [], _ :: _, _, _, h, _, _ => by simp [inBounds] at h
  | [], [], _ :: _, _, _, h, _ => by simp [inBounds] at h
  | _ :: _, [], _, _, h, _, _ => by simp [inBounds] at h
  | _ :: _, _ :: _, [], _, _, h, _ => by simp [inBounds] at h
  | r :: ranges, i :: idx, j :: idx1, hnd, h, h1, heq => by
    simp only [List.map_cons, inBounds_cons] at h h1
    obtain ⟨hi, hrest⟩ := h
    obtain ⟨hj, hrest1⟩ := h1
    simp only [valuesAt, List.cons.injEq, List.getD_eq_getElem?_getD,
      List.getElem?_eq_getElem hi, List.getElem?_eq_getElem hj, Option.getD_some] at heq
    obtain ⟨hv, hvs⟩ := heq
    have hij : i = j := (List.Nodup.getElem_inj_iff (hnd r (List.mem_cons_self _ _))).mp hv
    have := valuesAt_injective ranges idx idx1
      (fun r1 hr1 => hnd r1 (List.mem_cons_of_mem _ hr1)) hrest hrest1 hvs
    rw [hij, this]

theorem maxLoc_lt (xs : List ℚ) (m : ℚ) (i : Nat) (h : maxLoc xs = some (m, i)) :
    i < xs.length := by
  have := (maxLoc_spec xs m i h).1
  by_contra hc
  rw [List.getElem?_eq_none (not_lt.mp hc)] at this
  cases this

/-- The loop of `GatherCandidates` on an array with cells whose extents are the
axis lengths never faults; its picks are those of `flatPicks`. -/
theorem gatherPicks_eq (ranges : List (List ℚ)) : ∀ (n : Nat) (m : Mat),
    m.size = ranges.map List.length → m.data.length = m.size.prod → m.data ≠ [] →
    gatherPicks ranges n m = .ok ((flatPicks n m.data).map (pickAt ranges m.size))
  | 0, _, _, _, _ => rfl
  | n + 1, m, hsize, hlen, hne => by
    cases hmax : maxLoc m.data with
    | none => exact absurd ((maxLoc_eq_none _).mp hmax) hne
    | some r =>
      obtain ⟨v, ofs⟩ := r
      have hofs : ofs < m.data.length := maxLoc_lt _ _ _ hmax
      have hofs1 : ofs < m.size.prod := hlen ▸ hofs
      have hin : inBounds m.size (ofs2idx m.size ofs) = true := ofs2idx_inBounds _ _ hofs1
      have hrank : rank m.size (ofs2idx m.size ofs) = ofs := rank_ofs2idx _ _ hofs1
      have hvals := axisValues_eq ranges (ofs2idx m.size ofs) (hsize ▸ hin)
      have hlen1 : (ofs2idx m.size ofs).length = ranges.length := by
        rw [ofs2idx_length, hsize, List.length_map]
      have ih := gatherPicks_eq ranges n { m with data := m.data.set ofs 0 } hsize
        (by simpa using hlen) (by
          intro hc
          have : (m.data.set ofs 0).length = 0 := by simpa using congrArg List.length hc
          rw [List.length_set] at this
          omega)
      simp only [gatherPicks, minMaxIdx, hmax, hlen1, ne_eq, not_true_eq_false, if_false,
        hvals, Mat.set, hin, hrank, hofs, decide_True, Bool.and_self, if_true, ih,
        flatPicks, List.map_cons, pickAt]


/-! ## Frame of `Accumulate` -/

theorem SameShape.refl (e : HoughTransform) : SameShape e e :=
  ⟨rfl, rfl, rfl, rfl, rfl, rfl, rfl, rfl, rfl, rfl⟩

theorem SameShape.trans {a b c : HoughTransform} (h1 : SameShape a b) (h2 : SameShape b c) :
    SameShape a c := by
  obtain ⟨p1, p2, p3, p4, p5, p6, p7, p8, p9, p10⟩ := h1
  obtain ⟨q1, q2, q3, q4, q5, q6, q7, q8, q9, q10⟩ := h2
  exact ⟨q1.trans p1, q2.trans p2, q3.trans p3, q4.trans p4, q5.trans p5, q6.trans p6,
    q7.trans p7, q8.trans p8, q9.trans p9, q10.trans p10⟩

theorem Mat.set_shape (m m1 : Mat) (idx : List Nat) (v : ℚ) (h : m.set idx v = .ok m1) :
    m1.size = m.size ∧ m1.data.length = m.data.length := by
  unfold Mat.set at h
  split at h
  · cases h; simp
  · cases h

theorem normalizeVote_shape (e e1 : HoughTransform) (idx : List Nat) (a : ℚ)
    (h : normalizeVote e idx a = .ok e1) : SameShape e e1 := by
  unfold normalizeVote at h
  split at h
  · cases h
  · simp only at h
    split at h
    · cases h
    · rename_i magnitudes hm
      obtain ⟨hs1, hl1⟩ := Mat.set_shape _ _ _ _ hm
      split at h
      · cases h
      · rename_i normalized hn
        obtain ⟨hs2, hl2⟩ := Mat.set_shape _ _ _ _ hn
        cases h
        exact ⟨rfl, rfl, rfl, rfl, rfl, rfl, hs1, hl1, hs2, hl2⟩

/-- What a round of the loop over `t_range` does when it does not fault: either
no vote is cast and only `p` changes, or the active mask accepts the rounded
point, the image is sampled at `p` and the value is added to the cell at
`param_indices`. -/
theorem vote_ok_cases (image : Image) (shape : ShapeInterface ℚ) (mask : Option MaskInterface)
    (idx : List Nat) (vals : List ℚ) (st st1 : AccumulateState) (t : ℚ)
    (h : vote image shape mask idx vals st t = .ok st1) :
    ∃ in_range p, shape.Calculate t vals st.p = .ok (in_range, p) ∧ st1.p = p ∧
      (((in_range && IsInsideIntLimits p.y && IsInsideIntLimits p.x) = false ∨
          ∃ m, mask = some m ∧ m.CanVote (roundInt p.x) (roundInt p.y) = false) ∧
        st1.self = st.self ∧ st1.sampled = st.sampled
      ∨ (in_range && IsInsideIntLimits p.y && IsInsideIntLimits p.x) = true ∧
        ∃ m cur acc, mask = some m ∧ m.CanVote (roundInt p.x) (roundInt p.y) = true ∧
          st.self.accumulator.at idx = .ok cur ∧
          st.self.accumulator.set idx (cur + GetPixelValue image p.x p.y) = .ok acc ∧
          st1.sampled = st.sampled ++ [p] ∧
          (if st.self.normalized_ then
            normalizeVote { st.self with accumulator := acc } idx
              (cur + GetPixelValue image p.x p.y) = .ok st1.self
           else st1.self = { st.self with accumulator := acc })) := by
  unfold vote at h
  cases hc : shape.Calculate t vals st.p with
  | error e => rw [hc] at h; cases h
  | ok r =>
    obtain ⟨in_range, p⟩ := r
    rw [hc] at h
    refine ⟨in_range, p, rfl, ?_⟩
    simp only at h
    by_cases hg : (in_range && IsInsideIntLimits p.y && IsInsideIntLimits p.x) = true
    · rw [if_pos hg] at h
      cases mask with
      | none => cases h
      | some m =>
        simp only at h
        by_cases hv : m.CanVote (roundInt p.x) (roundInt p.y) = true
        · rw [if_pos hv] at h
          cases hat : st.self.accumulator.at idx with
          | error e => rw [hat] at h; cases h
          | ok cur =>
            rw [hat] at h
            simp only at h
            cases hset : st.self.accumulator.set idx (cur + GetPixelValue image p.x p.y) with
            | error e => rw [hset] at h; cases h
            | ok acc =>
              rw [hset] at h
              simp only at h
              by_cases hn : st.self.normalized_ = true
              · rw [if_pos hn] at h
                cases hnv : normalizeVote { st.self with accumulator := acc } idx
                    (cur + GetPixelValue image p.x p.y) with
                | error e => rw [hnv] at h; cases h
                | ok e2 =>
                  rw [hnv] at h
                  cases h
                  exact ⟨rfl, Or.inr ⟨hg, m, cur, acc, rfl, hv, rfl, hset, rfl, by
                    rw [if_pos hn]; exact hnv⟩⟩
              · rw [if_neg hn] at h
                cases h
                exact ⟨rfl, Or.inr ⟨hg, m, cur, acc, rfl, hv, rfl, hset, rfl, by
                  rw [if_neg hn]⟩⟩
        · rw [if_neg hv] at h
          cases h
          exact ⟨rfl, Or.inl ⟨Or.inr ⟨m, rfl, by simpa using hv⟩, rfl, rfl⟩⟩
    · rw [if_neg hg] at h
      cases h
      exact ⟨rfl, Or.inl ⟨Or.inl (by simpa using hg), rfl, rfl⟩⟩

theorem vote_shape (image : Image) (shape : ShapeInterface ℚ) (mask : Option MaskInterface)
    (idx : List Nat) (vals : List ℚ) (st st1 : AccumulateState) (t : ℚ)
    (h : vote image shape mask idx vals st t = .ok st1) : SameShape st.self st1.self := by
  obtain ⟨in_range, p, -, -, hcase⟩ := vote_ok_cases _ _ _ _ _ _ _ _ h
  rcases hcase with ⟨-, hself, -⟩ | ⟨-, m, cur, acc, -, -, -, hset, -, hn⟩
  · rw [hself]; exact SameShape.refl _
  · obtain ⟨hs, hl⟩ := Mat.set_shape _ _ _ _ hset
    by_cases hnorm : st.self.normalized_ = true
    · rw [if_pos hnorm] at hn
      exact SameShape.trans (b := { st.self with accumulator := acc })
        ⟨rfl, rfl, rfl, rfl, hs, hl, rfl, rfl, rfl, rfl⟩ (normalizeVote_shape _ _ _ _ hn)
    · rw [if_neg hnorm] at hn
      rw [hn]; exact ⟨rfl, rfl, rfl, rfl, hs, hl, rfl, rfl, rfl, rfl⟩

theorem votes_shape (image : Image) (shape : ShapeInterface ℚ) (mask : Option MaskInterface)
    (idx : List Nat) (vals : List ℚ) : ∀ (t_range : List ℚ) (st st1 : AccumulateState),
    votes image shape mask idx vals t_range st = .ok st1 → SameShape st.self st1.self
  | [], st, st1, h => by simp only [votes] at h; cases h; exact SameShape.refl _
  | t :: ts, st, st1, h => by
    simp only [votes] at h
    split at h
    · cases h
    · rename_i st2 hv
      exact SameShape.trans (vote_shape _ _ _ _ _ _ _ _ hv) (votes_shape _ _ _ _ _ ts st2 st1 h)

theorem accumulateLoop_shape (image : Image) (shape : ShapeInterface ℚ)
    (mask : Option MaskInterface) (t_range : List ℚ) :
    ∀ (fuel : Nat) (go : Bool) (idx : List Nat) (st st1 : AccumulateState),
    accumulateLoop image shape mask t_range fuel go idx st = .ok st1 →
    SameShape st.self st1.self
  | 0, false, _, st, st1, h => by simp only [accumulateLoop] at h; cases h; exact SameShape.refl _
  | 0, true, _, _, _, h => by simp only [accumulateLoop] at h; cases h
  | _ + 1, false, _, st, st1, h => by
    simp only [accumulateLoop] at h; cases h; exact SameShape.refl _
  | fuel + 1, true, idx, st, st1, h => by
    simp only [accumulateLoop] at h
    split at h
    · cases h
    · split at h
      · cases h
      · rename_i st2 hv
        exact SameShape.trans (votes_shape _ _ _ _ _ _ _ _ hv)
          (accumulateLoop_shape _ _ _ _ fuel _ _ st2 st1 h)

/-- After `Accumulate` the axes and settings are those before the call, and the
accumulator has one cell for every combination of axis indices. -/
theorem Accumulate_shape (self self1 : HoughTransform) (image : Image)
    (shape : ShapeInterface ℚ) (t_range : List ℚ)
    (h : self.Accumulate image shape t_range = .ok self1) :
    self1.param_ranges_ = self.param_ranges_ ∧ self1.max_candidates_ = self.max_candidates_ ∧
    self1.accumulator.size = self.param_ranges_.map List.length ∧
    self1.accumulator.data.length = Mat.total (self.param_ranges_.map List.length) := by
  unfold Accumulate at h
  split at h
  · cases h
  · rename_i st hrun
    cases h
    unfold accumulateRun accumulateFuel at hrun
    obtain ⟨p1, _, p3, _, p5, p6, _⟩ := accumulateLoop_shape _ _ _ _ _ _ _ _ _ hrun
    refine ⟨?_, ?_, ?_, ?_⟩
    · rw [p1]; split <;> rfl
    · rw [p3]; split <;> rfl
    · rw [p5]; split <;> rfl
    · rw [p6]; split <;> simp [Mat.create]


theorem Mat.at_mem (m : Mat) (idx : List Nat) (v : ℚ) (h : m.at idx = .ok v) : v ∈ m.data := by
  unfold Mat.at at h
  split at h
  · unfold vectorAt at h
    split at h
    · rename_i a ha
      cases h
      exact List.mem_iff_getElem?.mpr ⟨_, ha⟩
    · cases h
  · cases h

theorem prod_length_pos : ∀ (ranges : List (List ℚ)), (∀ r ∈ ranges, r ≠ []) →
    0 < (ranges.map List.length).prod
  | [], _ => by simp
  | r :: ranges, h => by
    simp only [List.map_cons, List.prod_cons]
    exact Nat.mul_pos (List.length_pos.mpr (h r (List.mem_cons_self _ _)))
      (prod_length_pos ranges (fun r1 hr1 => h r1 (List.mem_cons_of_mem _ hr1)))


/-! ## The loop of `GatherCandidates` -/

/-- A successful round of the loop of `GatherCandidates`. -/
theorem gatherPicks_succ (ranges : List (List ℚ)) (n : Nat) (m : Mat) (ps : List Pick)
    (h : gatherPicks ranges (n + 1) m = .ok ps) :
    ∃ v ofs vals m1 ps1, maxLoc m.data = some (v, ofs) ∧
      axisValues ranges (ofs2idx m.size ofs) = .ok vals ∧
      m.set (ofs2idx m.size ofs) 0 = .ok m1 ∧
      gatherPicks ranges n m1 = .ok ps1 ∧
      ps = { max_index := ofs2idx m.size ofs, max_accumulated := v,
             best_param_values := vals } :: ps1 := by
  simp only [gatherPicks, minMaxIdx] at h
  cases hloc : maxLoc m.data with
  | none => rw [hloc] at h; cases h
  | some r =>
    obtain ⟨v, ofs⟩ := r
    rw [hloc] at h
    simp only at h
    split at h
    · cases h
    · cases hv : axisValues ranges (ofs2idx m.size ofs) with
      | error e => rw [hv] at h; cases h
      | ok vals =>
        rw [hv] at h
        simp only at h
        cases hs : m.set (ofs2idx m.size ofs) 0 with
        | error e => rw [hs] at h; cases h
        | ok m1 =>
          rw [hs] at h
          simp only at h
          cases hg : gatherPicks ranges n m1 with
          | error e => rw [hg] at h; cases h
          | ok ps1 =>
            rw [hg] at h
            cases h
            exact ⟨v, ofs, vals, m1, ps1, rfl, hv, hs, hg, rfl⟩

theorem Mat.set_data (m m1 : Mat) (idx : List Nat) (v : ℚ) (h : m.set idx v = .ok m1) :
    rank m.size idx < m.data.length ∧ m1.data = m.data.set (rank m.size idx) v := by
  unfold Mat.set at h
  split at h
  · rename_i hc
    cases h
    simp only [Bool.and_eq_true, decide_eq_true_eq] at hc
    exact ⟨hc.2, rfl⟩
  · cases h

/-- Every score picked is at most a bound on the cells that is not negative. -/
theorem gatherPicks_le (ranges : List (List ℚ)) (B : ℚ) (hB : 0 ≤ B) :
    ∀ (n : Nat) (m : Mat) (ps : List Pick), gatherPicks ranges n m = .ok ps →
    (∀ x ∈ m.data, x ≤ B) → ∀ p ∈ ps, p.max_accumulated ≤ B
  | 0, _, ps, h, _ => by
    simp only [gatherPicks] at h; cases h; simp
  | n + 1, m, ps, h, hle => by
    obtain ⟨v, ofs, vals, m1, ps1, hloc, -, hset, hrest, rfl⟩ := gatherPicks_succ _ _ _ _ h
    obtain ⟨hget, -⟩ := maxLoc_spec _ _ _ hloc
    obtain ⟨-, hdata⟩ := Mat.set_data _ _ _ _ hset
    have hle1 : ∀ x ∈ m1.data, x ≤ B := by
      intro x hx
      rw [hdata] at hx
      rcases List.mem_or_eq_of_mem_set hx with hx | rfl
      · exact hle x hx
      · exact hB
    intro p hp
    rcases List.mem_cons.mp hp with rfl | hp
    · exact hle _ (List.mem_iff_getElem?.mpr ⟨_, hget⟩)
    · exact gatherPicks_le ranges B hB n m1 ps1 hrest hle1 p hp

theorem gatherPicks_sorted (ranges : List (List ℚ)) :
    ∀ (n : Nat) (m : Mat) (ps : List Pick), gatherPicks ranges n m = .ok ps →
    (∃ x ∈ m.data, 0 ≤ x) →
    List.Pairwise (fun a b => b ≤ a) (ps.map Pick.max_accumulated)
  | 0, _, ps, h, _ => by
    simp only [gatherPicks] at h; cases h; simp
  | n + 1, m, ps, h, hnn => by
    obtain ⟨v, ofs, vals, m1, ps1, hloc, -, hset, hrest, rfl⟩ := gatherPicks_succ _ _ _ _ h
    obtain ⟨-, hmaxle⟩ := maxLoc_spec _ _ _ hloc
    obtain ⟨hr, hdata⟩ := Mat.set_data _ _ _ _ hset
    obtain ⟨x0, hx0, hx0nn⟩ := hnn
    have hv : 0 ≤ v := le_trans hx0nn (hmaxle x0 hx0)
    have hle1 : ∀ x ∈ m1.data, x ≤ v := by
      intro x hx
      rw [hdata] at hx
      rcases List.mem_or_eq_of_mem_set hx with hx | rfl
      · exact hmaxle x hx
      · exact hv
    have hzero : ∃ x ∈ m1.data, 0 ≤ x := by
      refine ⟨0, ?_, le_refl _⟩
      rw [hdata]
      exact List.mem_iff_getElem.mpr ⟨_, by simpa using hr, by simp⟩
    simp only [List.map_cons, List.pairwise_cons, List.mem_map, forall_exists_index, and_imp,
      forall_apply_eq_imp_iff₂]
    exact ⟨fun p hp => gatherPicks_le ranges v hv n m1 ps1 hrest hle1 p hp,
      gatherPicks_sorted ranges n m1 ps1 hrest hzero⟩

theorem countP_set_pos : ∀ (xs : List ℚ) (o : Nat) (v : ℚ), xs[o]? = some v → 0 < v →
    (xs.set o 0).countP (fun x => decide (0 < x)) + 1 = xs.countP (fun x => decide (0 < x))
  | [], _, _, h, _ => by simp at h
  | x :: xs, 0, v, h, hv => by
    simp only [List.getElem?_cons_zero, Option.some.injEq] at h
    subst h
    simp [List.countP_cons, hv]
  | x :: xs, o + 1, v, h, hv => by
    simp only [List.getElem?_cons_succ] at h
    have ih := countP_set_pos xs o v h hv
    simp only [List.set_cons_succ, List.countP_cons]
    omega

theorem flatPicks_pos : ∀ (n : Nat) (xs : List ℚ),
    n ≤ xs.countP (fun x => decide (0 < x)) →
    (flatPicks n xs).length = n ∧
    (∀ c ∈ flatPicks n xs, xs[c.1]? = some c.2 ∧ 0 < c.2) ∧
    ((flatPicks n xs).map Prod.fst).Nodup
  | 0, _, _ => by simp [flatPicks]
  | n + 1, xs, h => by
    have hex : ∃ x ∈ xs, 0 < x := by
      have : 0 < xs.countP (fun x => decide (0 < x)) := by omega
      obtain ⟨x, hx, hp⟩ := List.countP_pos_iff.mp this
      exact ⟨x, hx, by simpa using hp⟩
    obtain ⟨x0, hx0, hx0pos⟩ := hex
    cases hloc : maxLoc xs with
    | none => 
      have := (maxLoc_eq_none _).mp hloc
      subst this
      simp at hx0
    | some r =>
      obtain ⟨v, ofs⟩ := r
      obtain ⟨hget, hle⟩ := maxLoc_spec _ _ _ hloc
      have hv : 0 < v := lt_of_lt_of_le hx0pos (hle x0 hx0)
      have hcount := countP_set_pos xs ofs v hget hv
      obtain ⟨ih1, ih2, ih3⟩ := flatPicks_pos n (xs.set ofs 0) (by omega)
      have hofs : ofs < xs.length := maxLoc_lt _ _ _ hloc
      have hne : ∀ c ∈ flatPicks n (xs.set ofs 0), c.1 ≠ ofs := by
        intro c hc heq
        obtain ⟨hc1, hc2⟩ := ih2 c hc
        rw [heq, List.getElem?_set_self hofs] at hc1
        simp only [Option.some.injEq] at hc1
        rw [← hc1] at hc2
        exact lt_irrefl _ hc2
      simp only [flatPicks, hloc, List.length_cons, ih1, List.mem_cons, List.map_cons,
        List.nodup_cons, List.mem_map, not_exists, not_and, true_and]
      refine ⟨?_, ?_, ih3⟩
      · intro c hc
        rcases hc with rfl | hc
        · exact ⟨hget, hv⟩
        · obtain ⟨hc1, hc2⟩ := ih2 c hc
          rw [List.getElem?_set_ne (Ne.symm (hne c hc))] at hc1
          exact ⟨hc1, hc2⟩
      · intro c hc heq
        exact hne c hc heq


/-! ## Sampled points -/

theorem vote_sampled (image : Image) (shape : ShapeInterface ℚ) (m : MaskInterface)
    (idx : List Nat) (vals : List ℚ) (st st1 : AccumulateState) (t : ℚ)
    (h : vote image shape (some m) idx vals st t = .ok st1)
    (hinv : ∀ q ∈ st.sampled, m.CanVote (roundInt q.x) (roundInt q.y) = true) :
    ∀ q ∈ st1.sampled, m.CanVote (roundInt q.x) (roundInt q.y) = true := by
  unfold vote at h
  split at h
  · cases h
  · rename_i in_range p hcalc
    split at h
    · simp only at h
      split at h
      · rename_i hvote
        split at h
        · cases h
        · split at h
          · cases h
          · split at h
            · split at h
              · cases h
              · cases h
                intro q hq
                simp only [List.mem_append, List.mem_singleton] at hq
                rcases hq with hq | hq
                · exact hinv q hq
                · subst hq; exact hvote
            · cases h
              intro q hq
              simp only [List.mem_append, List.mem_singleton] at hq
              rcases hq with hq | hq
              · exact hinv q hq
              · subst hq; exact hvote
      · cases h; exact hinv
    · cases h; exact hinv

theorem votes_sampled (image : Image) (shape : ShapeInterface ℚ) (m : MaskInterface)
    (idx : List Nat) (vals : List ℚ) (t_range : List ℚ) :
    ∀ (st st1 : AccumulateState),
    votes image shape (some m) idx vals t_range st = .ok st1 →
    (∀ q ∈ st.sampled, m.CanVote (roundInt q.x) (roundInt q.y) = true) →
    ∀ q ∈ st1.sampled, m.CanVote (roundInt q.x) (roundInt q.y) = true := by
  induction t_range with
  | nil => intro st st1 h hinv; simp only [votes] at h; cases h; exact hinv
  | cons t ts ih =>
    intro st st1 h hinv
    simp only [votes] at h
    split at h
    · cases h
    · rename_i st2 hv
      exact ih st2 st1 h (vote_sampled image shape m idx vals st st2 t hv hinv)

theorem accumulateLoop_sampled (image : Image) (shape : ShapeInterface ℚ) (m : MaskInterface)
    (t_range : List ℚ) (fuel : Nat) :
    ∀ (go : Bool) (idx : List Nat) (st st1 : AccumulateState),
    accumulateLoop image shape (some m) t_range fuel go idx st = .ok st1 →
    (∀ q ∈ st.sampled, m.CanVote (roundInt q.x) (roundInt q.y) = true) →
    ∀ q ∈ st1.sampled, m.CanVote (roundInt q.x) (roundInt q.y) = true := by
  induction fuel with
  | zero =>
    intro go idx st st1 h hinv
    cases go
    · simp only [accumulateLoop] at h; cases h; exact hinv
    · simp only [accumulateLoop] at h; cases h
  | succ n ih =>
    intro go idx st st1 h hinv
    cases go
    · simp only [accumulateLoop] at h; cases h; exact hinv
    · simp only [accumulateLoop] at h
      split at h
      · cases h
      · split at h
        · cases h
        · rename_i st2 hv
          exact ih _ _ st2 st1 h (votes_sampled image shape m idx _ t_range st st2 hv hinv)

theorem defaultMask_iff (num_rows num_cols x y : Int) :
    (DefaultMask.mk num_rows num_cols).CanVote x y = true
      ↔ (0 ≤ x ∧ x < num_cols) ∧ (0 ≤ y ∧ y < num_rows) := by
  simp [DefaultMask.CanVote, and_assoc]


/-! ## The odometer of `AdvanceParameterIndices` -/

theorem div_mod_digit (i P q : Nat) (hq : q < P) :
    (i * P + q) / P = i ∧ (i * P + q) % P = q := by
  have hp : 0 < P := Nat.lt_of_le_of_lt (Nat.zero_le _) hq
  constructor
  · rw [Nat.add_comm, Nat.add_mul_div_right _ _ hp, Nat.div_eq_of_lt hq, Nat.zero_add]
  · rw [Nat.add_comm, Nat.add_mul_mod_self_right, Nat.mod_eq_of_lt hq]

theorem ofs2idx_zero : ∀ (sizes : List Nat), ofs2idx sizes 0 = List.replicate sizes.length 0
  | [] => rfl
  | s :: sizes => by
    simp [ofs2idx, ofs2idx_zero sizes, List.replicate_succ]

/-- One call of the carry loop on an index vector in bounds: the vector of the
next row-major offset without `bump`, or all zeros with `bump` after the last
one. -/
theorem bumpIndices_spec : ∀ (sizes idx : List Nat), inBounds sizes idx = true →
    bumpIndices sizes idx =
      if rank sizes idx + 1 < sizes.prod then (false, ofs2idx sizes (rank sizes idx + 1))
      else (true, List.replicate sizes.length 0)
  | [], [], _ => by simp [bumpIndices, rank]
  | [], _ :: _, h => by simp [inBounds] at h
  | _ :: _, [], h => by simp [inBounds] at h
  | s :: sizes, i :: idx, h => by
    obtain ⟨hi, hrest⟩ := (inBounds_cons s sizes i idx).mp h
    have hr := rank_lt sizes idx hrest
    have ih := bumpIndices_spec sizes idx hrest
    have hP : 0 < sizes.prod := Nat.lt_of_le_of_lt (Nat.zero_le _) hr
    simp only [bumpIndices, ih, rank, List.prod_cons, List.length_cons]
    by_cases hlt : rank sizes idx + 1 < sizes.prod
    · have hbig : i * sizes.prod + rank sizes idx + 1 < s * sizes.prod := by
        calc i * sizes.prod + rank sizes idx + 1 < i * sizes.prod + sizes.prod := by omega
          _ = (i + 1) * sizes.prod := by ring
          _ ≤ s * sizes.prod := Nat.mul_le_mul_right _ hi
      obtain ⟨d1, d2⟩ := div_mod_digit i sizes.prod (rank sizes idx + 1) hlt
      have hbig1 : i * sizes.prod + (rank sizes idx + 1) < s * sizes.prod := by
        rw [← Nat.add_assoc]; exact hbig
      simp [hlt, ofs2idx, Nat.add_assoc, d1, d2, Nat.mod_eq_of_lt hi, hbig1]
    · have heq : rank sizes idx + 1 = sizes.prod := by omega
      simp only [hlt, if_false, if_true]
      by_cases hs : i + 1 ≥ s
      · have hs1 : i + 1 = s := by omega
        have hbig : ¬ (i * sizes.prod + rank sizes idx + 1 < s * sizes.prod) := by
          rw [← hs1, Nat.add_mul, Nat.one_mul]; omega
        simp only [hs, if_true, hbig, if_false, List.replicate_succ]
      · have hs1 : i + 1 < s := by omega
        have hbig : i * sizes.prod + rank sizes idx + 1 < s * sizes.prod := by
          calc i * sizes.prod + rank sizes idx + 1 = (i + 1) * sizes.prod := by
                rw [Nat.add_mul, Nat.one_mul]; omega
            _ < (i + 1) * sizes.prod + sizes.prod := by omega
            _ = (i + 2) * sizes.prod := by ring
            _ ≤ s * sizes.prod := Nat.mul_le_mul_right _ hs1
        have hval : i * sizes.prod + rank sizes idx + 1 = (i + 1) * sizes.prod + 0 := by
          rw [Nat.add_mul, Nat.one_mul]; omega
        obtain ⟨d1, d2⟩ := div_mod_digit (i + 1) sizes.prod 0 hP
        have hbig1 : (i + 1) * sizes.prod + 0 < s * sizes.prod := by
          rw [← hval]; exact hbig
        simp only [hs, if_false, ofs2idx, hval, d1, d2, Nat.mod_eq_of_lt hs1,
          ofs2idx_zero, hbig1, if_true]

theorem inBounds_zero : ∀ (sizes : List Nat), (∀ s ∈ sizes, 0 < s) →
    inBounds sizes (List.replicate sizes.length 0) = true
  | [], _ => rfl
  | s :: sizes, h => by
    simp only [List.length_cons, List.replicate_succ, inBounds_cons]
    exact ⟨h s (List.mem_cons_self _ _),
      inBounds_zero sizes (fun s1 hs1 => h s1 (List.mem_cons_of_mem _ hs1))⟩

theorem rank_zero : ∀ (sizes : List Nat), rank sizes (List.replicate sizes.length 0) = 0
  | [] => rfl
  | s :: sizes => by
    simp [rank, List.replicate_succ, rank_zero sizes]

theorem rank_lex : ∀ (sizes a b : List Nat), inBounds sizes a = true →
    inBounds sizes b = true → rank sizes a < rank sizes b → List.Lex (· < ·) a b
  | [], [], [], _, _, h => by simp [rank] at h
  | [], _ :: _, _, h, _, _ => by simp [inBounds] at h
  | [], [], _ :: _, _, h, _ => by simp [inBounds] at h
  | _ :: _, [], _, h, _, _ => by simp [inBounds] at h
  | _ :: _, _ :: _, [], _, h, _ => by simp [inBounds] at h
  | s :: sizes, i :: a, j :: b, ha, hb, h => by
    obtain ⟨hi, harest⟩ := (inBounds_cons s sizes i a).mp ha
    obtain ⟨hj, hbrest⟩ := (inBounds_cons s sizes j b).mp hb
    have hra := rank_lt sizes a harest
    have hrb := rank_lt sizes b hbrest
    simp only [rank] at h
    rcases Nat.lt_trichotomy i j with hij | hij | hij
    · exact List.Lex.rel hij
    · subst hij
      exact List.Lex.cons (rank_lex sizes a b harest hbrest (by omega))
    · exfalso
      have : (j + 1) * sizes.prod ≤ i * sizes.prod := Nat.mul_le_mul_right _ hij
      rw [Nat.add_mul, Nat.one_mul] at this
      omega

theorem inBounds_last : ∀ (sizes : List Nat), (∀ s ∈ sizes, 0 < s) →
    inBounds sizes (sizes.map (fun s => s - 1)) = true ∧
    rank sizes (sizes.map (fun s => s - 1)) + 1 = sizes.prod
  | [], _ => by simp [inBounds, rank]
  | s :: sizes, h => by
    have hs : 0 < s := h s (List.mem_cons_self _ _)
    obtain ⟨h1, h2⟩ := inBounds_last sizes (fun s1 hs1 => h s1 (List.mem_cons_of_mem _ hs1))
    simp only [List.map_cons, inBounds_cons, rank, List.prod_cons]
    refine ⟨⟨by omega, h1⟩, ?_⟩
    calc (s - 1) * sizes.prod + rank sizes (sizes.map (fun s => s - 1)) + 1
        = (s - 1) * sizes.prod + sizes.prod := by omega
      _ = (s - 1 + 1) * sizes.prod := by ring
      _ = s * sizes.prod := by rw [Nat.sub_add_cancel hs]

/-- The loop body runs at the index vectors of the row-major offsets from that
of the current vector to the last one, in this order, and then the loop stops
by itself. -/
theorem visitedIndices_from (self : HoughTransform) : ∀ (fuel : Nat) (idx : List Nat),
    inBounds (self.param_ranges_.map List.length) idx = true →
    (self.param_ranges_.map List.length).prod - rank (self.param_ranges_.map List.length) idx
      ≤ fuel →
    self.visitedIndices fuel true idx
      = .ok ((List.range' (rank (self.param_ranges_.map List.length) idx)
          ((self.param_ranges_.map List.length).prod
            - rank (self.param_ranges_.map List.length) idx)).map
          (ofs2idx (self.param_ranges_.map List.length)))
  | 0, idx, hin, hfuel => by
    have := rank_lt _ _ hin
    omega
  | fuel + 1, idx, hin, hfuel => by
    have hr := rank_lt _ _ hin
    have hspec := bumpIndices_spec _ _ hin
    simp only [visitedIndices, AdvanceParameterIndices, hspec]
    by_cases hlt : rank (self.param_ranges_.map List.length) idx + 1
        < (self.param_ranges_.map List.length).prod
    · have hin1 := ofs2idx_inBounds _ _ hlt
      have hr1 := rank_ofs2idx _ _ hlt
      have ih := visitedIndices_from self fuel _ hin1 (by rw [hr1]; omega)
      rw [hr1] at ih
      obtain ⟨n, hn⟩ : ∃ n, (self.param_ranges_.map List.length).prod
          - rank (self.param_ranges_.map List.length) idx = n + 1 :=
        ⟨(self.param_ranges_.map List.length).prod
          - rank (self.param_ranges_.map List.length) idx - 1, by omega⟩
      have hn1 : (self.param_ranges_.map List.length).prod
          - (rank (self.param_ranges_.map List.length) idx + 1) = n := by omega
      rw [hn1] at ih
      simp only [hlt, if_true, Bool.not_false, ih, hn, List.range'_succ, List.map_cons,
        ofs2idx_rank _ _ hin]
    · have hn : (self.param_ranges_.map List.length).prod
          - rank (self.param_ranges_.map List.length) idx = 1 := by omega
      simp only [hlt, if_false, Bool.not_true, visitedIndices, hn, List.range'_one,
        List.map_cons, List.map_nil, ofs2idx_rank _ _ hin]

/-! ## The votes of `Accumulate` -/

theorem normalizeVote_accumulator (e e1 : HoughTransform) (idx : List Nat) (a : ℚ)
    (h : normalizeVote e idx a = .ok e1) : e1.accumulator = e.accumulator := by
  unfold normalizeVote at h
  split at h
  · cases h
  · simp only at h
    split at h
    · cases h
    · split at h
      · cases h
      · cases h; rfl

theorem Mat.at_data (m : Mat) (idx : List Nat) (v : ℚ) (h : m.at idx = .ok v) :
    inBounds m.size idx = true ∧ m.data[rank m.size idx]? = some v := by
  unfold Mat.at at h
  split at h
  · rename_i hin
    refine ⟨hin, ?_⟩
    unfold vectorAt at h
    split at h
    · rename_i a ha; cases h; exact ha
    · cases h
  · cases h

theorem addAt_zero (data : List ℚ) (r : Nat) : addAt data r 0 = data := by
  unfold addAt
  apply List.ext_getElem?
  intro j
  rw [List.getElem?_set]
  by_cases hj : r = j
  · subst hj
    by_cases hr : r < data.length
    · simp [hr, List.getD_eq_getElem?_getD, List.getElem?_eq_getElem hr]
    · simp [hr, List.getElem?_eq_none (not_lt.mp hr)]
  · simp [hj]

theorem addAt_addAt (data : List ℚ) (r : Nat) (d d1 : ℚ) :
    addAt (addAt data r d) r d1 = addAt data r (d + d1) := by
  unfold addAt
  by_cases hr : r < data.length
  · simp [List.getD_eq_getElem?_getD, hr, List.set_set, add_assoc]
  · have h1 : data.set r (data.getD r 0 + d) = data := List.set_eq_of_length_le (not_lt.mp hr)
    rw [h1, List.set_eq_of_length_le (not_lt.mp hr), List.set_eq_of_length_le (not_lt.mp hr)]

/-- A round of the loop over `t_range` adds the vote of `t` to the cell at
`param_indices` and leaves the other cells as they are. -/
theorem vote_data (image : Image) (shape : ShapeInterface ℚ) (mask : Option MaskInterface)
    (idx : List Nat) (vals : List ℚ) (st st1 : AccumulateState) (t : ℚ)
    (hpure : ∀ t ps q q1, shape.Calculate t ps q = shape.Calculate t ps q1)
    (h : vote image shape mask idx vals st t = .ok st1) :
    st1.self.accumulator.data = addAt st.self.accumulator.data
      (rank st.self.accumulator.size idx) ((voteOf image shape mask vals t).getD 0) := by
  obtain ⟨in_range, p, hcalc, -, hcase⟩ := vote_ok_cases _ _ _ _ _ _ _ _ h
  rw [hpure t vals st.p { x := 0, y := 0 }] at hcalc
  rcases hcase with ⟨hno, hself, -⟩ | ⟨hg, m, cur, acc, hm, hv, hat, hset, -, hn⟩
  · have hvote : voteOf image shape mask vals t = none := by
      unfold voteOf
      rw [hcalc]
      rcases hno with hg | ⟨m, hm, hv⟩
      · simp [hg]
      · simp [hm, hv]
    rw [hvote, hself, Option.getD_none, addAt_zero]
  · have hvote : voteOf image shape mask vals t = some (GetPixelValue image p.x p.y) := by
      unfold voteOf
      rw [hcalc]
      simp [hg, hm, hv]
    obtain ⟨-, hcur⟩ := Mat.at_data _ _ _ hat
    obtain ⟨-, hacc⟩ := Mat.set_data _ _ _ _ hset
    have hself : st1.self.accumulator = acc := by
      by_cases hnorm : st.self.normalized_ = true
      · rw [if_pos hnorm] at hn
        exact normalizeVote_accumulator _ _ _ _ hn
      · rw [if_neg hnorm] at hn
        rw [hn]
    rw [hself, hacc, hvote, Option.getD_some]
    unfold addAt
    rw [List.getD_eq_getElem?_getD, hcur, Option.getD_some]

theorem votes_data (image : Image) (shape : ShapeInterface ℚ) (mask : Option MaskInterface)
    (idx : List Nat) (vals : List ℚ)
    (hpure : ∀ t ps q q1, shape.Calculate t ps q = shape.Calculate t ps q1) :
    ∀ (t_range : List ℚ) (st st1 : AccumulateState),
    votes image shape mask idx vals t_range st = .ok st1 →
    st1.self.accumulator.data = addAt st.self.accumulator.data
      (rank st.self.accumulator.size idx) (voteSum image shape mask vals t_range)
  | [], st, st1, h => by
    simp only [votes] at h; cases h
    simp [voteSum, addAt_zero]
  | t :: ts, st, st1, h => by
    simp only [votes] at h
    split at h
    · cases h
    · rename_i st2 hv
      have h1 := vote_data _ _ _ _ _ _ _ _ hpure hv
      have h2 := votes_data image shape mask idx vals hpure ts st2 st1 h
      have hsize : st2.self.accumulator.size = st.self.accumulator.size :=
        (vote_shape _ _ _ _ _ _ _ _ hv).2.2.2.2.1
      rw [h2, h1, hsize, addAt_addAt]
      congr 1
      unfold voteSum
      cases hvo : voteOf image shape mask vals t with
      | none => simp [List.filterMap_cons, hvo]
      | some v => simp [List.filterMap_cons, hvo]


theorem addAt_getElem? (data : List ℚ) (r o : Nat) (d : ℚ) :
    (addAt data r d)[o]? = (data[o]?).map (fun v => if r = o then v + d else v) := by
  unfold addAt
  rw [List.getElem?_set]
  by_cases hro : r = o
  · subst hro
    by_cases hr : r < data.length
    · simp [hr, List.getD_eq_getElem?_getD, List.getElem?_eq_getElem hr]
    · simp [hr, List.getElem?_eq_none (not_lt.mp hr)]
  · simp only [hro, if_false]
    cases data[o]? <;> simp

theorem addAt_length (data : List ℚ) (r : Nat) (d : ℚ) :
    (addAt data r d).length = data.length := by
  simp [addAt]

/-- From the index vector `idx` on, the loop of `Accumulate` adds to every cell
at or after the offset of `idx` the votes of `t_range` for the axis values of
that cell, and leaves the earlier cells as they are. -/
theorem accumulateLoop_data (ranges : List (List ℚ)) (image : Image)
    (shape : ShapeInterface ℚ) (mask : Option MaskInterface) (t_range : List ℚ)
    (hpure : ∀ t ps q q1, shape.Calculate t ps q = shape.Calculate t ps q1) :
    ∀ (fuel : Nat) (idx : List Nat) (st st1 : AccumulateState),
    inBounds (ranges.map List.length) idx = true →
    st.self.param_ranges_ = ranges →
    st.self.accumulator.size = ranges.map List.length →
    st.self.accumulator.data.length = (ranges.map List.length).prod →
    accumulateLoop image shape mask t_range fuel true idx st = .ok st1 →
    ∀ o, st1.self.accumulator.data[o]? = (st.self.accumulator.data[o]?).map (fun v =>
      if rank (ranges.map List.length) idx ≤ o then
        v + voteSum image shape mask (valuesAt ranges (ofs2idx (ranges.map List.length) o))
          t_range
      else v)
  | 0, _, _, _, _, _, _, _, h => by simp only [accumulateLoop] at h; cases h
  | fuel + 1, idx, st, st1, hin, hranges, hsize, hlen, h => by
    simp only [accumulateLoop, SetParameterValues, hranges, axisValues_eq ranges idx hin] at h
    cases hv : votes image shape mask idx (valuesAt ranges idx) t_range st with
    | error e => rw [hv] at h; cases h
    | ok st2 =>
      rw [hv] at h
      simp only at h
      have hdata := votes_data image shape mask idx _ hpure t_range st st2 hv
      rw [hsize] at hdata
      obtain ⟨q1, -, -, -, q5, q6, -⟩ := votes_shape _ _ _ _ _ _ _ _ hv
      have hr := rank_lt _ _ hin
      rw [AdvanceParameterIndices, q1, hranges, bumpIndices_spec _ _ hin] at h
      intro o
      by_cases hlt : rank (ranges.map List.length) idx + 1 < (ranges.map List.length).prod
      · simp only [hlt, if_true, Bool.not_false] at h
        have ih := accumulateLoop_data ranges image shape mask t_range hpure fuel _ st2 st1
          (ofs2idx_inBounds _ _ hlt) (q1.trans hranges) (q5.trans hsize) (q6.trans hlen) h o
        rw [ih, rank_ofs2idx _ _ hlt, hdata, addAt_getElem?, Option.map_map]
        congr 1
        funext v
        simp only [Function.comp]
        by_cases h1 : rank (ranges.map List.length) idx = o
        · subst h1
          rw [if_neg (Nat.not_succ_le_self _), if_pos rfl, if_pos (Nat.le_refl _),
            ofs2idx_rank _ _ hin]
        · by_cases h2 : rank (ranges.map List.length) idx + 1 ≤ o
          · have h3 : rank (ranges.map List.length) idx ≤ o := by omega
            simp only [h1, h2, h3, if_true, if_false]
          · have h3 : ¬ (rank (ranges.map List.length) idx ≤ o) := by omega
            simp only [h1, h2, h3, if_false]
      · simp only [hlt, if_false, Bool.not_true] at h
        have hst : st1 = st2 := by
          cases fuel <;> (simp only [accumulateLoop] at h; cases h; rfl)
        rw [hst, hdata, addAt_getElem?]
        by_cases ho : o < st.self.accumulator.data.length
        · rw [List.getElem?_eq_getElem ho]
          simp only [Option.map_some']
          congr 1
          have ho1 : o < (ranges.map List.length).prod := by rw [← hlen]; exact ho
          by_cases h1 : rank (ranges.map List.length) idx = o
          · subst h1
            rw [if_pos rfl, if_pos (Nat.le_refl _), ofs2idx_rank _ _ hin]
          · have h3 : ¬ (rank (ranges.map List.length) idx ≤ o) := by omega
            simp only [h1, h3, if_false]
        · rw [List.getElem?_eq_none (not_lt.mp ho)]
          rfl


/-! ## Completion of `Accumulate` -/

theorem Ready.of_sameShape {sizes : List Nat} {e e1 : HoughTransform} (h : Ready sizes e)
    (hs : SameShape e e1) : Ready sizes e1 := by
  obtain ⟨-, -, -, p4, p5, p6, p7, p8, p9, p10⟩ := hs
  obtain ⟨r1, r2, r3⟩ := h
  refine ⟨p5.trans r1, p6.trans r2, fun hn => ?_⟩
  obtain ⟨s1, s2, s3, s4⟩ := r3 (p4 ▸ hn)
  exact ⟨p7.trans s1, p8.trans s2, p9.trans s3, p10.trans s4⟩

theorem Mat.at_ok (m : Mat) (idx : List Nat) (hin : inBounds m.size idx = true)
    (hlen : m.data.length = m.size.prod) : ∃ v, m.at idx = .ok v := by
  have hr : rank m.size idx < m.data.length := by rw [hlen]; exact rank_lt _ _ hin
  exact ⟨m.data[rank m.size idx], by
    simp only [Mat.at, hin, if_true, vectorAt, List.getElem?_eq_getElem hr]⟩

theorem Mat.set_ok (m : Mat) (idx : List Nat) (v : ℚ) (hin : inBounds m.size idx = true)
    (hlen : m.data.length = m.size.prod) :
    m.set idx v = .ok { m with data := m.data.set (rank m.size idx) v } := by
  have hr : rank m.size idx < m.data.length := by rw [hlen]; exact rank_lt _ _ hin
  simp only [Mat.set, hin, hr, decide_True, Bool.and_self, if_true]

theorem normalizeVote_completes (sizes : List Nat) (e : HoughTransform) (idx : List Nat)
    (a : ℚ) (hin : inBounds sizes idx = true)
    (h1 : e.candidate_magnitudes.size = sizes)
    (h2 : e.candidate_magnitudes.data.length = sizes.prod)
    (h3 : e.normalized_accumulator.size = sizes)
    (h4 : e.normalized_accumulator.data.length = sizes.prod) :
    ∃ e1, normalizeVote e idx a = .ok e1 := by
  obtain ⟨v, hv⟩ := Mat.at_ok e.candidate_magnitudes idx (h1 ▸ hin) (by rw [h2, h1])
  unfold normalizeVote
  simp only [hv, Mat.set_ok e.candidate_magnitudes idx _ (h1 ▸ hin) (by rw [h2, h1]),
    Mat.set_ok e.normalized_accumulator idx _ (h3 ▸ hin) (by rw [h4, h3])]
  exact ⟨_, rfl⟩

/-- With an initialised mask, a shape that does not fault on `param_values` and
arrays that have a cell at `param_indices`, a round of the loop over `t_range`
does not fault. -/
theorem vote_completes (sizes : List Nat) (image : Image) (shape : ShapeInterface ℚ)
    (m : MaskInterface) (idx : List Nat) (vals : List ℚ) (st : AccumulateState) (t : ℚ)
    (hshape : ∀ q, ∃ r, shape.Calculate t vals q = .ok r)
    (hin : inBounds sizes idx = true) (hready : Ready sizes st.self) :
    ∃ st1, vote image shape (some m) idx vals st t = .ok st1 := by
  obtain ⟨r1, r2, r3⟩ := hready
  obtain ⟨⟨in_range, p⟩, hcalc⟩ := hshape st.p
  obtain ⟨cur, hcur⟩ := Mat.at_ok st.self.accumulator idx (r1 ▸ hin) (by rw [r2, r1])
  unfold vote
  simp only [hcalc, hcur, Mat.set_ok st.self.accumulator idx _ (r1 ▸ hin) (by rw [r2, r1])]
  by_cases hg : (in_range && IsInsideIntLimits p.y && IsInsideIntLimits p.x) = true
  · rw [if_pos hg]
    by_cases hv : m.CanVote (roundInt p.x) (roundInt p.y) = true
    · rw [if_pos hv]
      by_cases hn : st.self.normalized_ = true
      · rw [if_pos hn]
        obtain ⟨s1, s2, s3, s4⟩ := r3 hn
        obtain ⟨e1, he1⟩ := normalizeVote_completes sizes
          { st.self with
            accumulator :=
              ⟨st.self.accumulator.size,
                st.self.accumulator.data.set (rank st.self.accumulator.size idx)
                  (cur + GetPixelValue image p.x p.y)⟩ }
          idx (cur + GetPixelValue image p.x p.y) hin s1 s2 s3 s4
        rw [he1]
        exact ⟨_, rfl⟩
      · rw [if_neg hn]
        exact ⟨_, rfl⟩
    · rw [if_neg hv]
      exact ⟨_, rfl⟩
  · rw [if_neg hg]
    exact ⟨_, rfl⟩

theorem votes_completes (sizes : List Nat) (image : Image) (shape : ShapeInterface ℚ)
    (m : MaskInterface) (idx : List Nat) (vals : List ℚ)
    (hshape : ∀ t q, ∃ r, shape.Calculate t vals q = .ok r)
    (hin : inBounds sizes idx = true) :
    ∀ (t_range : List ℚ) (st : AccumulateState), Ready sizes st.self →
    ∃ st1, votes image shape (some m) idx vals t_range st = .ok st1
  | [], st, _ => ⟨st, rfl⟩
  | t :: ts, st, hready => by
    obtain ⟨st2, hv⟩ := vote_completes sizes image shape m idx vals st t (hshape t) hin hready
    obtain ⟨st1, hvs⟩ := votes_completes sizes image shape m idx vals hshape hin ts st2
      (hready.of_sameShape (vote_shape _ _ _ _ _ _ _ _ hv))
    exact ⟨st1, by simp only [votes, hv, hvs]⟩

theorem valuesAt_length : ∀ (ranges : List (List ℚ)) (idx : List Nat),
    inBounds (ranges.map List.length) idx = true → (valuesAt ranges idx).length = ranges.length
  | [], [], _ => rfl
  | [], _ :: _, h => by simp [inBounds] at h
  | _ :: _, [], h => by simp [inBounds] at h
  | r :: ranges, i :: idx, h => by
    simp only [List.map_cons, inBounds_cons] at h
    simp [valuesAt, valuesAt_length ranges idx h.2]

/-- With as many rounds as there are index vectors from `idx` to the last one,
the loop of `Accumulate` stops by itself and does not fault. -/
theorem accumulateLoop_completes (ranges : List (List ℚ)) (image : Image)
    (shape : ShapeInterface ℚ) (m : MaskInterface) (t_range : List ℚ)
    (hshape : ∀ t ps q, ps.length = ranges.length → ∃ r, shape.Calculate t ps q = .ok r) :
    ∀ (fuel : Nat) (idx : List Nat) (st : AccumulateState),
    inBounds (ranges.map List.length) idx = true →
    (ranges.map List.length).prod - rank (ranges.map List.length) idx ≤ fuel →
    st.self.param_ranges_ = ranges → Ready (ranges.map List.length) st.self →
    ∃ st1, accumulateLoop image shape (some m) t_range fuel true idx st = .ok st1
  | 0, idx, _, hin, hfuel, _, _ => by
    have := rank_lt _ _ hin
    omega
  | fuel + 1, idx, st, hin, hfuel, hranges, hready => by
    obtain ⟨st2, hv⟩ := votes_completes _ image shape m idx (valuesAt ranges idx)
      (fun t q => hshape t _ q (valuesAt_length ranges idx hin)) hin t_range st hready
    have hs := votes_shape _ _ _ _ _ _ _ _ hv
    simp only [accumulateLoop, SetParameterValues, hranges, axisValues_eq ranges idx hin, hv,
      AdvanceParameterIndices, hs.1, bumpIndices_spec _ _ hin]
    by_cases hlt : rank (ranges.map List.length) idx + 1 < (ranges.map List.length).prod
    · simp only [hlt, if_true, Bool.not_false]
      exact accumulateLoop_completes ranges image shape m t_range hshape fuel _ st2
        (ofs2idx_inBounds _ _ hlt) (by rw [rank_ofs2idx _ _ hlt]; omega)
        (hs.1.trans hranges) (hready.of_sameShape hs)
    · simp only [hlt, if_false, Bool.not_true]
      exact ⟨st2, by cases fuel <;> rfl⟩

/-- `Accumulate` completes on an engine with at least one axis, no empty axis
and no supplied mask, when the shape does not fault on parameter vectors with
one entry per axis. -/
theorem Accumulate_completes (self : HoughTransform) (image : Image)
    (shape : ShapeInterface ℚ) (t_range : List ℚ)
    (haxes : self.param_ranges_ ≠ [])
    (hne : ∀ r ∈ self.param_ranges_, r ≠ [])
    (hmask : self.mask_ = none)
    (hshape : ∀ t ps q, ps.length = self.num_params → ∃ r, shape.Calculate t ps q = .ok r) :
    ∃ self1, self.Accumulate image shape t_range = .ok self1 := by
  have hmapne : self.param_ranges_.map List.length ≠ [] := by simpa using haxes
  have hP := prod_length_pos _ hne
  have hpos : ∀ s ∈ self.param_ranges_.map List.length, 0 < s := by
    intro s hs
    obtain ⟨r, hr, rfl⟩ := List.mem_map.mp hs
    exact List.length_pos.mpr (hne r hr)
  have hz := inBounds_zero _ hpos
  have hrz := rank_zero (self.param_ranges_.map List.length)
  rw [List.length_map] at hz hrz
  have hcard : decide (Cardinality self.param_ranges_ > 0) = true := by
    simpa [Cardinality] using hP
  have hcreate : (Mat.create (self.param_ranges_.map List.length)).data.length
      = (self.param_ranges_.map List.length).prod := by
    simp [Mat.create, Mat.total, hmapne]
  obtain ⟨st1, hst1⟩ := accumulateLoop_completes self.param_ranges_ image shape
    ({ num_rows := image.rows, num_cols := image.cols } : DefaultMask).mask t_range hshape
    (Cardinality self.param_ranges_) (List.replicate self.num_params 0)
    { self := if self.normalized_ then
          { self with accumulator := Mat.create (self.param_ranges_.map List.length),
                      normalized_accumulator := Mat.create (self.param_ranges_.map List.length),
                      candidate_magnitudes := Mat.create (self.param_ranges_.map List.length) }
        else { self with accumulator := Mat.create (self.param_ranges_.map List.length) },
      p := { x := 0, y := 0 }, sampled := [] }
    hz (Nat.sub_le _ _)
    (by simp only []; split <;> rfl)
    (by
      simp only []
      split
      · exact ⟨rfl, hcreate, fun _ => ⟨rfl, hcreate, rfl, hcreate⟩⟩
      · rename_i hn
        exact ⟨rfl, hcreate, fun h => absurd h hn⟩)
  have hrun : self.accumulateRun image shape t_range = .ok st1 := by
    simp only [accumulateRun, accumulateFuel, hmask, hcard]
    simpa only [hmask] using hst1
  exact ⟨st1.self, by simp only [Accumulate, hrun]⟩


/-- After `Accumulate` on an engine with at least one axis and no empty axis,
the cell at the row-major offset `o` holds the sum of the votes of `t_range`
for the axis values of that cell. -/
theorem Accumulate_data (self self1 : HoughTransform) (image : Image)
    (shape : ShapeInterface ℚ) (t_range : List ℚ)
    (haxes : self.param_ranges_ ≠ [])
    (hne : ∀ r ∈ self.param_ranges_, r ≠ [])
    (hpure : ∀ t ps q q1, shape.Calculate t ps q = shape.Calculate t ps q1)
    (hacc : self.Accumulate image shape t_range = .ok self1) (o : Nat)
    (ho : o < (self.param_ranges_.map List.length).prod) :
    self1.accumulator.data[o]? = some (voteSum image shape (self.activeMask image)
      (valuesAt self.param_ranges_ (ofs2idx (self.param_ranges_.map List.length) o)) t_range) := by
  have hmapne : self.param_ranges_.map List.length ≠ [] := by simpa using haxes
  have hP := prod_length_pos _ hne
  have hpos : ∀ s ∈ self.param_ranges_.map List.length, 0 < s := by
    intro s hs
    obtain ⟨r, hr, rfl⟩ := List.mem_map.mp hs
    exact List.length_pos.mpr (hne r hr)
  have hz := inBounds_zero _ hpos
  have hrz := rank_zero (self.param_ranges_.map List.length)
  rw [List.length_map] at hz hrz
  have hcard : decide (Cardinality self.param_ranges_ > 0) = true := by
    simpa [Cardinality] using hP
  have hcreate : (Mat.create (self.param_ranges_.map List.length)).data.length
      = (self.param_ranges_.map List.length).prod := by
    simp [Mat.create, Mat.total, hmapne]
  unfold Accumulate at hacc
  split at hacc
  · cases hacc
  · rename_i st hrun
    cases hacc
    unfold accumulateRun accumulateFuel at hrun
    simp only [hcard] at hrun
    have hd := accumulateLoop_data self.param_ranges_ image shape (self.activeMask image)
      t_range hpure _ _ _ st hz (by simp only []; split <;> rfl)
      (by simp only []; split <;> rfl)
      (by simp only []; split <;> exact hcreate) hrun o
    have hinit : ∀ (e : HoughTransform),
        e.accumulator = Mat.create (self.param_ranges_.map List.length) →
        e.accumulator.data[o]? = some 0 := by
      intro e he
      rw [he]
      simp only [Mat.create, Mat.total, hmapne, if_false]
      rw [List.getElem?_eq_getElem (by simpa using ho)]
      simp
    have h0 : ∀ (x : ℚ), (if rank (self.param_ranges_.map List.length)
        (List.replicate self.param_ranges_.length 0) ≤ o then (0 : ℚ) + x else 0) = x := by
      intro x
      rw [hrz, if_pos (Nat.zero_le _), zero_add]
    rw [hd, hinit _ (by simp only []; split <;> rfl)]
    simp only [Option.map_some', num_params, h0]

/-! ## Degenerate parameter spaces -/

theorem total_degenerate (ranges : List (List ℚ))
    (hdeg : ranges = [] ∨ ∃ r ∈ ranges, r = []) :
    Mat.total (ranges.map List.length) = 0 := by
  unfold Mat.total
  split
  · rfl
  · rename_i hne
    rcases hdeg with h | ⟨r, hr, hr0⟩
    · subst h; simp at hne
    · rw [List.prod_eq_zero_iff]
      exact List.mem_map.mpr ⟨r, hr, by rw [hr0]; rfl⟩

theorem gatherPicks_no_cells (ranges : List (List ℚ)) (n : Nat) (m : Mat) (h : m.data = []) :
    gatherPicks ranges n m = if n = 0 then .ok [] else .error .noMaximum := by
  cases n with
  | zero => rfl
  | succ n => simp [gatherPicks, minMaxIdx, h, maxLoc]


/-- The standard-form parabola does not fault on three parameters. -/
theorem StandardFormParabola_total (t : ℚ) (ps : List ℚ) (q : Point2d ℚ) (h : ps.length = 3) :
    ∃ r, (StandardFormParabola.shape : ShapeInterface ℚ).Calculate t ps q = .ok r := by
  match ps, h with
  | [a, b, c], _ => exact ⟨_, rfl⟩

/-! ## The parameter range builders -/

theorem iterate_add_eq (step : ℚ) : ∀ (n : Nat) (min : ℚ),
    List.iterate (fun x => x + step) min n = (List.range n).map (fun i : Nat => min + i * step)
  | 0, _ => rfl
  | n + 1, min => by
    rw [List.iterate, iterate_add_eq step n (min + step), List.range_succ_eq_map]
    simp only [List.map_cons, List.map_map, Nat.cast_zero, zero_mul, add_zero, List.cons.injEq,
      List.map_inj_left, Function.comp, Nat.cast_succ, true_and]
    intro i _
    ring

theorem stepsLoop_eq (min step : Int) : ∀ (n : Nat) (i0 : Int) (values : List Int),
    (∀ j : Nat, j < n → ParamRange.fitsInt (step * (i0 + j)) = true ∧
      ParamRange.fitsInt (min + step * (i0 + j)) = true) →
    ParamRange.stepsLoop min step n i0 values
      = .ok (values ++ (List.range n).map (fun j : Nat => min + step * (i0 + j)))
  | 0, _, values, _ => by simp [ParamRange.stepsLoop]
  | n + 1, i0, values, h => by
    have h0 := h 0 (Nat.succ_pos n)
    simp only [Nat.cast_zero, add_zero] at h0
    have ih := stepsLoop_eq min step n (i0 + 1) (values ++ [min + step * i0])
      (fun j hj => by
        have := h (j + 1) (by omega)
        push_cast at this
        rw [show i0 + 1 + (j : Int) = i0 + ((j : Int) + 1) by ring]
        exact this)
    simp only [ParamRange.stepsLoop, h0.1, h0.2, Bool.and_self, if_true, ih,
      List.range_succ_eq_map, List.map_cons, List.map_map, List.append_assoc,
      List.singleton_append, Nat.cast_zero, add_zero]
    congr 3
    apply List.map_congr_left
    intro j _
    simp only [Function.comp, Nat.cast_succ]
    ring_nf

theorem incrementalLoop_exit (fl : ℚ → ℚ) (min max step δ : ℚ) (hδ : 0 < δ)
    (hinc : ∀ x, min ≤ x → x ≤ max → x + δ ≤ fl (x + step)) :
    ∀ (N : Nat) (x : ℚ), min ≤ x → max - x < N * δ →
      ∃ n : Nat,
        (∀ fuel vals, n ≤ fuel → ParamRange.incrementalLoop fl max step fuel x vals
          = .ok (vals ++ List.iterate (fun x => fl (x + step)) x n)) ∧
        List.Pairwise (· < ·) (List.iterate (fun x => fl (x + step)) x n) ∧
        (∀ y ∈ List.iterate (fun x => fl (x + step)) x n, x ≤ y ∧ y ≤ max) ∧
        max < (fun x => fl (x + step))^[n] x ∧ (max < x → n = 0) := by
  have hout : ∀ x : ℚ, max < x → ∃ n : Nat,
        (∀ fuel vals, n ≤ fuel → ParamRange.incrementalLoop fl max step fuel x vals
          = .ok (vals ++ List.iterate (fun x => fl (x + step)) x n)) ∧
        List.Pairwise (· < ·) (List.iterate (fun x => fl (x + step)) x n) ∧
        (∀ y ∈ List.iterate (fun x => fl (x + step)) x n, x ≤ y ∧ y ≤ max) ∧
        max < (fun x => fl (x + step))^[n] x ∧ (max < x → n = 0) := by
    intro x hx
    refine ⟨0, ?_, by simp [List.iterate], by simp [List.iterate], by simpa using hx, fun _ => rfl⟩
    intro fuel vals _
    have hx1 : ¬ x ≤ max := not_le.mpr hx
    cases fuel <;> simp [ParamRange.incrementalLoop, hx1, List.iterate]
  intro N
  induction N with
  | zero =>
    intro x _ hN
    exact hout x (by simpa using hN)
  | succ N ih =>
    intro x hmin hN
    by_cases hx : x ≤ max
    · have hstepx := hinc x hmin hx
      obtain ⟨n, h1, h2, h3, h4, -⟩ := ih (fl (x + step)) (by linarith) (by
        push_cast at hN
        linarith)
      refine ⟨n + 1, ?_, ?_, ?_, ?_, ?_⟩
      · intro fuel vals hfuel
        obtain ⟨fuel1, rfl⟩ : ∃ fuel1, fuel = fuel1 + 1 := ⟨fuel - 1, by omega⟩
        simp only [ParamRange.incrementalLoop, hx, if_true]
        rw [h1 fuel1 _ (by omega), List.iterate]
        simp
      · rw [List.iterate, List.pairwise_cons]
        refine ⟨fun y hy => ?_, h2⟩
        have := (h3 y hy).1
        linarith
      · intro y hy
        rw [List.iterate, List.mem_cons] at hy
        rcases hy with rfl | hy
        · exact ⟨le_refl _, hx⟩
        · have := h3 y hy
          exact ⟨by linarith, this.2⟩
      · rw [Function.iterate_succ_apply]
        exact h4
      · intro h
        exact absurd hx (not_le.mpr h)
    · exact hout x (not_le.mp hx)

theorem incrementalLoop_exact (min max step : ℚ) (hstep : 0 < step) :
    ∃ n : Nat, ∀ fuel, n ≤ fuel → ParamRange.Incremental id fuel min max step
      = .ok ((List.range n).map (fun i : Nat => min + i * step)) := by
  obtain ⟨n, h1, -⟩ := incrementalLoop_exit id min max step step hstep
    (fun x _ _ => le_refl _) (⌊(max - min) / step⌋₊ + 1) min (le_refl _) (by
      have := Nat.lt_floor_add_one ((max - min) / step)
      rw [div_lt_iff₀ hstep] at this
      push_cast
      linarith)
  refine ⟨n, fun fuel hfuel => ?_⟩
  have := h1 fuel [] hfuel
  simp only [List.nil_append] at this
  rw [ParamRange.Incremental, this]
  congr 1
  exact iterate_add_eq step n min

theorem incrementalLoop_absorbed (fl : ℚ → ℚ) (max step x : ℚ) (hx : x ≤ max)
    (habs : fl (x + step) = x) :
    ∀ (fuel : Nat) (vals : List ℚ),
      ParamRange.incrementalLoop fl max step fuel x vals = .error .outOfFuel
  | 0, vals => by simp [ParamRange.incrementalLoop, hx]
  | fuel + 1, vals => by
    simp only [ParamRange.incrementalLoop, hx, if_true, habs]
    exact incrementalLoop_absorbed fl max step x hx habs fuel _

/-! ## The rounding of `double` arithmetic -/

theorem log2Loop_spec : ∀ (fuel n : Nat), n ≤ fuel → 1 ≤ n →
    2 ^ log2Loop fuel n ≤ n ∧ n < 2 ^ (log2Loop fuel n + 1)
  | 0, n, h, h1 => by omega
  | fuel + 1, n, h, h1 => by
    unfold log2Loop
    by_cases hn : n < 2
    · simp only [hn, if_true]
      omega
    · simp only [hn, if_false]
      have ih := log2Loop_spec fuel (n / 2) (by omega) (by omega)
      obtain ⟨ih1, ih2⟩ := ih
      constructor
      · rw [pow_succ]; omega
      · rw [pow_succ]; omega

theorem roundEven_abs_sub_le (q : ℚ) : |(roundEven q : ℚ) - q| ≤ 1 / 2 := by
  have h0 : (⌊q⌋ : ℚ) ≤ q := Int.floor_le q
  have h1 : q < ⌊q⌋ + 1 := Int.lt_floor_add_one q
  unfold roundEven
  simp only
  split_ifs with ha hb hc
  · rw [abs_le]; constructor <;> linarith
  · rw [abs_le]; push_cast; constructor <;> linarith
  · rw [abs_le]; constructor <;> linarith
  · rw [abs_le]; push_cast; constructor <;> linarith

theorem roundDouble_abs_sub_le (x : ℚ) : |roundDouble x - x| ≤ |x| / 2 ^ 53 := by
  unfold roundDouble
  by_cases hx : x = 0
  · simp [hx]
  · simp only [hx, if_false]
    set k : Int := (log2Loop x.num.natAbs x.num.natAbs : Int) - (log2Loop x.den x.den : Int) with hk
    set e : Int := if (2 : ℚ) ^ k ≤ |x| then k else k - 1 with he
    have hnum : 1 ≤ x.num.natAbs := by
      have : x.num ≠ 0 := Rat.num_ne_zero.mpr hx
      omega
    have hden : 1 ≤ x.den := x.den_pos
    obtain ⟨hn1, -⟩ := log2Loop_spec _ _ (le_refl _) hnum
    obtain ⟨-, hd2⟩ := log2Loop_spec _ _ (le_refl _) hden
    have habs : |x| = (x.num.natAbs : ℚ) / (x.den : ℚ) := by
      conv_lhs => rw [← Rat.num_div_den x]
      rw [abs_div, Nat.abs_cast, Nat.cast_natAbs, Int.cast_abs]
    have hexp : (2 : ℚ) ^ e ≤ |x| := by
      rw [he]
      split_ifs with h
      · exact h
      · rw [habs, le_div_iff₀ (by exact_mod_cast hden), hk]
        have h2 : (0 : ℚ) < 2 := by norm_num
        rw [show ((log2Loop x.num.natAbs x.num.natAbs : Int) - (log2Loop x.den x.den : Int) - 1)
          = (log2Loop x.num.natAbs x.num.natAbs : Int) - ((log2Loop x.den x.den + 1 : Nat) : Int) by
            push_cast; ring]
        rw [zpow_sub₀ (ne_of_gt h2), zpow_natCast, zpow_natCast, div_mul_eq_mul_div,
          div_le_iff₀ (by positivity)]
        have a1 : ((2 : ℚ) ^ log2Loop x.num.natAbs x.num.natAbs) ≤ x.num.natAbs := by
          exact_mod_cast hn1
        have a2 : (x.den : ℚ) ≤ 2 ^ (log2Loop x.den x.den + 1) := by
          exact_mod_cast le_of_lt hd2
        calc (2 : ℚ) ^ log2Loop x.num.natAbs x.num.natAbs * x.den
            ≤ x.num.natAbs * x.den := by gcongr
          _ ≤ x.num.natAbs * 2 ^ (log2Loop x.den x.den + 1) := by gcongr
    have hulp : (0 : ℚ) < 2 ^ (e - 52) := by positivity
    have hr := roundEven_abs_sub_le (x / 2 ^ (e - 52))
    have : (roundEven (x / 2 ^ (e - 52)) : ℚ) * 2 ^ (e - 52) - x
        = ((roundEven (x / 2 ^ (e - 52)) : ℚ) - x / 2 ^ (e - 52)) * 2 ^ (e - 52) := by
      field_simp
    rw [this, abs_mul, abs_of_pos hulp]
    have h53 : (2 : ℚ) ^ (e - 52) = 2 ^ e / 2 ^ 52 := by
      rw [zpow_sub₀ (by norm_num : (2 : ℚ) ≠ 0)]; norm_num
    calc |(roundEven (x / 2 ^ (e - 52)) : ℚ) - x / 2 ^ (e - 52)| * 2 ^ (e - 52)
        ≤ 1 / 2 * 2 ^ (e - 52) := by gcongr
      _ = 2 ^ e / 2 ^ 53 := by rw [h53]; ring
      _ ≤ |x| / 2 ^ 53 := by gcongr

theorem roundDouble_advances (x : ℚ) (h0 : 0 ≤ x) (h1 : x ≤ 1) :
    x + 1 / 4 ≤ roundDouble (x + roundDouble (3 / 10)) := by
  have hd : roundDouble (3 / 10) = 5404319552844595 / 18014398509481984 := by decide!
  have hb := roundDouble_abs_sub_le (x + roundDouble (3 / 10))
  rw [hd] at hb ⊢
  have hpos : |x + 5404319552844595 / 18014398509481984|
      = x + 5404319552844595 / 18014398509481984 := abs_of_nonneg (by positivity)
  rw [hpos] at hb
  have := (abs_le.mp hb).1
  norm_num at this ⊢
  linarith

theorem CalculateRounded_id {K : Type} [Field K] (sin cos : K → K) (self : RotatedShape K)
    (t : K) (params : List K) (output : Point2d K) :
    RotatedShape.CalculateRounded id sin cos self t params output
      = RotatedShape.Calculate sin cos self t params output := rfl

/-! ## Picks among cells that are not negative -/

theorem countP_set_zero_of_zero : ∀ (xs : List ℚ) (o : Nat), xs[o]? = some 0 →
    xs.set o 0 = xs
  | [], _, h => by simp at h
  | x :: xs, 0, h => by
    simp only [List.getElem?_cons_zero, Option.some.injEq] at h
    simp [h]
  | x :: xs, o + 1, h => by
    simp only [List.getElem?_cons_succ] at h
    simp [countP_set_zero_of_zero xs o h]

/-- On cells that are not negative, as long as positive cells remain the rounds
pick them, each once and all of them; afterwards every pick scores zero. -/
theorem flatPicks_split : ∀ (k : Nat) (xs : List ℚ) (m : Nat), xs ≠ [] →
    (∀ x ∈ xs, 0 ≤ x) → xs.countP (fun x => decide (0 < x)) = m → m ≤ k →
    (flatPicks k xs).length = k ∧
    (∀ c ∈ (flatPicks k xs).take m, xs[c.1]? = some c.2 ∧ 0 < c.2) ∧
    (((flatPicks k xs).take m).map Prod.fst).Nodup ∧
    (∀ o v, xs[o]? = some v → 0 < v → o ∈ ((flatPicks k xs).take m).map Prod.fst) ∧
    (∀ c ∈ (flatPicks k xs).drop m, c.2 = 0 ∧ c.1 < xs.length)
  | 0, xs, m, _, _, hm, hk => by
    have hm0 : m = 0 := by omega
    subst hm0
    refine ⟨rfl, by simp [flatPicks], by simp [flatPicks], ?_, by simp [flatPicks]⟩
    intro o v ho hv
    have hmem : v ∈ xs := List.mem_iff_getElem?.mpr ⟨o, ho⟩
    have : 0 < xs.countP (fun x => decide (0 < x)) :=
      List.countP_pos_iff.mpr ⟨v, hmem, by simpa using hv⟩
    omega
  | k + 1, xs, m, hne, hnn, hm, hk => by
    cases hloc : maxLoc xs with
    | none => exact absurd ((maxLoc_eq_none _).mp hloc) hne
    | some r =>
      obtain ⟨v, ofs⟩ := r
      obtain ⟨hget, hle⟩ := maxLoc_spec _ _ _ hloc
      have hofs : ofs < xs.length := maxLoc_lt _ _ _ hloc
      have hvmem : v ∈ xs := List.mem_iff_getElem?.mpr ⟨ofs, hget⟩
      have hne1 : xs.set ofs 0 ≠ [] := by
        intro hc
        have := congrArg List.length hc
        rw [List.length_set] at this
        simp only [List.length_nil] at this
        omega
      have hnn1 : ∀ x ∈ xs.set ofs 0, 0 ≤ x := by
        intro x hx
        rcases List.mem_or_eq_of_mem_set hx with hx | rfl
        · exact hnn x hx
        · exact le_refl _
      simp only [flatPicks, hloc]
      cases m with
      | zero =>
        have hall : ∀ x ∈ xs, ¬ 0 < x := by
          intro x hx hpos
          have : 0 < xs.countP (fun x => decide (0 < x)) :=
            List.countP_pos_iff.mpr ⟨x, hx, by simpa using hpos⟩
          omega
        have hv0 : v = 0 := le_antisymm (not_lt.mp (hall v hvmem)) (hnn v hvmem)
        subst hv0
        have hset : xs.set ofs 0 = xs := countP_set_zero_of_zero xs ofs hget
        obtain ⟨i1, -, -, -, i5⟩ := flatPicks_split k (xs.set ofs 0) 0 hne1 hnn1
          (by rw [hset]; exact hm) (Nat.zero_le _)
        refine ⟨by simp [i1], by simp, by simp, ?_, ?_⟩
        · intro o w ho hw
          exact absurd hw (hall w (List.mem_iff_getElem?.mpr ⟨o, ho⟩))
        · intro c hc
          simp only [List.drop_zero, List.mem_cons] at hc
          rcases hc with rfl | hc
          · exact ⟨rfl, hofs⟩
          · have := i5 c (by simpa using hc)
            rw [hset] at this
            exact this
      | succ m1 =>
        have hex : ∃ x ∈ xs, 0 < x := by
          have : 0 < xs.countP (fun x => decide (0 < x)) := by omega
          obtain ⟨x, hx, hp⟩ := List.countP_pos_iff.mp this
          exact ⟨x, hx, by simpa using hp⟩
        obtain ⟨x0, hx0, hx0pos⟩ := hex
        have hv : 0 < v := lt_of_lt_of_le hx0pos (hle x0 hx0)
        have hcount := countP_set_pos xs ofs v hget hv
        obtain ⟨i1, i2, i3, i4, i5⟩ := flatPicks_split k (xs.set ofs 0) m1 hne1 hnn1
          (by omega) (by omega)
        have hneq : ∀ c ∈ (flatPicks k (xs.set ofs 0)).take m1, c.1 ≠ ofs := by
          intro c hc heq
          obtain ⟨hc1, hc2⟩ := i2 c hc
          rw [heq, List.getElem?_set_self hofs] at hc1
          simp only [Option.some.injEq] at hc1
          rw [← hc1] at hc2
          exact lt_irrefl _ hc2
        refine ⟨by simp [i1], ?_, ?_, ?_, ?_⟩
        · intro c hc
          simp only [List.take_succ_cons, List.mem_cons] at hc
          rcases hc with rfl | hc
          · exact ⟨hget, hv⟩
          · obtain ⟨hc1, hc2⟩ := i2 c hc
            rw [List.getElem?_set_ne (Ne.symm (hneq c hc))] at hc1
            exact ⟨hc1, hc2⟩
        · simp only [List.take_succ_cons, List.map_cons, List.nodup_cons, List.mem_map,
            not_exists, not_and]
          exact ⟨fun c hc heq => hneq c hc heq, i3⟩
        · intro o w ho hw
          simp only [List.take_succ_cons, List.map_cons, List.mem_cons]
          by_cases hoo : o = ofs
          · exact Or.inl hoo
          · right
            exact i4 o w (by rw [List.getElem?_set_ne (Ne.symm hoo)]; exact ho) hw
        · intro c hc
          simp only [List.drop_succ_cons] at hc
          have := i5 c hc
          rw [List.length_set] at this
          exact this

theorem gatherPicks_length (ranges : List (List ℚ)) : ∀ (n : Nat) (m : Mat) (ps : List Pick),
    gatherPicks ranges n m = .ok ps → ps.length = n
  | 0, _, ps, h => by simp only [gatherPicks] at h; cases h; rfl
  | n + 1, m, ps, h => by
    obtain ⟨v, ofs, vals, m1, ps1, -, -, -, hrest, rfl⟩ := gatherPicks_succ _ _ _ _ h
    simp [gatherPicks_length ranges n m1 ps1 hrest]


theorem GatherCandidates_ok (self self1 : HoughTransform) (candidates cands : List (List ℚ))
    (h : self.GatherCandidates candidates = .ok (self1, cands)) :
    ∃ new : List (List ℚ), cands = candidates ++ new ∧
      new.length = self.max_candidates - candidates.length := by
  unfold GatherCandidates at h
  simp only at h
  cases hg : gatherPicks self.param_ranges_ (self.max_candidates - candidates.length)
      self.accumulator with
  | error e => rw [hg] at h; cases h
  | ok picks =>
    rw [hg] at h
    cases h
    exact ⟨_, rfl, by rw [List.length_map, gatherPicks_length _ _ _ _ hg]⟩

/-! ## Lexicographic order and rounding -/

theorem inBounds_pos : ∀ (sizes idx : List Nat), inBounds sizes idx = true →
    ∀ s ∈ sizes, 0 < s
  | [], [], _ => by simp
  | [], _ :: _, h => by simp [inBounds] at h
  | _ :: _, [], h => by simp [inBounds] at h
  | s :: sizes, i :: idx, h => by
    obtain ⟨hi, hrest⟩ := (inBounds_cons s sizes i idx).mp h
    intro s1 hs1
    rcases List.mem_cons.mp hs1 with rfl | hs1
    · omega
    · exact inBounds_pos sizes idx hrest s1 hs1

theorem lex_rank : ∀ (sizes a b : List Nat), inBounds sizes a = true →
    inBounds sizes b = true → List.Lex (· < ·) a b → rank sizes a < rank sizes b
  | [], [], [], _, _, h => by cases h
  | [], _ :: _, _, h, _, _ => by simp [inBounds] at h
  | [], [], _ :: _, _, h, _ => by simp [inBounds] at h
  | _ :: _, [], _, h, _, _ => by simp [inBounds] at h
  | _ :: _, _ :: _, [], _, h, _ => by simp [inBounds] at h
  | s :: sizes, i :: a, j :: b, ha, hb, h => by
    obtain ⟨hi, harest⟩ := (inBounds_cons s sizes i a).mp ha
    obtain ⟨hj, hbrest⟩ := (inBounds_cons s sizes j b).mp hb
    have hra := rank_lt sizes a harest
    have hrb := rank_lt sizes b hbrest
    simp only [rank]
    cases h with
    | cons h1 =>
      have := lex_rank sizes a b harest hbrest h1
      omega
    | rel h1 =>
      have : (i + 1) * sizes.prod ≤ j * sizes.prod := Nat.mul_le_mul_right _ h1
      rw [Nat.add_mul, Nat.one_mul] at this
      omega

theorem roundInt_bounds (v : ℚ) (lo hi : Int) (hlo : (lo : ℚ) ≤ v) (hhi : v ≤ (hi : ℚ))
    (hlo0 : lo ≤ 0) (hhi0 : 0 ≤ hi) : lo ≤ roundInt v ∧ roundInt v ≤ hi := by
  unfold roundInt
  by_cases h0 : 0 ≤ v
  · rw [if_pos h0]
    constructor
    · have : (0 : Int) ≤ ⌊v + 1 / 2⌋ := Int.floor_nonneg.mpr (by linarith)
      omega
    · have h1 : ⌊v + 1 / 2⌋ < hi + 1 := by
        rw [Int.floor_lt]
        push_cast
        linarith
      omega
  · rw [if_neg h0]
    have hneg : v < 0 := not_le.mp h0
    constructor
    · have h1 : lo - 1 < ⌈v - 1 / 2⌉ := by
        rw [Int.lt_ceil]
        push_cast
        linarith
      omega
    · have h1 : ⌈v - 1 / 2⌉ ≤ 0 := by
        rw [Int.ceil_le]
        push_cast
        linarith
      omega

theorem roundInt_floor_ceil (v : ℚ) : roundInt v - 1 ≤ ⌊v⌋ ∧ ⌈v⌉ ≤ roundInt v + 1 := by
  unfold roundInt
  split_ifs with h
  · constructor
    · have : ⌊v + 1 / 2⌋ ≤ ⌊v + 1⌋ := Int.floor_le_floor (by linarith)
      rw [Int.floor_add_one] at this
      omega
    · have h1 : ⌈v⌉ ≤ ⌊v⌋ + 1 := Int.ceil_le_floor_add_one v
      have h2 : ⌊v⌋ ≤ ⌊v + 1 / 2⌋ := Int.floor_le_floor (by linarith)
      omega
  · constructor
    · have h1 : ⌈v⌉ ≤ ⌊v⌋ + 1 := Int.ceil_le_floor_add_one v
      have h2 : ⌈v - 1 / 2⌉ ≤ ⌈v⌉ := Int.ceil_le_ceil (by linarith)
      omega
    · have : ⌈v - 1⌉ ≤ ⌈v - 1 / 2⌉ := Int.ceil_le_ceil (by linarith)
      rw [Int.ceil_sub_one] at this
      omega

theorem bilinearFootprint_near (v w : ℚ) (cols rows : Int)
    (hv : 0 ≤ roundInt v ∧ roundInt v < cols) (hw : 0 ≤ roundInt w ∧ roundInt w < rows) :
    ∀ c ∈ bilinearFootprint v w, (-1 ≤ c.1 ∧ c.1 ≤ cols) ∧ (-1 ≤ c.2 ∧ c.2 ≤ rows) := by
  obtain ⟨a1, a2⟩ := roundInt_floor_ceil v
  obtain ⟨b1, b2⟩ := roundInt_floor_ceil w
  have a3 : ⌊v⌋ ≤ ⌈v⌉ := Int.floor_le_ceil v
  have b3 : ⌊w⌋ ≤ ⌈w⌉ := Int.floor_le_ceil w
  intro c hc
  simp only [bilinearFootprint, List.mem_cons, List.mem_singleton, List.not_mem_nil, or_false] at hc
  rcases hc with rfl | rfl | rfl | rfl <;> simp only <;> omega

/-! ## The claims -/

/-- C1. On an engine with at least one axis, no empty axis and
`max_candidates >= 1`: `Accumulate` completes when no mask was supplied and the
shape does not fault on parameter vectors with one entry per axis; and whenever
`Accumulate` completes, the single-best form of `Compute` returns the axis
values (`SetParameterValues`) of an index vector in bounds whose cell holds the
largest score of the accumulator left by `Accumulate`. If the cell at `idx0` is
strictly larger than every other cell, the values returned are those of
`idx0`. -/
theorem ComputeBest_returns_global_maximum (self : HoughTransform) (image : Image)
    (shape : ShapeInterface ℚ) (t_range : List ℚ)
    (haxes : self.param_ranges_ ≠ [])
    (hne : ∀ r ∈ self.param_ranges_, r ≠ [])
    (hmax : 1 ≤ self.max_candidates) :
    (self.mask_ = none →
      (∀ t ps q, ps.length = self.num_params → ∃ r, shape.Calculate t ps q = .ok r) →
      ∃ self1, self.Accumulate image shape t_range = .ok self1) ∧
    ∀ self1, self.Accumulate image shape t_range = .ok self1 →
      ∃ idx score vals,
        inBounds (self.param_ranges_.map List.length) idx = true ∧
        self1.accumulator.at idx = .ok score ∧
        self.SetParameterValues idx = .ok vals ∧
        self.ComputeBest image shape t_range = .ok (self1, vals) ∧
        (∀ idx1 score1, self1.accumulator.at idx1 = .ok score1 → score1 ≤ score) ∧
        (∀ idx0 score0 vals0, self1.accumulator.at idx0 = .ok score0 →
          (∀ idx1 score1, idx1 ≠ idx0 → self1.accumulator.at idx1 = .ok score1 →
            score1 < score0) →
          self.SetParameterValues idx0 = .ok vals0 →
          self.ComputeBest image shape t_range = .ok (self1, vals0)) := by
  refine ⟨fun hmask hshape =>
    Accumulate_completes self image shape t_range haxes hne hmask hshape, ?_⟩
  intro self1 hacc
  obtain ⟨hranges, hk, hsize, hlen⟩ := Accumulate_shape _ _ _ _ _ hacc
  have hmapne : self.param_ranges_.map List.length ≠ [] := by
    simpa using haxes
  have hpos := prod_length_pos _ hne
  rw [Mat.total, if_neg hmapne] at hlen
  have hdata : self1.accumulator.data ≠ [] := by
    intro hc; rw [hc] at hlen; simp at hlen; omega
  cases hloc : maxLoc self1.accumulator.data with
  | none => exact absurd ((maxLoc_eq_none _).mp hloc) hdata
  | some r =>
    obtain ⟨v, ofs⟩ := r
    obtain ⟨hget, hle⟩ := maxLoc_spec _ _ _ hloc
    have hofs : ofs < (self.param_ranges_.map List.length).prod := hlen ▸ maxLoc_lt _ _ _ hloc
    have hin := ofs2idx_inBounds _ _ hofs
    have hrank := rank_ofs2idx _ _ hofs
    have hvals := axisValues_eq self.param_ranges_ _ hin
    have hat : self1.accumulator.at (ofs2idx (self.param_ranges_.map List.length) ofs)
        = .ok v := by
      simp only [Mat.at, hsize, hin, if_true, hrank, vectorAt, hget]
    obtain ⟨k, hk1⟩ : ∃ k, self1.max_candidates = k + 1 :=
      ⟨self.max_candidates_ - 1, by simp only [max_candidates] at hmax ⊢; omega⟩
    have hbest : self.ComputeBest image shape t_range
        = .ok (self1, valuesAt self.param_ranges_
            (ofs2idx (self.param_ranges_.map List.length) ofs)) := by
      have hg := gatherPicks_eq self1.param_ranges_ (k + 1) self1.accumulator
        (by rw [hsize, hranges]) (by rw [hlen, hsize]) hdata
      rw [hranges, hsize] at hg
      simp only [ComputeBest, Compute, hacc, GatherCandidates, List.length_nil, Nat.sub_zero,
        hk1, hg, flatPicks, hloc, List.map_cons, List.nil_append, vectorAt,
        List.getElem?_cons_zero, pickAt, hsize, hranges]
    refine ⟨_, v, _, hin, hat, hvals, hbest, ?_, ?_⟩
    · intro idx1 score1 h1
      exact hle _ (Mat.at_mem _ _ _ h1)
    · intro idx0 score0 vals0 h0 hstrict hv0
      by_cases heq : ofs2idx (self.param_ranges_.map List.length) ofs = idx0
      · rw [heq] at hvals hbest
        rw [SetParameterValues] at hv0
        rw [hvals] at hv0
        cases hv0
        exact hbest
      · have h1 := hstrict _ _ heq hat
        have h2 := hle _ (Mat.at_mem _ _ _ h0)
        exact absurd h1 (not_lt.mpr h2)

/-- C1 at `parabolaEngine`, `rampImage`, the standard-form parabola and
`t_range = [0, 1, 2]`: the call completes and returns the values of a cell
with the largest score. -/
theorem ComputeBest_returns_global_maximum_witness :
    ∃ self1 idx score vals,
      parabolaEngine.Accumulate rampImage StandardFormParabola.shape [0, 1, 2] = .ok self1 ∧
      inBounds (parabolaEngine.param_ranges_.map List.length) idx = true ∧
      self1.accumulator.at idx = .ok score ∧
      parabolaEngine.SetParameterValues idx = .ok vals ∧
      parabolaEngine.ComputeBest rampImage StandardFormParabola.shape [0, 1, 2]
        = .ok (self1, vals) ∧
      ∀ idx1 score1, self1.accumulator.at idx1 = .ok score1 → score1 ≤ score := by
  obtain ⟨hcomp, hbest⟩ := ComputeBest_returns_global_maximum parabolaEngine rampImage
    StandardFormParabola.shape [0, 1, 2] (by decide) (by decide) (by decide)
  obtain ⟨self1, h1⟩ := hcomp rfl (fun t ps q hps => StandardFormParabola_total t ps q hps)
  obtain ⟨idx, score, vals, a, b, c, d, e, -⟩ := hbest self1 h1
  exact ⟨self1, idx, score, vals, h1, a, b, c, d, e⟩

/-- C2, as stated, fails: on the accumulator `[-1, -2]` the first pick scores
`-1`, its cell is set to zero, and the second pick scores `0 > -1`. -/
theorem GatherCandidates_scores_increase_on_negative_cells :
    ∃ picks, gatherPicks negativeEngine.param_ranges_
        (negativeEngine.max_candidates - ([] : List (List ℚ)).length)
        negativeEngine.accumulator = .ok picks ∧
      negativeEngine.GatherCandidates [] = .ok (negativeEngine, picks.map Pick.best_param_values) ∧
      picks.map Pick.max_accumulated = [-1, 0] ∧
      ¬ List.Pairwise (fun a b : ℚ => b ≤ a) (picks.map Pick.max_accumulated) :=
  ⟨[⟨[0], -1, [0]⟩, ⟨[0], 0, [0]⟩], by with_unfolding_all rfl, by with_unfolding_all rfl,
    rfl, by decide⟩

/-- C2, amended. When the accumulator has a cell that is not negative, the
scores found by `GatherCandidates` (the maximum of the working copy in each
round) are in non-increasing order, whatever `max_candidates` is; the
candidates appended are those of the same rounds. -/
theorem GatherCandidates_scores_nonincreasing (self : HoughTransform)
    (candidates : List (List ℚ)) (picks : List Pick)
    (hcell : ∃ x ∈ self.accumulator.data, 0 ≤ x)
    (h : gatherPicks self.param_ranges_ (self.max_candidates - candidates.length)
      self.accumulator = .ok picks) :
    self.GatherCandidates candidates
        = .ok (self, candidates ++ picks.map Pick.best_param_values) ∧
      List.Pairwise (fun a b => b ≤ a) (picks.map Pick.max_accumulated) := by
  refine ⟨?_, gatherPicks_sorted _ _ _ _ h hcell⟩
  simp only [GatherCandidates, h]

/-- C2 (amended) at `sixCellEngine`. -/
theorem GatherCandidates_scores_nonincreasing_witness :
    (∃ x ∈ sixCellEngine.accumulator.data, 0 ≤ x) ∧
    sixCellEngine.GatherCandidates []
        = .ok (sixCellEngine,
            [[0, 0, 10], [1, 0, 5], [0, 0, 5], [-1, 0, 5], [1, 0, 10], [-1, 0, 10]]) ∧
      List.Pairwise (fun a b : ℚ => b ≤ a) [6, 5, 4, 3, 2, 1] :=
  ⟨⟨3, by decide, by decide⟩,
    GatherCandidates_scores_nonincreasing sixCellEngine []
      [⟨[1, 0, 1], 6, [0, 0, 10]⟩, ⟨[2, 0, 0], 5, [1, 0, 5]⟩, ⟨[1, 0, 0], 4, [0, 0, 5]⟩,
       ⟨[0, 0, 0], 3, [-1, 0, 5]⟩, ⟨[2, 0, 1], 2, [1, 0, 10]⟩, ⟨[0, 0, 1], 1, [-1, 0, 10]⟩]
      ⟨3, by decide, by decide⟩ (by with_unfolding_all rfl)⟩

/-- C3, as stated, fails in two ways. With the two distinct nonzero cells
`-1, -2` and `k = 2` the cell of the first pick, set to zero, is the maximum
again, and the same vector is returned twice. With two distinct positive cells
on an axis that lists the value `1` twice, the two picks are different cells
with the same parameter vector. -/
theorem GatherCandidates_repeats_vectors :
    (negativeEngine.accumulator.data.countP (fun x => decide (x ≠ 0)) = 2 ∧
      negativeEngine.accumulator.data.Nodup ∧ negativeEngine.max_candidates = 2 ∧
      ∃ cands, negativeEngine.GatherCandidates [] = .ok (negativeEngine, cands) ∧
        ¬ cands.Nodup) ∧
    (repeatedValueEngine.accumulator.data.countP (fun x => decide (x ≠ 0)) = 2 ∧
      repeatedValueEngine.accumulator.data.Nodup ∧ repeatedValueEngine.max_candidates = 2 ∧
      ∃ cands, repeatedValueEngine.GatherCandidates [] = .ok (repeatedValueEngine, cands) ∧
        ¬ cands.Nodup) :=
  ⟨⟨by decide, by decide, rfl, [[0], [0]], by with_unfolding_all rfl, by decide⟩,
   ⟨by decide, by decide, rfl, [[1], [1]], by with_unfolding_all rfl, by decide⟩⟩

/-- C3, amended. When no axis lists a value twice and the accumulator, whose
extents are the axis lengths, has at least `k` cells with a positive score,
`GatherCandidates` with `max_candidates = k` on an empty list returns exactly
`k` parameter vectors, and they are pairwise distinct. -/
theorem GatherCandidates_returns_distinct_vectors (self : HoughTransform) (k : Nat)
    (hk : self.max_candidates = k)
    (hsize : self.accumulator.size = self.param_ranges_.map List.length)
    (hlen : self.accumulator.data.length = self.accumulator.size.prod)
    (hnodup : ∀ r ∈ self.param_ranges_, r.Nodup)
    (hpos : k ≤ self.accumulator.data.countP (fun x => decide (0 < x))) :
    ∃ cands, self.GatherCandidates [] = .ok (self, cands) ∧ cands.length = k ∧
      cands.Nodup := by
  obtain ⟨h1, h2, h3⟩ := flatPicks_pos k _ hpos
  cases k with
  | zero =>
    refine ⟨[], ?_, rfl, List.nodup_nil⟩
    simp [GatherCandidates, hk, gatherPicks]
  | succ n =>
    have hdata : self.accumulator.data ≠ [] := by
      intro hc; rw [hc] at hpos; simp at hpos
    have hg := gatherPicks_eq self.param_ranges_ (n + 1) self.accumulator hsize hlen hdata
    refine ⟨((flatPicks (n + 1) self.accumulator.data).map
        (pickAt self.param_ranges_ self.accumulator.size)).map Pick.best_param_values,
      by simp only [GatherCandidates, hk, List.length_nil, Nat.sub_zero, hg,
        List.nil_append], by simp only [List.length_map, h1], ?_⟩
    rw [List.map_map]
    have hinj : ∀ a ∈ flatPicks (n + 1) self.accumulator.data,
        ∀ b ∈ flatPicks (n + 1) self.accumulator.data,
        (Pick.best_param_values ∘ pickAt self.param_ranges_ self.accumulator.size) a
          = (Pick.best_param_values ∘ pickAt self.param_ranges_ self.accumulator.size) b →
        a.1 = b.1 := by
      intro a ha b hb hab
      have hao : a.1 < self.accumulator.size.prod := by
        rw [← hlen]
        by_contra hc
        have := (h2 a ha).1
        rw [List.getElem?_eq_none (not_lt.mp hc)] at this
        cases this
      have hbo : b.1 < self.accumulator.size.prod := by
        rw [← hlen]
        by_contra hc
        have := (h2 b hb).1
        rw [List.getElem?_eq_none (not_lt.mp hc)] at this
        cases this
      simp only [Function.comp, pickAt] at hab
      have hidx := valuesAt_injective self.param_ranges_ _ _ hnodup
        (hsize ▸ ofs2idx_inBounds _ _ hao) (hsize ▸ ofs2idx_inBounds _ _ hbo) hab
      have := congrArg (rank self.accumulator.size) hidx
      rwa [rank_ofs2idx _ _ hao, rank_ofs2idx _ _ hbo] at this
    have hnd : (flatPicks (n + 1) self.accumulator.data).Nodup := List.Nodup.of_map _ h3
    refine List.Nodup.map_on ?_ hnd
    intro a ha b hb hab
    have h1 := hinj a ha b hb hab
    have ha2 := (h2 a ha).1
    have hb2 := (h2 b hb).1
    rw [h1] at ha2
    rw [ha2] at hb2
    simp only [Option.some.injEq] at hb2
    exact Prod.ext h1 hb2

/-- C3 (amended) on the example of the spec: axes `{-1, 0, 1}`, `{0}`,
`{5, 10}`, six distinct positive scores, `k = 6`. -/
theorem GatherCandidates_returns_distinct_vectors_witness :
    ∃ cands, sixCellEngine.GatherCandidates [] = .ok (sixCellEngine, cands) ∧
      cands.length = 6 ∧ cands.Nodup :=
  GatherCandidates_returns_distinct_vectors sixCellEngine 6 rfl (by decide) (by decide)
    (by decide) (by decide)

/-- C4. On an engine without empty axis and a shape whose `Calculate` writes
its output whatever the incoming value: whenever `Accumulate` completes, every
cell of the accumulator, addressed by an index vector `idx`, holds the sum of
the votes of `t_range` for the axis values at `idx` (`voteSum`: the image value
at the unrounded point for exactly the samples that are in range, inside the
`int` limits and accepted by the active mask after rounding), and with at least
one axis every index vector in bounds has such a cell. `Accumulate` completes
when there is an axis, no mask was supplied and the shape does not fault. -/
theorem Accumulate_cell_is_sum_of_votes (self : HoughTransform) (image : Image)
    (shape : ShapeInterface ℚ) (t_range : List ℚ)
    (hne : ∀ r ∈ self.param_ranges_, r ≠ [])
    (hpure : ∀ t ps q q1, shape.Calculate t ps q = shape.Calculate t ps q1) :
    (∀ self1, self.Accumulate image shape t_range = .ok self1 →
      (∀ idx score, self1.accumulator.at idx = .ok score →
        ∃ vals, self.SetParameterValues idx = .ok vals ∧
          score = voteSum image shape (self.activeMask image) vals t_range) ∧
      (self.param_ranges_ ≠ [] →
        ∀ idx, inBounds (self.param_ranges_.map List.length) idx = true →
          ∃ score, self1.accumulator.at idx = .ok score)) ∧
    (self.param_ranges_ ≠ [] → self.mask_ = none →
      (∀ t ps q, ps.length = self.num_params → ∃ r, shape.Calculate t ps q = .ok r) →
      ∃ self1, self.Accumulate image shape t_range = .ok self1) := by
  refine ⟨fun self1 hacc => ?_, fun haxes hmask hshape =>
    Accumulate_completes self image shape t_range haxes hne hmask hshape⟩
  obtain ⟨-, -, hsize, hlen⟩ := Accumulate_shape _ _ _ _ _ hacc
  constructor
  · intro idx score hat
    obtain ⟨hin, hget⟩ := Mat.at_data _ _ _ hat
    rw [hsize] at hin hget
    by_cases haxes : self.param_ranges_ = []
    · have : self1.accumulator.data.length = 0 := by
        rw [hlen, haxes]; rfl
      rw [List.getElem?_eq_none (by omega)] at hget
      cases hget
    · have hr := rank_lt _ _ hin
      have hd := Accumulate_data self self1 image shape t_range haxes hne hpure hacc _ hr
      rw [hget, ofs2idx_rank _ _ hin] at hd
      exact ⟨_, axisValues_eq _ _ hin, by simpa using hd⟩
  · intro haxes idx hin
    have hmapne : self.param_ranges_.map List.length ≠ [] := by simpa using haxes
    rw [Mat.total, if_neg hmapne] at hlen
    exact Mat.at_ok _ _ (hsize ▸ hin) (by rw [hlen, hsize])

/-- C4 at `parabolaEngine`, `rampImage`, the standard-form parabola and
`t_range = [0, 1, 2]`: the cell at `[0, 1, 1]` holds `10 + 21 + 32`. -/
theorem Accumulate_cell_is_sum_of_votes_witness :
    ∃ self1 vals,
      parabolaEngine.Accumulate rampImage StandardFormParabola.shape [0, 1, 2] = .ok self1 ∧
      self1.accumulator.at [0, 1, 1] = .ok 63 ∧
      parabolaEngine.SetParameterValues [0, 1, 1] = .ok vals ∧
      (63 : ℚ) = voteSum rampImage StandardFormParabola.shape
        (parabolaEngine.activeMask rampImage) vals [0, 1, 2] := by
  obtain ⟨hcells, hcomp⟩ := Accumulate_cell_is_sum_of_votes parabolaEngine rampImage
    StandardFormParabola.shape [0, 1, 2] (by decide) (fun _ _ _ _ => rfl)
  obtain ⟨self1, h1⟩ := hcomp (by decide) rfl
    (fun t ps q hps => StandardFormParabola_total t ps q hps)
  have h2 : self1.accumulator.at [0, 1, 1] = .ok 63 := by
    have h3 : parabolaEngine.Accumulate rampImage StandardFormParabola.shape [0, 1, 2]
        = .ok { parabolaEngine with accumulator := parabolaVotes } := by
      with_unfolding_all rfl
    rw [h3] at h1
    cases h1
    with_unfolding_all rfl
  obtain ⟨vals, h4, h5⟩ := (hcells self1 h1).1 [0, 1, 1] 63 h2
  exact ⟨self1, vals, h1, h2, h4, h5⟩

/-- C5. On axes none of which is empty, the loop that starts at the all-zero
index vector and calls `AdvanceParameterIndices` until it returns false stops
by itself within as many rounds as the product of the axis lengths. The index
vectors it visits are as many as that product, are exactly the index vectors
in bounds, each once, in strictly increasing lexicographic order; and on an
index vector in bounds the call returns false exactly at the last combination,
where every index is the axis length minus one. -/
theorem AdvanceParameterIndices_enumerates_product (self : HoughTransform) (fuel : Nat)
    (hne : ∀ r ∈ self.param_ranges_, r ≠ [])
    (hfuel : Cardinality self.param_ranges_ ≤ fuel) :
    ∃ visited,
      self.visitedIndices fuel (decide (Cardinality self.param_ranges_ > 0))
        (List.replicate self.num_params 0) = .ok visited ∧
      visited.length = Cardinality self.param_ranges_ ∧
      (∀ idx, idx ∈ visited ↔ inBounds (self.param_ranges_.map List.length) idx = true) ∧
      visited.Nodup ∧
      List.Pairwise (List.Lex (· < ·)) visited ∧
      ∀ idx, inBounds (self.param_ranges_.map List.length) idx = true →
        ((self.AdvanceParameterIndices idx).1 = false ↔
          idx = (self.param_ranges_.map List.length).map (fun s => s - 1)) := by
  have hpos : ∀ s ∈ self.param_ranges_.map List.length, 0 < s := by
    intro s hs
    obtain ⟨r, hr, rfl⟩ := List.mem_map.mp hs
    exact List.length_pos.mpr (hne r hr)
  have hP := prod_length_pos _ hne
  have hz := inBounds_zero _ hpos
  have hrz := rank_zero (self.param_ranges_.map List.length)
  rw [List.length_map] at hz hrz
  have hv := visitedIndices_from self fuel _ hz (by rw [hrz]; exact hfuel)
  rw [hrz, Nat.sub_zero] at hv
  have hcard : decide (Cardinality self.param_ranges_ > 0) = true := by
    simpa [Cardinality] using hP
  refine ⟨_, by rw [hcard]; exact hv, by simp [Cardinality], ?_, ?_, ?_, ?_⟩
  · intro idx
    simp only [List.mem_map, List.mem_range'_1, Nat.zero_le, Nat.zero_add, true_and]
    constructor
    · rintro ⟨j, hj, rfl⟩
      exact ofs2idx_inBounds _ _ hj
    · intro hin
      exact ⟨_, rank_lt _ _ hin, ofs2idx_rank _ _ hin⟩
  · refine List.Nodup.map_on ?_ (List.nodup_range' _ _)
    intro a ha b hb hab
    simp only [List.mem_range'_1, Nat.zero_le, Nat.zero_add, true_and] at ha hb
    have := congrArg (rank (self.param_ranges_.map List.length)) hab
    rwa [rank_ofs2idx _ _ ha, rank_ofs2idx _ _ hb] at this
  · rw [List.pairwise_map]
    refine List.Pairwise.imp_of_mem ?_ (List.pairwise_lt_range' 0 _)
    intro a b ha hb hab
    simp only [List.mem_range'_1, Nat.zero_le, Nat.zero_add, true_and] at ha hb
    exact rank_lex _ _ _ (ofs2idx_inBounds _ _ ha) (ofs2idx_inBounds _ _ hb)
      (by rw [rank_ofs2idx _ _ ha, rank_ofs2idx _ _ hb]; exact hab)
  · intro idx hin
    obtain ⟨hl1, hl2⟩ := inBounds_last _ hpos
    have hr := rank_lt _ _ hin
    simp only [AdvanceParameterIndices, bumpIndices_spec _ _ hin]
    constructor
    · intro h
      by_cases hlt : rank (self.param_ranges_.map List.length) idx + 1
          < (self.param_ranges_.map List.length).prod
      · simp [hlt] at h
      · have : rank (self.param_ranges_.map List.length) idx
            = rank (self.param_ranges_.map List.length)
                ((self.param_ranges_.map List.length).map (fun s => s - 1)) := by omega
        have h2 := congrArg (ofs2idx (self.param_ranges_.map List.length)) this
        rwa [ofs2idx_rank _ _ hin, ofs2idx_rank _ _ hl1] at h2
    · intro h
      rw [h]
      have : ¬ (rank (self.param_ranges_.map List.length)
          ((self.param_ranges_.map List.length).map (fun s => s - 1)) + 1
            < (self.param_ranges_.map List.length).prod) := by omega
      rw [if_neg this]
      rfl

/-- C5 at the axes `{-1, 0, 1}`, `{0}`, `{5, 10}` with six rounds. -/
theorem AdvanceParameterIndices_enumerates_product_witness :
    ∃ visited,
      sixCellEngine.visitedIndices 6 (decide (Cardinality sixCellEngine.param_ranges_ > 0))
        (List.replicate sixCellEngine.num_params 0) = .ok visited ∧
      visited.length = Cardinality sixCellEngine.param_ranges_ ∧
      (∀ idx, idx ∈ visited ↔
        inBounds (sixCellEngine.param_ranges_.map List.length) idx = true) ∧
      visited.Nodup ∧
      List.Pairwise (List.Lex (· < ·)) visited ∧
      ∀ idx, inBounds (sixCellEngine.param_ranges_.map List.length) idx = true →
        ((sixCellEngine.AdvanceParameterIndices idx).1 = false ↔
          idx = (sixCellEngine.param_ranges_.map List.length).map (fun s => s - 1)) :=
  AdvanceParameterIndices_enumerates_product sixCellEngine 6 (by decide) (by decide)

/-- C6. The code does not do what the claim says: with a mask supplied through
`set_mask`, the local pointer `mask` of `Accumulate` is never assigned, and the
first point that reaches `mask->CanVote` is a call through an uninitialised
pointer; without `set_mask` the same call completes. -/
theorem Accumulate_faults_on_supplied_mask :
    (parabolaEngine.set_mask openMask).Accumulate rampImage StandardFormParabola.shape [0]
        = .error .uninitialisedMask ∧
      parabolaEngine.Accumulate rampImage StandardFormParabola.shape [0]
        = .ok { parabolaEngine with accumulator := { size := [1, 2, 2], data := [0, 10, 0, 10] } } :=
  ⟨by with_unfolding_all rfl, by with_unfolding_all rfl⟩

/-- C7, as stated, fails. On the 4 x 4 image `rampImage`, with no mask
supplied, `Accumulate` samples the image at the point `(-2/5, 17/5)`: it rounds
to `(0, 3)`, which the default mask accepts. The pixels that bilinear
interpolation combines at that point are the columns `-1, 0` of the rows
`3, 4`, and the default mask itself rejects `(-1, 3)` and `(0, 4)`: they are
outside the image. -/
theorem DefaultMask_admits_border_sample :
    borderEngine.mask_ = none ∧
    accumulateRun borderEngine rampImage StandardFormParabola.shape [-2 / 5]
      = .ok { self := { borderEngine with
                        accumulator := { size := [1, 1, 1], data := [168 / 5] } },
              p := ⟨-2 / 5, 17 / 5⟩,
              sampled := [⟨-2 / 5, 17 / 5⟩] } ∧
    bilinearFootprint (-2 / 5) (17 / 5) = [(-1, 3), (0, 3), (-1, 4), (0, 4)] ∧
    (DefaultMask.mk rampImage.rows rampImage.cols).CanVote (-1) 3 = false ∧
    (DefaultMask.mk rampImage.rows rampImage.cols).CanVote 0 4 = false :=
  ⟨rfl, by with_unfolding_all rfl, by with_unfolding_all rfl, by decide, by decide⟩

/-- C7, amended. `DefaultMask(num_rows, num_cols).CanVote(x, y)` holds exactly
when `0 <= x < num_cols` and `0 <= y < num_rows`; when no mask was supplied,
every point at which `Accumulate` has sampled the image rounds to integer
coordinates inside `[0, image.cols) x [0, image.rows)`; and the pixels that
bilinear interpolation combines at such a point have their column in
`[-1, image.cols]` and their row in `[-1, image.rows]`, at most one pixel
outside the image. -/
theorem DefaultMask_confines_samples (self : HoughTransform) (image : Image)
    (shape : ShapeInterface ℚ)
    (t_range : List ℚ) (st : AccumulateState)
    (hmask : self.mask_ = none)
    (hrun : accumulateRun self image shape t_range = .ok st) :
    (∀ num_rows num_cols x y : Int, (DefaultMask.mk num_rows num_cols).CanVote x y = true
      ↔ (0 ≤ x ∧ x < num_cols) ∧ (0 ≤ y ∧ y < num_rows)) ∧
    (∀ q ∈ st.sampled, (0 ≤ roundInt q.x ∧ roundInt q.x < image.cols) ∧
      (0 ≤ roundInt q.y ∧ roundInt q.y < image.rows)) ∧
    ∀ q ∈ st.sampled, ∀ c ∈ bilinearFootprint q.x q.y,
      (-1 ≤ c.1 ∧ c.1 ≤ image.cols) ∧ (-1 ≤ c.2 ∧ c.2 ≤ image.rows) := by
  have hin : ∀ q ∈ st.sampled, (0 ≤ roundInt q.x ∧ roundInt q.x < image.cols) ∧
      (0 ≤ roundInt q.y ∧ roundInt q.y < image.rows) := by
    intro q hq
    unfold accumulateRun accumulateFuel at hrun
    simp only [hmask] at hrun
    have := accumulateLoop_sampled image shape _ t_range _ _ _ _ st hrun (by simp) q hq
    exact (defaultMask_iff image.rows image.cols _ _).mp this
  exact ⟨defaultMask_iff, hin, fun q hq =>
    bilinearFootprint_near q.x q.y image.cols image.rows (hin q hq).1 (hin q hq).2⟩

/-- C7 (amended) at `parabolaEngine`, `rampImage` and `t_range = [0, 1]`: eight
points are sampled. -/
theorem DefaultMask_confines_samples_witness :
    (∀ num_rows num_cols x y : Int, (DefaultMask.mk num_rows num_cols).CanVote x y = true
      ↔ (0 ≤ x ∧ x < num_cols) ∧ (0 ≤ y ∧ y < num_rows)) ∧
    (∀ q ∈ ([⟨0, 0⟩, ⟨1, 0⟩, ⟨0, 1⟩, ⟨1, 1⟩, ⟨0, 0⟩, ⟨1, 1⟩, ⟨0, 1⟩, ⟨1, 2⟩] : List (Point2d ℚ)),
      (0 ≤ roundInt q.x ∧ roundInt q.x < rampImage.cols) ∧
      (0 ≤ roundInt q.y ∧ roundInt q.y < rampImage.rows)) ∧
    ∀ q ∈ ([⟨0, 0⟩, ⟨1, 0⟩, ⟨0, 1⟩, ⟨1, 1⟩, ⟨0, 0⟩, ⟨1, 1⟩, ⟨0, 1⟩, ⟨1, 2⟩] : List (Point2d ℚ)),
      ∀ c ∈ bilinearFootprint q.x q.y,
        (-1 ≤ c.1 ∧ c.1 ≤ rampImage.cols) ∧ (-1 ≤ c.2 ∧ c.2 ≤ rampImage.rows) :=
  DefaultMask_confines_samples parabolaEngine rampImage StandardFormParabola.shape [0, 1]
    { self := { parabolaEngine with
                accumulator := { size := [1, 2, 2], data := [1, 21, 11, 31] } },
      p := ⟨1, 2⟩,
      sampled := [⟨0, 0⟩, ⟨1, 0⟩, ⟨0, 1⟩, ⟨1, 1⟩, ⟨0, 0⟩, ⟨1, 1⟩, ⟨0, 1⟩, ⟨1, 2⟩] }
    rfl (by with_unfolding_all rfl)

/-- C8, as stated, fails: on an engine whose only axis is empty `Accumulate`
completes, and with `max_candidates = 0` `Compute` returns an empty candidate
list. -/
theorem Compute_returns_on_empty_axis :
    emptyAxisEngine.Accumulate rampImage StandardFormParabola.shape [0, 1]
        = .ok { emptyAxisEngine with accumulator := { size := [0], data := [] } } ∧
      (emptyAxisEngine.set_max_candidates 0).Compute rampImage StandardFormParabola.shape
          [0, 1] []
        = .ok ({ emptyAxisEngine.set_max_candidates 0 with
                 accumulator := { size := [0], data := [] } }, []) :=
  ⟨by with_unfolding_all rfl, by with_unfolding_all rfl⟩

/-- C8, amended. The code checks no precondition on the axes. With zero axes,
or with an axis of length zero, `Accumulate` completes normally whenever there
is an axis at all; whenever it completes the accumulator has no cell, and
`Compute` returns the caller's list unchanged if it already holds
`max_candidates` entries and otherwise searches a maximum among no cells, which
leaves no location to read the axes at. -/
theorem Compute_on_degenerate_axes (self : HoughTransform) (image : Image)
    (shape : ShapeInterface ℚ) (t_range : List ℚ) (candidates : List (List ℚ))
    (hdeg : self.param_ranges_ = [] ∨ ∃ r ∈ self.param_ranges_, r = []) :
    (self.param_ranges_ ≠ [] → ∃ self1, self.Accumulate image shape t_range = .ok self1) ∧
    ∀ self1, self.Accumulate image shape t_range = .ok self1 →
      self1.accumulator.data = [] ∧
      self.Compute image shape t_range candidates =
        if self.max_candidates ≤ candidates.length then .ok (self1, candidates)
        else .error .noMaximum := by
  constructor
  · intro hne
    have hex : ∃ r ∈ self.param_ranges_, r = [] := by
      rcases hdeg with h | h
      · exact absurd h hne
      · exact h
    have hcard : Cardinality self.param_ranges_ = 0 := by
      obtain ⟨r, hr, hr0⟩ := hex
      unfold Cardinality
      rw [List.prod_eq_zero_iff]
      exact List.mem_map.mpr ⟨r, hr, by rw [hr0]; rfl⟩
    simp [Accumulate, accumulateRun, accumulateFuel, hcard, accumulateLoop]
  · intro self1 hacc
    obtain ⟨hranges, hk, hsize, hlen⟩ := Accumulate_shape _ _ _ _ _ hacc
    rw [total_degenerate _ hdeg] at hlen
    have hdata : self1.accumulator.data = [] := List.length_eq_zero.mp hlen
    refine ⟨hdata, ?_⟩
    simp only [Compute, hacc, GatherCandidates, gatherPicks_no_cells _ _ _ hdata, max_candidates, hk]
    by_cases hc : self.max_candidates_ ≤ candidates.length
    · simp [hc, Nat.sub_eq_zero_of_le hc]
    · have : self.max_candidates_ - candidates.length ≠ 0 := by omega
      simp [hc, this]

/-- C8 (amended) at `emptyAxisEngine`. -/
theorem Compute_on_degenerate_axes_witness :
    (emptyAxisEngine.param_ranges_ ≠ [] →
      ∃ self1, emptyAxisEngine.Accumulate rampImage StandardFormParabola.shape [0, 1]
        = .ok self1) ∧
    ∀ self1, emptyAxisEngine.Accumulate rampImage StandardFormParabola.shape [0, 1]
        = .ok self1 →
      self1.accumulator.data = [] ∧
      emptyAxisEngine.Compute rampImage StandardFormParabola.shape [0, 1] [] =
        if emptyAxisEngine.max_candidates ≤ ([] : List (List ℚ)).length then .ok (self1, [])
        else .error .noMaximum :=
  Compute_on_degenerate_axes emptyAxisEngine rampImage StandardFormParabola.shape [0, 1] []
    (Or.inr ⟨[], by decide, rfl⟩)

/-- C9, as stated, fails, in two ways; `std::sin` and `std::cos` enter only
through their values `0` and `1` at the angle `0`. A standard-form parabola with
`a = 0` has no finite fixed point: at `params = [0, 1, 2, 0]`, `t = 5` the
wrapped shape returns `(5, 7)` and `RotatedShape::Calculate` does not. And the
translation is rounded: for the vertex-form parabola with `params =
[0, 0.7, 3, 0]` at `t = 0.1`, in `double` arithmetic, the wrapped shape returns
`x = 0.1` and `RotatedShape::Calculate` returns `x = 0.1 - 2^-55`. -/
theorem RotatedShape_theta_zero_changes_output :
    (RotatedShape.CalculateRounded roundDouble (fun _ => 0) (fun _ => 1)
        { unrotated_ := StandardFormParabola.shape, theta_index_ := 3 } 5 [0, 1, 2, 0] ⟨0, 0⟩
      = .error .notFinite ∧
     StandardFormParabola.Calculate (5 : ℚ) [0, 1, 2, 0] ⟨0, 0⟩ = .ok (true, ⟨5, 7⟩)) ∧
    (RotatedShape.CalculateRounded roundDouble (fun _ => 0) (fun _ => 1)
        { unrotated_ := VertexFormParabola.shape, theta_index_ := 3 }
        (roundDouble (1 / 10)) [0, roundDouble (7 / 10), 3, 0] ⟨0, 0⟩
      = .ok (true, ⟨roundDouble (1 / 10) - 1 / 2 ^ 55, 3⟩) ∧
     VertexFormParabola.Calculate (roundDouble (1 / 10)) [0, roundDouble (7 / 10), 3, 0] ⟨0, 0⟩
      = .ok (true, ⟨roundDouble (1 / 10), 3⟩)) := by
  refine ⟨⟨?_, ?_⟩, ?_, ?_⟩
  · set_option maxRecDepth 100000 in with_unfolding_all rfl
  · set_option maxRecDepth 100000 in with_unfolding_all rfl
  · set_option maxRecDepth 100000 in with_unfolding_all rfl
  · set_option maxRecDepth 100000 in with_unfolding_all rfl

/-- C9, amended. When the wrapped shape returns the point `p` with flag
`in_range` and has the fixed point `f` for `params`, and the entry of `params`
at `theta_index_` is `0`, `RotatedShape::Calculate` returns the flag `in_range`
and the point `((p.x - f.x) + f.x, (p.y - f.y) + f.y)` with every subtraction
and addition rounded by `fl`: the rounding maps `0` to `0` and leaves the
rounded differences, which are doubles, as they are. In exact arithmetic the
point is `p`. Of `sin` and `cos` only `sin 0 = 0` and `cos 0 = 1` are used. -/
theorem RotatedShape_theta_zero {K : Type} [Field K] (fl sin cos : K → K)
    (self : RotatedShape K) (t : K) (params : List K) (output p f : Point2d K) (in_range : Bool)
    (hsin : sin 0 = 0) (hcos : cos 0 = 1)
    (hcalc : self.unrotated_.Calculate t params output = .ok (in_range, p))
    (hfix : self.unrotated_.ComputeFixedPoint params = .ok f)
    (hidx : 0 ≤ self.theta_index_)
    (htheta : vectorAt params self.theta_index_.toNat = .ok 0)
    (hzero : fl 0 = 0)
    (hx : fl (fl (p.x - f.x)) = fl (p.x - f.x))
    (hy : fl (fl (p.y - f.y)) = fl (p.y - f.y)) :
    RotatedShape.CalculateRounded fl sin cos self t params output
      = .ok (in_range, { x := fl (fl (p.x - f.x) + f.x), y := fl (fl (p.y - f.y) + f.y) }) ∧
    RotatedShape.Calculate sin cos self t params output = .ok (in_range, p) := by
  constructor
  · unfold RotatedShape.CalculateRounded
    simp only [hcalc, hfix, htheta, hsin, hcos, not_lt.mpr hidx, if_false, mul_one, mul_zero,
      hzero, hx, hy, sub_zero, add_zero, zero_add]
  · unfold RotatedShape.Calculate
    simp only [hcalc, hfix, htheta, hsin, hcos, not_lt.mpr hidx, if_false, mul_one, mul_zero,
      sub_zero, add_zero, zero_add, sub_add_cancel]

/-- C9 (amended) in `double` arithmetic at the vertex-form parabola with
`params = [0, 0.7, 3, 0]`, `theta_index_ = 3` and `t = 0.1`. -/
theorem RotatedShape_theta_zero_witness :
    RotatedShape.CalculateRounded roundDouble (fun _ => 0) (fun _ => 1)
        { unrotated_ := VertexFormParabola.shape, theta_index_ := 3 }
        (roundDouble (1 / 10)) [0, roundDouble (7 / 10), 3, 0] ⟨0, 0⟩
      = .ok (true,
          { x := roundDouble (roundDouble (roundDouble (1 / 10) - roundDouble (7 / 10))
                  + roundDouble (7 / 10)),
            y := roundDouble (roundDouble (3 - 3) + 3) }) ∧
    RotatedShape.Calculate (fun _ => 0) (fun _ => 1)
        { unrotated_ := VertexFormParabola.shape, theta_index_ := 3 }
        (roundDouble (1 / 10)) [0, roundDouble (7 / 10), 3, 0] ⟨0, 0⟩
      = .ok (true, ⟨roundDouble (1 / 10), 3⟩) :=
  RotatedShape_theta_zero roundDouble (fun _ => 0) (fun _ => 1)
    { unrotated_ := VertexFormParabola.shape, theta_index_ := 3 }
    (roundDouble (1 / 10)) [0, roundDouble (7 / 10), 3, 0] ⟨0, 0⟩
    ⟨roundDouble (1 / 10), 3⟩ ⟨roundDouble (7 / 10), 3⟩ true rfl rfl
    (by set_option maxRecDepth 100000 in with_unfolding_all rfl) rfl (by decide) rfl
    (by decide!) (by decide!) (by decide!)

/-- C10, as stated, fails. No double equals `π`; `piDouble` is a double, below
`π` by less than half the distance `2^-51` between the doubles around it. For
the vertex-form parabola with `params = [1, 2, 3, piDouble]` at `t = 5` the
wrapped output is `p = (5, 12)` and the fixed point is `f = (2, 3)`, so
`2f - p = (-1, -6)`. With the exact sine and cosine and exact arithmetic
`RotatedShape::Calculate` returns an `x` below `-1`; in `double` arithmetic,
with the values that `std::sin` and `std::cos` return at `piDouble`, it returns
`x = -1 - 2^-50`. -/
theorem RotatedShape_theta_pi_misses_reflection :
    (roundDouble piDouble = piDouble ∧ (piDouble : ℝ) < Real.pi ∧
      Real.pi < (piDouble : ℝ) + 1 / 2 ^ 52) ∧
    (∃ q : Point2d ℝ,
      RotatedShape.Calculate Real.sin Real.cos
          { unrotated_ := VertexFormParabola.shape, theta_index_ := 3 } 5
          [1, 2, 3, (piDouble : ℝ)] ⟨0, 0⟩
        = .ok (true, q) ∧ q.x < 2 * 2 - 5) ∧
    RotatedShape.CalculateRounded roundDouble (fun _ => sinPiDouble) (fun _ => -1)
        { unrotated_ := VertexFormParabola.shape, theta_index_ := 3 } 5
        [1, 2, 3, piDouble] ⟨0, 0⟩
      = .ok (true, ⟨2 * 2 - 5 - 1 / 2 ^ 50, 2 * 3 - (1 * (5 - 2) * (5 - 2) + 3)⟩) := by
  have hp : ((piDouble : ℚ) : ℝ) = 884279719003555 / 281474976710656 := by
    norm_num [piDouble]
  have hpos : (0 : ℝ) < (piDouble : ℝ) := by rw [hp]; norm_num
  have hlt : ((piDouble : ℚ) : ℝ) < Real.pi := by
    rw [hp]; exact lt_trans (by norm_num) Real.pi_gt_d20
  refine ⟨⟨by decide!, hlt, ?_⟩, ?_, ?_⟩
  · rw [hp]; exact lt_trans Real.pi_lt_d20 (by norm_num)
  · refine ⟨⟨(5 - 2) * Real.cos (piDouble : ℝ)
        - (1 * (5 - 2) * (5 - 2) + 3 - 3) * Real.sin (piDouble : ℝ) + 2,
      (5 - 2) * Real.sin (piDouble : ℝ)
        + (1 * (5 - 2) * (5 - 2) + 3 - 3) * Real.cos (piDouble : ℝ) + 3⟩,
      rfl, ?_⟩
    have hs := Real.sin_pos_of_pos_of_lt_pi hpos hlt
    have hs1 := Real.sin_le_one (piDouble : ℝ)
    have hc0 : Real.cos (piDouble : ℝ) ≤ 0 :=
      Real.cos_nonpos_of_pi_div_two_le_of_le
        (by rw [hp]; linarith [Real.pi_lt_d2]) (by rw [hp]; linarith [Real.pi_gt_three])
    have hsq := Real.sin_sq_add_cos_sq (piDouble : ℝ)
    simp only
    nlinarith
  · set_option maxRecDepth 100000 in with_unfolding_all rfl

/-- C10, amended. When the wrapped shape returns the point `p` with flag
`in_range` and has the fixed point `f` for `params`, and the angle `theta` read
at `theta_index_` has `cos theta = -1`, as the double nearest to `π` has, then
with `s = sin theta` and `(x, y) = p - f` `RotatedShape::Calculate` returns the
flag `in_range` and the point `(-x - y s + f.x, x s - y + f.y)`, every
operation rounded by `fl`, which leaves the doubles `-x` and `-y` as they are.
In exact arithmetic the point is `2f - p + s (-(p.y - f.y), p.x - f.x)`: the
point reflection `2f - p` of `p` through `f` when `s = 0`, and displaced from it
in proportion to `s` otherwise. -/
theorem RotatedShape_theta_pi {K : Type} [Field K] (fl sin cos : K → K)
    (self : RotatedShape K) (t theta : K) (params : List K) (output p f : Point2d K)
    (in_range : Bool)
    (hcalc : self.unrotated_.Calculate t params output = .ok (in_range, p))
    (hfix : self.unrotated_.ComputeFixedPoint params = .ok f)
    (hidx : 0 ≤ self.theta_index_)
    (htheta : vectorAt params self.theta_index_.toNat = .ok theta)
    (hcos : cos theta = -1)
    (hx : fl (-fl (p.x - f.x)) = -fl (p.x - f.x))
    (hy : fl (-fl (p.y - f.y)) = -fl (p.y - f.y)) :
    RotatedShape.CalculateRounded fl sin cos self t params output
      = .ok (in_range,
          { x := fl (fl (-fl (p.x - f.x) - fl (fl (p.y - f.y) * sin theta)) + f.x),
            y := fl (fl (fl (fl (p.x - f.x) * sin theta) + -fl (p.y - f.y)) + f.y) }) ∧
    RotatedShape.Calculate sin cos self t params output
      = .ok (in_range,
          { x := 2 * f.x - p.x - sin theta * (p.y - f.y),
            y := 2 * f.y - p.y + sin theta * (p.x - f.x) }) := by
  constructor
  · unfold RotatedShape.CalculateRounded
    simp only [hcalc, hfix, htheta, hcos, not_lt.mpr hidx, if_false, mul_neg, mul_one, hx, hy]
  · unfold RotatedShape.Calculate
    simp only [hcalc, hfix, htheta, hcos, not_lt.mpr hidx, if_false]
    congr 3 <;> ring

/-- C10 (amended) in `double` arithmetic at the vertex-form parabola with
`params = [1, 2, 3, piDouble]`, `theta_index_ = 3` and `t = 5`, with the values
of `std::sin` and `std::cos` at `piDouble`. -/
theorem RotatedShape_theta_pi_witness :
    RotatedShape.CalculateRounded roundDouble (fun _ => sinPiDouble) (fun _ => -1)
        { unrotated_ := VertexFormParabola.shape, theta_index_ := 3 } 5
        [1, 2, 3, piDouble] ⟨0, 0⟩
      = .ok (true,
          { x := roundDouble (roundDouble (-roundDouble (5 - 2)
                  - roundDouble (roundDouble (1 * (5 - 2) * (5 - 2) + 3 - 3) * sinPiDouble)) + 2),
            y := roundDouble (roundDouble (roundDouble (roundDouble (5 - 2) * sinPiDouble)
                  + -roundDouble (1 * (5 - 2) * (5 - 2) + 3 - 3)) + 3) }) ∧
    RotatedShape.Calculate (fun _ => sinPiDouble) (fun _ => -1)
        { unrotated_ := VertexFormParabola.shape, theta_index_ := 3 } 5
        [1, 2, 3, piDouble] ⟨0, 0⟩
      = .ok (true,
          { x := 2 * 2 - 5 - sinPiDouble * (1 * (5 - 2) * (5 - 2) + 3 - 3),
            y := 2 * 3 - (1 * (5 - 2) * (5 - 2) + 3) + sinPiDouble * (5 - 2) }) :=
  RotatedShape_theta_pi roundDouble (fun _ => sinPiDouble) (fun _ => -1)
    { unrotated_ := VertexFormParabola.shape, theta_index_ := 3 } 5
    piDouble [1, 2, 3, piDouble] ⟨0, 0⟩
    ⟨5, 1 * (5 - 2) * (5 - 2) + 3⟩ ⟨2, 3⟩ true rfl rfl (by decide) rfl rfl
    (by decide!) (by decide!)

/-- C11. `RotatedShape::ComputeFixedPoint` returns what the wrapped shape's
`ComputeFixedPoint` returns; and for every angle `theta` read at
`theta_index_`, whatever `sin` and `cos` are, when the wrapped shape's
`Calculate` returns its fixed point `f`, `RotatedShape::Calculate` returns `f`
with the same in-range flag. -/
theorem RotatedShape_keeps_fixed_point {K : Type} [Field K] (sin cos : K → K)
    (self : RotatedShape K) (t theta : K) (params : List K) (output f : Point2d K)
    (in_range : Bool)
    (hcalc : self.unrotated_.Calculate t params output = .ok (in_range, f))
    (hfix : self.unrotated_.ComputeFixedPoint params = .ok f)
    (hidx : 0 ≤ self.theta_index_)
    (htheta : vectorAt params self.theta_index_.toNat = .ok theta) :
    RotatedShape.ComputeFixedPoint self params = self.unrotated_.ComputeFixedPoint params ∧
    RotatedShape.Calculate sin cos self t params output = .ok (in_range, f) := by
  refine ⟨rfl, ?_⟩
  unfold RotatedShape.Calculate
  simp only [hcalc, hfix, htheta, not_lt.mpr hidx, if_false, sub_self, zero_mul, sub_zero,
    zero_add]

/-- C11 at a vertex-form parabola with `params = [1, 2, 3, 7]`,
`theta_index_ = 3` and `t = 2`, where the curve is at its vertex `(2, 3)`. -/
theorem RotatedShape_keeps_fixed_point_witness :
    RotatedShape.ComputeFixedPoint
        ({ unrotated_ := VertexFormParabola.shape, theta_index_ := 3 } : RotatedShape ℝ)
        [1, 2, 3, 7]
      = VertexFormParabola.ComputeFixedPoint [1, 2, 3, 7] ∧
    RotatedShape.Calculate Real.sin Real.cos
        { unrotated_ := VertexFormParabola.shape, theta_index_ := 3 } 2 [1, 2, 3, 7] ⟨0, 0⟩
      = .ok (true, ⟨2, 3⟩) :=
  RotatedShape_keeps_fixed_point Real.sin Real.cos
    { unrotated_ := VertexFormParabola.shape, theta_index_ := 3 } 2 7 [1, 2, 3, 7] ⟨0, 0⟩ ⟨2, 3⟩
    true
    (by norm_num [VertexFormParabola.shape, VertexFormParabola.Calculate, vectorAt,
      VertexFormParabola.kIndexA, VertexFormParabola.kIndexH, VertexFormParabola.kIndexK])
    rfl (by decide) rfl

/-- C13. For `params = [a, h, k]` and every `t`, `VertexFormParabola::Calculate`
returns the point `(t, a (t - h)^2 + k)` with the in-range flag set;
`ComputeFixedPoint` returns `(h, k)`, and `Calculate` at `t = h` returns
`(h, k)`. -/
theorem VertexFormParabola_vertex {K : Type} [Field K] (a h k t : K) (p : Point2d K) :
    VertexFormParabola.Calculate t [a, h, k] p
        = .ok (true, { x := t, y := a * (t - h) ^ 2 + k }) ∧
    VertexFormParabola.ComputeFixedPoint [a, h, k] = .ok { x := h, y := k } ∧
    VertexFormParabola.Calculate h [a, h, k] p = .ok (true, { x := h, y := k }) := by
  refine ⟨?_, rfl, ?_⟩
  · simp only [VertexFormParabola.Calculate, VertexFormParabola.kIndexA,
      VertexFormParabola.kIndexH, VertexFormParabola.kIndexK, vectorAt,
      List.getElem?_cons_zero, List.getElem?_cons_succ, pow_two, mul_assoc]
  · simp only [VertexFormParabola.Calculate, VertexFormParabola.kIndexA,
      VertexFormParabola.kIndexH, VertexFormParabola.kIndexK, vectorAt,
      List.getElem?_cons_zero, List.getElem?_cons_succ, sub_self, mul_zero, zero_add]

/-- C14, as stated, fails. In `double` arithmetic `1e16 + 1` rounds to `1e16`,
so for `min = 1e16`, `max = 1e16 + 10` and `step = 1 > 0` the value of `x` never
changes and the loop of `Incremental` never ends: no amount of fuel gives a
result. -/
theorem Incremental_never_returns_on_absorbed_step :
    roundDouble (10000000000000000 + 1) = 10000000000000000 ∧
    ∀ fuel : Nat,
      ParamRange.Incremental roundDouble fuel 10000000000000000 10000000000000010 1
        = .error .outOfFuel := by
  have h : roundDouble (10000000000000000 + 1) = 10000000000000000 := by decide!
  exact ⟨h, fun fuel => incrementalLoop_absorbed roundDouble _ _ _ (by norm_num) h fuel []⟩

/-- C14, amended. Let `step > 0` and let every rounded addition advance by at
least `δ > 0`: `fl (x + step) ≥ x + δ` for `min ≤ x ≤ max`. Then there is a
number `n` of rounds such that, with at least `n` rounds of fuel,
`Incremental(min, max, step)` returns the `n` values `min, fl (min + step),
fl (fl (min + step) + step), ...` of the repeated rounded addition; they are
strictly ascending and at most `max`, the next value exceeds `max`, and `n = 0`
when `min > max`. In exact arithmetic the values are `min + i step`. In `double`
arithmetic `Incremental(0, 1, 0.3)` is `[0, 0.3, 0.6, 0.8999999999999999]`,
without `1`, and `Incremental(0, 0.3, 0.1)` is `[0, 0.1, 0.2]`: the third sum
rounds above `0.3`. -/
theorem Incremental_is_ascending_progression (fl : ℚ → ℚ) (min max step δ : ℚ)
    (hstep : 0 < step) (hδ : 0 < δ)
    (hinc : ∀ x, min ≤ x → x ≤ max → x + δ ≤ fl (x + step)) :
    (∃ n : Nat,
      (∀ fuel, n ≤ fuel → ParamRange.Incremental fl fuel min max step
        = .ok (List.iterate (fun x => fl (x + step)) min n)) ∧
      List.Pairwise (· < ·) (List.iterate (fun x => fl (x + step)) min n) ∧
      (∀ x ∈ List.iterate (fun x => fl (x + step)) min n, x ≤ max) ∧
      max < (fun x => fl (x + step))^[n] min ∧
      (max < min → n = 0)) ∧
    (∃ n : Nat, ∀ fuel, n ≤ fuel → ParamRange.Incremental id fuel min max step
      = .ok ((List.range n).map (fun i : Nat => min + i * step))) ∧
    ParamRange.Incremental roundDouble 4 0 1 (roundDouble (3 / 10))
      = .ok [0, roundDouble (3 / 10), roundDouble (3 / 5), roundDouble (9 / 10) - 1 / 2 ^ 53] ∧
    (1 : ℚ) ∉ ([0, roundDouble (3 / 10), roundDouble (3 / 5), roundDouble (9 / 10) - 1 / 2 ^ 53]
      : List ℚ) ∧
    ParamRange.Incremental roundDouble 4 0 (roundDouble (3 / 10)) (roundDouble (1 / 10))
      = .ok [0, roundDouble (1 / 10), roundDouble (1 / 5)] := by
  obtain ⟨n, h1, h2, h3, h4, h5⟩ := incrementalLoop_exit fl min max step δ hδ hinc
    (⌊(max - min) / δ⌋₊ + 1) min (le_refl _) (by
      have := Nat.lt_floor_add_one ((max - min) / δ)
      rw [div_lt_iff₀ hδ] at this
      push_cast
      linarith)
  refine ⟨⟨n, fun fuel hfuel => ?_, h2, fun x hx => (h3 x hx).2, h4, h5⟩,
    incrementalLoop_exact min max step hstep, ?_, ?_, ?_⟩
  · have := h1 fuel [] hfuel
    simpa [ParamRange.Incremental] using this
  · set_option maxRecDepth 100000 in with_unfolding_all rfl
  · decide!
  · set_option maxRecDepth 100000 in with_unfolding_all rfl

/-- C14 (amended) in `double` arithmetic at `min = 0`, `max = 1`, `step = 0.3`:
every addition advances by at least `1/4`. -/
theorem Incremental_is_ascending_progression_witness :
    (∃ n : Nat,
      (∀ fuel, n ≤ fuel → ParamRange.Incremental roundDouble fuel 0 1 (roundDouble (3 / 10))
        = .ok (List.iterate (fun x => roundDouble (x + roundDouble (3 / 10))) 0 n)) ∧
      List.Pairwise (· < ·)
        (List.iterate (fun x => roundDouble (x + roundDouble (3 / 10))) 0 n) ∧
      (∀ x ∈ List.iterate (fun x => roundDouble (x + roundDouble (3 / 10))) 0 n, x ≤ 1) ∧
      1 < (fun x => roundDouble (x + roundDouble (3 / 10)))^[n] 0 ∧
      ((1 : ℚ) < 0 → n = 0)) ∧
    (∃ n : Nat, ∀ fuel, n ≤ fuel → ParamRange.Incremental id fuel 0 1 (roundDouble (3 / 10))
      = .ok ((List.range n).map (fun i : Nat => (0 : ℚ) + i * roundDouble (3 / 10)))) ∧
    ParamRange.Incremental roundDouble 4 0 1 (roundDouble (3 / 10))
      = .ok [0, roundDouble (3 / 10), roundDouble (3 / 5), roundDouble (9 / 10) - 1 / 2 ^ 53] ∧
    (1 : ℚ) ∉ ([0, roundDouble (3 / 10), roundDouble (3 / 5), roundDouble (9 / 10) - 1 / 2 ^ 53]
      : List ℚ) ∧
    ParamRange.Incremental roundDouble 4 0 (roundDouble (3 / 10)) (roundDouble (1 / 10))
      = .ok [0, roundDouble (1 / 10), roundDouble (1 / 5)] :=
  Incremental_is_ascending_progression roundDouble 0 1 (roundDouble (3 / 10)) (1 / 4)
    (by decide!) (by norm_num) (fun x h0 h1 => roundDouble_advances x h0 h1)

/-- C15. For `count >= 0`, when no product `step * i` and no sum
`min + step * i` with `0 <= i < count` leaves the `int` range,
`Steps(min, step, count)` returns `count` values, the `i`-th being
`min + step * i`; `Scaled` keeps the length and multiplies every value by the
scalar; and `ScaledIncremental(min, step, count, scalar)` returns
`Scaled(Steps(min, step, count), scalar)`, `count` values, the `i`-th being
`(min + step * i) * scalar`. -/
theorem Steps_and_ScaledIncremental_progression (min step count : Int) (scalar : ℚ) (hcount : 0 ≤ count)
    (hfit : ∀ i : Int, 0 ≤ i → i < count →
      ParamRange.fitsInt (step * i) = true ∧ ParamRange.fitsInt (min + step * i) = true) :
    ∃ values, ParamRange.Steps min step count = .ok values ∧
      (values.length : Int) = count ∧
      (∀ i : Nat, (i : Int) < count → values[i]? = some (min + step * i)) ∧
      (∀ (vs : List Int) (s : ℚ), (ParamRange.Scaled vs s).length = vs.length ∧
        ∀ i : Nat, (ParamRange.Scaled vs s)[i]? = (vs[i]?).map (fun v : Int => (v : ℚ) * s)) ∧
      ParamRange.ScaledIncremental min step count scalar
        = .ok (ParamRange.Scaled values scalar) ∧
      ((ParamRange.Scaled values scalar).length : Int) = count ∧
      ∀ i : Nat, (i : Int) < count →
        (ParamRange.Scaled values scalar)[i]? = some (((min + step * i : Int) : ℚ) * scalar) := by
  have hsteps := stepsLoop_eq min step count.toNat 0 [] (fun j hj => by
    have hj1 : (j : Int) < count := by omega
    simpa using hfit j (Int.natCast_nonneg j) hj1)
  simp only [zero_add, List.nil_append] at hsteps
  have hget : ∀ i : Nat, (i : Int) < count →
      ((List.range count.toNat).map (fun j : Nat => min + step * (j : Int)))[i]?
        = some (min + step * i) := by
    intro i hi
    have hi1 : i < count.toNat := by omega
    rw [List.getElem?_map, List.getElem?_range hi1]
    rfl
  refine ⟨_, hsteps, by simp [Int.toNat_of_nonneg hcount], hget, ?_, ?_, ?_, ?_⟩
  · intro vs s
    exact ⟨by simp [ParamRange.Scaled], fun i => by simp [ParamRange.Scaled]⟩
  · simp only [ParamRange.ScaledIncremental, ParamRange.Steps, hsteps]
  · simp [ParamRange.Scaled, Int.toNat_of_nonneg hcount]
  · intro i hi
    simp only [ParamRange.Scaled, List.getElem?_map, hget i hi, Option.map_some']

/-- C15 at `min = -2`, `step = 1`, `count = 5`, `scalar = 0.1`. -/
theorem Steps_and_ScaledIncremental_progression_witness :
    ∃ values, ParamRange.Steps (-2) 1 5 = .ok values ∧
      (values.length : Int) = 5 ∧
      (∀ i : Nat, (i : Int) < 5 → values[i]? = some (-2 + 1 * (i : Int))) ∧
      ParamRange.ScaledIncremental (-2) 1 5 (1 / 10)
        = .ok (ParamRange.Scaled values (1 / 10)) := by
  obtain ⟨values, h1, h2, h3, -, h5, -⟩ :=
    Steps_and_ScaledIncremental_progression (-2) 1 5 (1 / 10) (by decide)
      (fun i h0 h5 => by
        simp only [ParamRange.fitsInt, min_int, max_int, Bool.and_eq_true, decide_eq_true_eq]
        omega)
  exact ⟨values, h1, h2, h3, h5⟩

/-- C16. When `GatherCandidates` returns, the engine's accumulator is the one
before the call, cell by cell, and so are the registered axes: the picked cells
are set to zero in the working copy only. -/
theorem GatherCandidates_keeps_accumulator (self self1 : HoughTransform) (candidates cands : List (List ℚ))
    (h : self.GatherCandidates candidates = .ok (self1, cands)) :
    self1.accumulator = self.accumulator ∧
    (∀ idx, self1.accumulator.at idx = self.accumulator.at idx) ∧
    self1.param_ranges_ = self.param_ranges_ := by
  unfold GatherCandidates at h
  simp only at h
  split at h
  · cases h
  · cases h
    exact ⟨rfl, fun _ => rfl, rfl⟩

/-- C16 at `sixCellEngine`: after the call that returns six candidates the
accumulator still holds the six scores. -/
theorem GatherCandidates_keeps_accumulator_witness :
    ∃ self1 cands, sixCellEngine.GatherCandidates [] = .ok (self1, cands) ∧
      cands.length = 6 ∧
      self1.accumulator.data = [3, 1, 4, 6, 5, 2] ∧
      self1.param_ranges_ = [[-1, 0, 1], [0], [5, 10]] := by
  have h : sixCellEngine.GatherCandidates []
      = .ok (sixCellEngine,
          [[0, 0, 10], [1, 0, 5], [0, 0, 5], [-1, 0, 5], [1, 0, 10], [-1, 0, 10]]) := by
    with_unfolding_all rfl
  obtain ⟨h1, -, h3⟩ := GatherCandidates_keeps_accumulator sixCellEngine sixCellEngine [] _ h
  exact ⟨sixCellEngine, _, h, rfl, by rw [h1]; rfl, by rw [h3]; rfl⟩

/-- C17. On an accumulator that has a cell, whose extents are the axis lengths
and whose cells are not negative, exactly `m` of them nonzero, `GatherCandidates`
with `max_candidates = k > m` on an empty list returns `k` candidates. The
first `m` picks are cells of the accumulator with their nonzero score, pairwise
distinct, and every nonzero cell is among them; the scores of all picks are in
non-increasing order; and every later pick is a cell in bounds whose value in
the working copy is zero. -/
theorem GatherCandidates_degrades_to_zero_ties (self : HoughTransform) (m k : Nat)
    (hsize : self.accumulator.size = self.param_ranges_.map List.length)
    (hlen : self.accumulator.data.length = self.accumulator.size.prod)
    (hcells : self.accumulator.data ≠ [])
    (hnn : ∀ x ∈ self.accumulator.data, 0 ≤ x)
    (hm : self.accumulator.data.countP (fun x => decide (x ≠ 0)) = m)
    (hk : self.max_candidates = k) (hmk : m < k) :
    ∃ picks, gatherPicks self.param_ranges_ k self.accumulator = .ok picks ∧
      self.GatherCandidates [] = .ok (self, picks.map Pick.best_param_values) ∧
      picks.length = k ∧
      (∀ p ∈ picks.take m,
        self.accumulator.at p.max_index = .ok p.max_accumulated ∧ p.max_accumulated ≠ 0) ∧
      ((picks.take m).map Pick.max_index).Nodup ∧
      (∀ idx v, self.accumulator.at idx = .ok v → v ≠ 0 →
        idx ∈ (picks.take m).map Pick.max_index) ∧
      List.Pairwise (fun a b => b ≤ a) (picks.map Pick.max_accumulated) ∧
      (∀ p ∈ picks.drop m, p.max_accumulated = 0 ∧
        inBounds self.accumulator.size p.max_index = true) := by
  have hm1 : self.accumulator.data.countP (fun x => decide (0 < x)) = m := by
    rw [← hm]
    apply List.countP_congr
    intro x hx
    have := hnn x hx
    simp only [decide_eq_true_eq]
    constructor
    · intro h; exact ne_of_gt h
    · intro h; exact lt_of_le_of_ne this (Ne.symm h)
  obtain ⟨f1, f2, f3, f4, f5⟩ :=
    flatPicks_split k self.accumulator.data m hcells hnn hm1 (le_of_lt hmk)
  have hg := gatherPicks_eq self.param_ranges_ k self.accumulator hsize hlen hcells
  have hex : ∃ x ∈ self.accumulator.data, 0 ≤ x := by
    cases hd : self.accumulator.data with
    | nil => exact absurd hd hcells
    | cons x xs => exact ⟨x, by simp, hnn x (by rw [hd]; simp)⟩
  refine ⟨_, hg, by simp only [GatherCandidates, hk, List.length_nil, Nat.sub_zero, hg,
    List.nil_append], by simp only [List.length_map, f1], ?_, ?_, ?_,
    gatherPicks_sorted _ _ _ _ hg hex, ?_⟩
  · intro p hp
    rw [← List.map_take] at hp
    obtain ⟨c, hc, rfl⟩ := List.mem_map.mp hp
    obtain ⟨hc1, hc2⟩ := f2 c hc
    have hco : c.1 < self.accumulator.size.prod := by
      rw [← hlen]
      by_contra hcon
      rw [List.getElem?_eq_none (not_lt.mp hcon)] at hc1
      cases hc1
    refine ⟨?_, ne_of_gt hc2⟩
    simp only [pickAt, Mat.at, ofs2idx_inBounds _ _ hco, if_true, rank_ofs2idx _ _ hco,
      vectorAt, hc1]
  · rw [← List.map_take, List.map_map]
    have hnd : ((flatPicks k self.accumulator.data).take m).Nodup := List.Nodup.of_map _ f3
    refine List.Nodup.map_on ?_ hnd
    intro a ha b hb hab
    simp only [Function.comp, pickAt] at hab
    have hao : a.1 < self.accumulator.size.prod := by
      rw [← hlen]
      by_contra hcon
      have := (f2 a ha).1
      rw [List.getElem?_eq_none (not_lt.mp hcon)] at this
      cases this
    have hbo : b.1 < self.accumulator.size.prod := by
      rw [← hlen]
      by_contra hcon
      have := (f2 b hb).1
      rw [List.getElem?_eq_none (not_lt.mp hcon)] at this
      cases this
    have h1 := congrArg (rank self.accumulator.size) hab
    rw [rank_ofs2idx _ _ hao, rank_ofs2idx _ _ hbo] at h1
    have ha2 := (f2 a ha).1
    have hb2 := (f2 b hb).1
    rw [h1] at ha2
    rw [ha2] at hb2
    simp only [Option.some.injEq] at hb2
    exact Prod.ext h1 hb2
  · intro idx v hat hv
    obtain ⟨hin, hget⟩ := Mat.at_data _ _ _ hat
    have hpos : 0 < v :=
      lt_of_le_of_ne (hnn v (List.mem_iff_getElem?.mpr ⟨_, hget⟩)) (Ne.symm hv)
    have hmem := f4 _ v hget hpos
    obtain ⟨c, hc, hc1⟩ := List.mem_map.mp hmem
    rw [← List.map_take, List.map_map]
    refine List.mem_map.mpr ⟨c, hc, ?_⟩
    simp only [Function.comp, pickAt, hc1, ofs2idx_rank _ _ hin]
  · intro p hp
    rw [← List.map_drop] at hp
    obtain ⟨c, hc, rfl⟩ := List.mem_map.mp hp
    obtain ⟨hc1, hc2⟩ := f5 c hc
    exact ⟨hc1, ofs2idx_inBounds _ _ (hlen ▸ hc2)⟩

/-- C17 at `sparseEngine`: scores `0, 5, 2`, two of them nonzero, four
candidates. -/
theorem GatherCandidates_degrades_to_zero_ties_witness :
    ∃ picks, gatherPicks sparseEngine.param_ranges_ 4 sparseEngine.accumulator = .ok picks ∧
      sparseEngine.GatherCandidates [] = .ok (sparseEngine, picks.map Pick.best_param_values) ∧
      picks.length = 4 ∧
      (∀ p ∈ picks.take 2,
        sparseEngine.accumulator.at p.max_index = .ok p.max_accumulated ∧
        p.max_accumulated ≠ 0) ∧
      ((picks.take 2).map Pick.max_index).Nodup ∧
      (∀ idx v, sparseEngine.accumulator.at idx = .ok v → v ≠ 0 →
        idx ∈ (picks.take 2).map Pick.max_index) ∧
      List.Pairwise (fun a b => b ≤ a) (picks.map Pick.max_accumulated) ∧
      (∀ p ∈ picks.drop 2, p.max_accumulated = 0 ∧
        inBounds sparseEngine.accumulator.size p.max_index = true) :=
  GatherCandidates_degrades_to_zero_ties sparseEngine 2 4 (by decide) (by decide) (by decide)
    (by decide) (by decide) rfl (by decide)

/-- C18. On an index vector in bounds, `AdvanceParameterIndices` returns true
exactly when the vector is not the last combination (every index the axis
length minus one). When it returns true the updated vector is in bounds, its
row-major rank is that of the old vector plus one, and it is the immediate
successor in lexicographic order; when it returns false the updated vector is
all zeros. -/
theorem AdvanceParameterIndices_successor (self : HoughTransform) (idx : List Nat)
    (hin : inBounds (self.param_ranges_.map List.length) idx = true) :
    ((self.AdvanceParameterIndices idx).1 = true ↔
      idx ≠ (self.param_ranges_.map List.length).map (fun s => s - 1)) ∧
    ((self.AdvanceParameterIndices idx).1 = true →
      inBounds (self.param_ranges_.map List.length) (self.AdvanceParameterIndices idx).2 = true ∧
      rank (self.param_ranges_.map List.length) (self.AdvanceParameterIndices idx).2
        = rank (self.param_ranges_.map List.length) idx + 1 ∧
      List.Lex (· < ·) idx (self.AdvanceParameterIndices idx).2 ∧
      ∀ w, inBounds (self.param_ranges_.map List.length) w = true →
        ¬ (List.Lex (· < ·) idx w ∧ List.Lex (· < ·) w (self.AdvanceParameterIndices idx).2)) ∧
    ((self.AdvanceParameterIndices idx).1 = false →
      (self.AdvanceParameterIndices idx).2 = List.replicate self.num_params 0) := by
  have hpos := inBounds_pos _ _ hin
  obtain ⟨hl1, hl2⟩ := inBounds_last _ hpos
  have hr := rank_lt _ _ hin
  simp only [AdvanceParameterIndices, bumpIndices_spec _ _ hin]
  by_cases hlt : rank (self.param_ranges_.map List.length) idx + 1
      < (self.param_ranges_.map List.length).prod
  · simp only [hlt, if_true, Bool.not_false, true_iff, forall_true_left, Bool.true_eq_false,
      false_imp_iff, and_true]
    have hin1 := ofs2idx_inBounds _ _ hlt
    have hr1 := rank_ofs2idx _ _ hlt
    refine ⟨?_, hin1, hr1, rank_lex _ _ _ hin hin1 (by rw [hr1]; omega), ?_⟩
    · intro heq
      rw [heq] at hlt
      omega
    · intro w hw ⟨h1, h2⟩
      have g1 := lex_rank _ _ _ hin hw h1
      have g2 := lex_rank _ _ _ hw hin1 h2
      rw [hr1] at g2
      omega
  · simp only [hlt, if_false, Bool.not_true, Bool.false_eq_true, false_iff, not_not,
      false_imp_iff, forall_true_left, true_and, List.length_map, num_params, and_true]
    have : rank (self.param_ranges_.map List.length) idx
        = rank (self.param_ranges_.map List.length)
            ((self.param_ranges_.map List.length).map (fun s => s - 1)) := by omega
    have h2 := congrArg (ofs2idx (self.param_ranges_.map List.length)) this
    rwa [ofs2idx_rank _ _ hin, ofs2idx_rank _ _ hl1] at h2

/-- C18 at the axes `{-1, 0, 1}`, `{0}`, `{5, 10}` and the index vector
`[0, 0, 1]`. -/
theorem AdvanceParameterIndices_successor_witness :
    ((sixCellEngine.AdvanceParameterIndices [0, 0, 1]).1 = true ↔
      [0, 0, 1] ≠ (sixCellEngine.param_ranges_.map List.length).map (fun s => s - 1)) ∧
    ((sixCellEngine.AdvanceParameterIndices [0, 0, 1]).1 = true →
      inBounds (sixCellEngine.param_ranges_.map List.length)
        (sixCellEngine.AdvanceParameterIndices [0, 0, 1]).2 = true ∧
      rank (sixCellEngine.param_ranges_.map List.length)
          (sixCellEngine.AdvanceParameterIndices [0, 0, 1]).2
        = rank (sixCellEngine.param_ranges_.map List.length) [0, 0, 1] + 1 ∧
      List.Lex (· < ·) [0, 0, 1] (sixCellEngine.AdvanceParameterIndices [0, 0, 1]).2 ∧
      ∀ w, inBounds (sixCellEngine.param_ranges_.map List.length) w = true →
        ¬ (List.Lex (· < ·) [0, 0, 1] w ∧
          List.Lex (· < ·) w (sixCellEngine.AdvanceParameterIndices [0, 0, 1]).2)) ∧
    ((sixCellEngine.AdvanceParameterIndices [0, 0, 1]).1 = false →
      (sixCellEngine.AdvanceParameterIndices [0, 0, 1]).2
        = List.replicate sixCellEngine.num_params 0) :=
  AdvanceParameterIndices_successor sixCellEngine [0, 0, 1] (by decide)

/-- C19. `GatherCandidates` appends to the caller's list: when it returns, the
list has length `max(n, k)` for the initial length `n` and `max_candidates = k`,
its first `n` entries are the caller's, and `k - n` candidates follow them
(none when `n >= k`, where the call returns whatever the accumulator is). It
returns whenever the accumulator has a cell and the extents of the axes. The
same holds for the list passed through `Compute`. -/
theorem GatherCandidates_appends_to_list (self : HoughTransform) (candidates : List (List ℚ)) :
    (∀ self1 cands, self.GatherCandidates candidates = .ok (self1, cands) →
      cands.length = max candidates.length self.max_candidates ∧
      cands.take candidates.length = candidates ∧
      (cands.drop candidates.length).length = self.max_candidates - candidates.length) ∧
    (self.max_candidates ≤ candidates.length →
      self.GatherCandidates candidates = .ok (self, candidates)) ∧
    (self.accumulator.size = self.param_ranges_.map List.length →
      self.accumulator.data.length = self.accumulator.size.prod →
      self.accumulator.data ≠ [] →
      ∃ cands, self.GatherCandidates candidates = .ok (self, cands)) ∧
    (∀ image shape t_range self1 cands,
      self.Compute image shape t_range candidates = .ok (self1, cands) →
      cands.length = max candidates.length self.max_candidates ∧
      cands.take candidates.length = candidates ∧
      (cands.drop candidates.length).length = self.max_candidates - candidates.length) := by
  have key : ∀ (e e1 : HoughTransform) (cands : List (List ℚ)),
      e.GatherCandidates candidates = .ok (e1, cands) →
      cands.length = max candidates.length e.max_candidates ∧
      cands.take candidates.length = candidates ∧
      (cands.drop candidates.length).length = e.max_candidates - candidates.length := by
    intro e e1 cands h
    obtain ⟨new, rfl, hnew⟩ := GatherCandidates_ok _ _ _ _ h
    refine ⟨?_, by simp, by simp [hnew]⟩
    rw [List.length_append, hnew]
    omega
  refine ⟨fun self1 cands h => key self self1 cands h, ?_, ?_, ?_⟩
  · intro hle
    simp only [GatherCandidates, Nat.sub_eq_zero_of_le hle, gatherPicks, List.map_nil,
      List.append_nil]
  · intro hsize hlen hdata
    have hg := gatherPicks_eq self.param_ranges_ (self.max_candidates - candidates.length)
      self.accumulator hsize hlen hdata
    exact ⟨candidates ++ ((flatPicks (self.max_candidates - candidates.length)
        self.accumulator.data).map (pickAt self.param_ranges_ self.accumulator.size)).map
        Pick.best_param_values, by simp only [GatherCandidates, hg]⟩
  · intro image shape t_range self1 cands h
    unfold Compute at h
    cases hacc : self.Accumulate image shape t_range with
    | error e => rw [hacc] at h; cases h
    | ok self2 =>
      rw [hacc] at h
      simp only at h
      obtain ⟨-, hk, -, -⟩ := Accumulate_shape _ _ _ _ _ hacc
      have := key self2 self1 cands h
      simpa only [max_candidates, hk] using this

/-- C19 at `sixCellEngine` with one entry already in the list: five candidates
are appended after it. -/
theorem GatherCandidates_appends_to_list_witness :
    ∃ cands, sixCellEngine.GatherCandidates [[9, 9, 9]] = .ok (sixCellEngine, cands) ∧
      cands.length = 6 ∧ cands.take 1 = [[9, 9, 9]] ∧ (cands.drop 1).length = 5 := by
  obtain ⟨h1, -, h3, -⟩ := GatherCandidates_appends_to_list sixCellEngine [[9, 9, 9]]
  obtain ⟨cands, hc⟩ := h3 (by decide) (by decide) (by decide)
  obtain ⟨g1, g2, g3⟩ := h1 sixCellEngine cands hc
  exact ⟨cands, hc, g1, g2, g3⟩

/-- C20. `IsInsideIntLimits` accepts exactly the values between `INT_MIN` and
`INT_MAX`; for every accepted value the rounded value `(int) round(v)` lies
between `INT_MIN` and `INT_MAX`; and when a coordinate of the point is not
accepted, the round of the loop over `t_range` casts no vote: it changes
nothing but the local point `p`. -/
theorem IsInsideIntLimits_guards_rounding :
    (∀ v : ℚ, IsInsideIntLimits v = true ↔ (min_int : ℚ) ≤ v ∧ v ≤ (max_int : ℚ)) ∧
    (∀ v : ℚ, IsInsideIntLimits v = true →
      min_int ≤ roundInt v ∧ roundInt v ≤ max_int) ∧
    (∀ (image : Image) (shape : ShapeInterface ℚ) (mask : Option MaskInterface)
        (idx : List Nat) (vals : List ℚ) (st : AccumulateState) (t : ℚ) (in_range : Bool)
        (p : Point2d ℚ),
      shape.Calculate t vals st.p = .ok (in_range, p) →
      (IsInsideIntLimits p.x = false ∨ IsInsideIntLimits p.y = false) →
      vote image shape mask idx vals st t = .ok { st with p := p }) := by
  have hiff : ∀ v : ℚ, IsInsideIntLimits v = true ↔ (min_int : ℚ) ≤ v ∧ v ≤ (max_int : ℚ) := by
    intro v
    simp [IsInsideIntLimits]
  refine ⟨hiff, ?_, ?_⟩
  · intro v hv
    obtain ⟨h1, h2⟩ := (hiff v).mp hv
    exact roundInt_bounds v min_int max_int h1 h2 (by decide) (by decide)
  · intro image shape mask idx vals st t in_range p hcalc hout
    have hg : (in_range && IsInsideIntLimits p.y && IsInsideIntLimits p.x) = false := by
      rcases hout with h | h <;> simp [h]
    simp only [vote, hcalc, hg, Bool.false_eq_true, if_false]

/-- C20 at `v = 5/2`, which rounds to `3`. -/
theorem IsInsideIntLimits_guards_rounding_witness :
    min_int ≤ roundInt (5 / 2) ∧ roundInt (5 / 2) ≤ max_int :=
  IsInsideIntLimits_guards_rounding.2.1 (5 / 2) (by with_unfolding_all rfl)

end EasyEye
